import Mathlib

/-!
# Binary min-heaps of `MinHeap.h` and `IntMinHeap.h`

A shallow embedding of the two array-backed min-heaps and of the heap-sort usage
pattern built on them.

* The backing `std::vector` is a `List`; slot 0 is the placeholder pushed by the
  constructor, slots `1..n` hold the elements.
* `unsigned` values are natural numbers reduced modulo `2^32`; `int` keys are
  integers, and `INT_MAX` is `2^31 - 1`.
* An unchecked `vec[i]` outside the vector is undefined behaviour in the source and
  is reported as `Outcome.undefinedBehaviour`.
* `minHeapify` is recursive in the source; the embedding counts its calls with a fuel
  argument and reports `Outcome.outOfFuel` when the count is exhausted.
* A thrown `std::out_of_range` is reported together with the vector as it is at the
  moment of the throw.
* `left`, `right` and `size` are computed in `unsigned`, as in the source: they are
  exact while the heap holds at most `2^31` elements and wrap beyond.
* The nodes are held by value, except in `HeapStore`, where the vector holds the
  addresses of nodes on a free store.
-/

set_option autoImplicit false

/-- Modulus of the `unsigned` type: `2^32`. -/
def UINT_MOD : Nat := 4294967296

/-- Largest `int`. -/
def INT_MAX : Int := 2147483647

/-- Smallest `int`. -/
def INT_MIN : Int := -2147483648

/-- The two places that throw `std::out_of_range`. -/
inductive Exn where
  | emptyHeap
  | keyGreater
  deriving DecidableEq, Repr

/-- Result of running a member function on a vector of type `σ`. -/
inductive Outcome (σ : Type) (α : Type) where
  | ok (st : σ) (val : α)
  | thrown (e : Exn) (st : σ)
  | undefinedBehaviour
  | outOfFuel
  deriving DecidableEq, Repr

/-- Items of the generic heap: `class Node` of `MinHeap.h`. -/
structure Node (T : Type) where
  data : T
  key : Int
  deriving DecidableEq, Repr

namespace MinHeap

variable {T : Type}

/-- Constructor `MinHeap()`: one placeholder node at location 0. `Node()` leaves the
key uninitialised, so the placeholder is a parameter. -/
def new (placeholder : Node T) : List (Node T) := [placeholder]

/-- Member `size()`: `vec.size() - 1u`, returned as `unsigned`. The subtraction is
done in `size_t` and wraps for an empty vector; its low 32 bits are then all ones. -/
def size {α : Type} (vec : List α) : Nat :=
  if vec.length = 0 then UINT_MOD - 1 else (vec.length - 1) % UINT_MOD

/-- Member `isEmpty()`: `vec.size() == 1u`. -/
def isEmpty {α : Type} (vec : List α) : Bool := vec.length == 1

/-- Member `left(i)`: `i << 1`. -/
def left (i : Nat) : Nat := (i * 2) % UINT_MOD

/-- Member `right(i)`: `(i << 1) + 1u`. -/
def right (i : Nat) : Nat := ((i * 2) % UINT_MOD + 1) % UINT_MOD

/-- Member `parent(i)`: `i >> 1`. -/
def parent (i : Nat) : Nat := i / 2

/-- Member `swap(i, j)`; `none` when an index is outside the vector. -/
def swap (vec : List (Node T)) (i j : Nat) : Option (List (Node T)) :=
  match vec[i]?, vec[j]? with
  | some a, some b => some ((vec.set i b).set j a)
  | _, _ => none

/-- The `while` loop of `heapDecreaseKey`, one iteration per unit of fuel. -/
def decreaseLoop : Nat → List (Node T) → Nat → Outcome (List (Node T)) Unit
  | 0, _, _ => .outOfFuel
  | fuel + 1, vec, i =>
    if 1 < i then
      match vec[parent i]?, vec[i]? with
      | some np, some ni =>
        if np.key > ni.key then
          match swap vec i (parent i) with
          | some vec1 => decreaseLoop fuel vec1 (parent i)
          | none => .undefinedBehaviour
        else .ok vec ()
      | _, _ => .undefinedBehaviour
    else .ok vec ()

/-- Member `heapDecreaseKey(i, key)`. The loop is given `i + 1` iterations, which
always suffice (`decreaseLoop_spec`). -/
def heapDecreaseKey (vec : List (Node T)) (i : Nat) (key : Int) :
    Outcome (List (Node T)) Unit :=
  match vec[i]? with
  | none => .undefinedBehaviour
  | some ni =>
    if key > ni.key then .thrown .keyGreater vec
    else decreaseLoop (i + 1) (vec.set i ⟨ni.data, key⟩) i

/-- Member `insert(val, key)`. -/
def insert (vec : List (Node T)) (val : T) (key : Int) : Outcome (List (Node T)) Unit :=
  heapDecreaseKey (vec ++ [⟨val, INT_MAX⟩]) (size (vec ++ [⟨val, INT_MAX⟩])) key

/-- First test of `minHeapify`: `le < size() && vec[le]->key < vec[i]->key`. -/
def smallestLeft (vec : List (Node T)) (i : Nat) : Option Nat :=
  if left i < size vec then
    match vec[left i]?, vec[i]? with
    | some nl, some ni => some (if nl.key < ni.key then left i else i)
    | _, _ => none
  else some i

/-- Second test of `minHeapify`: `ri < size() && vec[ri]->key < vec[smallest]->key`. -/
def smallestRight (vec : List (Node T)) (i smallest : Nat) : Option Nat :=
  if right i < size vec then
    match vec[right i]?, vec[smallest]? with
    | some nr, some ns => some (if nr.key < ns.key then right i else smallest)
    | _, _ => none
  else some smallest

/-- Member `minHeapify(i)`; the fuel bounds the number of nested calls. -/
def minHeapify : Nat → List (Node T) → Nat → Outcome (List (Node T)) Unit
  | 0, _, _ => .outOfFuel
  | fuel + 1, vec, i =>
    match smallestLeft vec i with
    | none => .undefinedBehaviour
    | some s1 =>
      match smallestRight vec i s1 with
      | none => .undefinedBehaviour
      | some smallest =>
        if smallest ≠ i then
          match swap vec i smallest with
          | some vec1 => minHeapify fuel vec1 smallest
          | none => .undefinedBehaviour
        else .ok vec ()

/-- Member `removeMin()`; `fuel` is handed to `minHeapify`. -/
def removeMin (fuel : Nat) (vec : List (Node T)) : Outcome (List (Node T)) T :=
  if size vec = 0 then .thrown .emptyHeap vec
  else
    match vec[1]?, vec[size vec]? with
    | some n1, some last =>
      match minHeapify fuel (vec.set 1 last) 1 with
      | .ok vec2 _ =>
        if vec2.length = 0 then .undefinedBehaviour else .ok vec2.dropLast n1.data
      | .thrown e st => .thrown e st
      | .undefinedBehaviour => .undefinedBehaviour
      | .outOfFuel => .outOfFuel
    | _, _ => .undefinedBehaviour

end MinHeap

namespace IntMinHeap

/-- Constructor `IntMinHeap()`: `INT_MAX` at location 0. -/
def new : List Int := [INT_MAX]

/-- Member `size()`: `vec.size() - 1u`, returned as `unsigned`. The subtraction is
done in `size_t` and wraps for an empty vector; its low 32 bits are then all ones. -/
def size (vec : List Int) : Nat :=
  if vec.length = 0 then UINT_MOD - 1 else (vec.length - 1) % UINT_MOD

/-- Member `isEmpty()`: `vec.size() == 1u`. -/
def isEmpty (vec : List Int) : Bool := vec.length == 1

/-- Member `left(i)`: `i << 1`. -/
def left (i : Nat) : Nat := (i * 2) % UINT_MOD

/-- Member `right(i)`: `(i << 1) + 1u`. -/
def right (i : Nat) : Nat := ((i * 2) % UINT_MOD + 1) % UINT_MOD

/-- Member `parent(i)`: `i >> 1`. -/
def parent (i : Nat) : Nat := i / 2

/-- Member `swap(i, j)`; `none` when an index is outside the vector. -/
def swap (vec : List Int) (i j : Nat) : Option (List Int) :=
  match vec[i]?, vec[j]? with
  | some a, some b => some ((vec.set i b).set j a)
  | _, _ => none

/-- The `while` loop of `heapDecreaseKey`, one iteration per unit of fuel. -/
def decreaseLoop : Nat → List Int → Nat → Outcome (List Int) Unit
  | 0, _, _ => .outOfFuel
  | fuel + 1, vec, i =>
    if 1 < i then
      match vec[parent i]?, vec[i]? with
      | some kp, some ki =>
        if kp > ki then
          match swap vec i (parent i) with
          | some vec1 => decreaseLoop fuel vec1 (parent i)
          | none => .undefinedBehaviour
        else .ok vec ()
      | _, _ => .undefinedBehaviour
    else .ok vec ()

/-- Member `heapDecreaseKey(i, key)`, with `i + 1` loop iterations. -/
def heapDecreaseKey (vec : List Int) (i : Nat) (key : Int) : Outcome (List Int) Unit :=
  match vec[i]? with
  | none => .undefinedBehaviour
  | some ki =>
    if key > ki then .thrown .keyGreater vec
    else decreaseLoop (i + 1) (vec.set i key) i

/-- Member `insert(val)`. -/
def insert (vec : List Int) (val : Int) : Outcome (List Int) Unit :=
  heapDecreaseKey (vec ++ [INT_MAX]) (size (vec ++ [INT_MAX])) val

/-- First test of `minHeapify`: `le < size() && vec[le] < vec[i]`. -/
def smallestLeft (vec : List Int) (i : Nat) : Option Nat :=
  if left i < size vec then
    match vec[left i]?, vec[i]? with
    | some kl, some ki => some (if kl < ki then left i else i)
    | _, _ => none
  else some i

/-- Second test of `minHeapify`: `ri < size() && vec[ri] < vec[smallest]`. -/
def smallestRight (vec : List Int) (i smallest : Nat) : Option Nat :=
  if right i < size vec then
    match vec[right i]?, vec[smallest]? with
    | some kr, some ks => some (if kr < ks then right i else smallest)
    | _, _ => none
  else some smallest

/-- Member `minHeapify(i)`; the fuel bounds the number of nested calls. -/
def minHeapify : Nat → List Int → Nat → Outcome (List Int) Unit
  | 0, _, _ => .outOfFuel
  | fuel + 1, vec, i =>
    match smallestLeft vec i with
    | none => .undefinedBehaviour
    | some s1 =>
      match smallestRight vec i s1 with
      | none => .undefinedBehaviour
      | some smallest =>
        if smallest ≠ i then
          match swap vec i smallest with
          | some vec1 => minHeapify fuel vec1 smallest
          | none => .undefinedBehaviour
        else .ok vec ()

/-- Member `removeMin()`; `fuel` is handed to `minHeapify`. -/
def removeMin (fuel : Nat) (vec : List Int) : Outcome (List Int) Int :=
  if size vec = 0 then .thrown .emptyHeap vec
  else
    match vec[1]?, vec[size vec]? with
    | some min, some last =>
      match minHeapify fuel (vec.set 1 last) 1 with
      | .ok vec2 _ =>
        if vec2.length = 0 then .undefinedBehaviour else .ok vec2.dropLast min
      | .thrown e st => .thrown e st
      | .undefinedBehaviour => .undefinedBehaviour
      | .outOfFuel => .outOfFuel
    | _, _ => .undefinedBehaviour

/-- Heap-sort usage pattern, first half: `insert(v)` for each `v` in order. -/
def insertAll : List Int → List Int → Outcome (List Int) Unit
  | vec, [] => .ok vec ()
  | vec, v :: rest =>
    match insert vec v with
    | .ok vec1 _ => insertAll vec1 rest
    | .thrown e st => .thrown e st
    | .undefinedBehaviour => .undefinedBehaviour
    | .outOfFuel => .outOfFuel

/-- Heap-sort usage pattern, second half: `count` calls of `removeMin()`, results in
order. -/
def removeAll (fuel : Nat) : Nat → List Int → Outcome (List Int) (List Int)
  | 0, vec => .ok vec []
  | count + 1, vec =>
    match removeMin fuel vec with
    | .ok vec1 m =>
      match removeAll fuel count vec1 with
      | .ok vec2 ms => .ok vec2 (m :: ms)
      | .thrown e st => .thrown e st
      | .undefinedBehaviour => .undefinedBehaviour
      | .outOfFuel => .outOfFuel
    | .thrown e st => .thrown e st
    | .undefinedBehaviour => .undefinedBehaviour
    | .outOfFuel => .outOfFuel

/-- Heap-sort: a new heap, all inserts, then as many removals. -/
def heapSort (fuel : Nat) (xs : List Int) : Outcome (List Int) (List Int) :=
  match insertAll new xs with
  | .ok vec _ => removeAll fuel xs.length vec
  | .thrown e st => .thrown e st
  | .undefinedBehaviour => .undefinedBehaviour
  | .outOfFuel => .outOfFuel

end IntMinHeap

/-! ## Usage patterns and reachable heaps -/

namespace MinHeap

variable {T : Type}

/-- Usage pattern of the test driver, first half: `insert(val, key)` for each pair in
order. -/
def insertAll : List (Node T) → List (T × Int) → Outcome (List (Node T)) Unit
  | vec, [] => .ok vec ()
  | vec, p :: rest =>
    match insert vec p.1 p.2 with
    | .ok vec1 _ => insertAll vec1 rest
    | .thrown e st => .thrown e st
    | .undefinedBehaviour => .undefinedBehaviour
    | .outOfFuel => .outOfFuel

/-- Usage pattern of the test driver, second half: `count` calls of `removeMin()`,
the returned payloads in order. -/
def removeAll (fuel : Nat) : Nat → List (Node T) → Outcome (List (Node T)) (List T)
  | 0, vec => .ok vec []
  | count + 1, vec =>
    match removeMin fuel vec with
    | .ok vec1 m =>
      match removeAll fuel count vec1 with
      | .ok vec2 ms => .ok vec2 (m :: ms)
      | .thrown e st => .thrown e st
      | .undefinedBehaviour => .undefinedBehaviour
      | .outOfFuel => .outOfFuel
    | .thrown e st => .thrown e st
    | .undefinedBehaviour => .undefinedBehaviour
    | .outOfFuel => .outOfFuel

/-- The test driver's pattern on a new heap: insert every pair, then remove as many
times as there were pairs. -/
def insertThenRemoveAll (fuel : Nat) (placeholder : Node T) (pairs : List (T × Int)) :
    Outcome (List (Node T)) (List T) :=
  match insertAll (new placeholder) pairs with
  | .ok vec _ => removeAll fuel pairs.length vec
  | .thrown e st => .thrown e st
  | .undefinedBehaviour => .undefinedBehaviour
  | .outOfFuel => .outOfFuel

/-- Placeholder of the heap of `TestMinHeap.cpp`, with one choice for the value its
uninitialised key happens to hold. -/
def testPlaceholder : Node String := ⟨"", 0⟩

/-- The six inserts of `TestMinHeap.cpp`, in order. -/
def testPairs : List (String × Int) :=
  [("job c", 3), ("job a", 1), ("job e", 5), ("job b", 2), ("job d", 4), ("RUSH!", -5)]

/-- The vector of `TestMinHeap.cpp` after its six inserts. -/
def testHeap : List (Node String) :=
  [⟨"", 0⟩, ⟨"RUSH!", -5⟩, ⟨"job b", 2⟩, ⟨"job a", 1⟩, ⟨"job c", 3⟩, ⟨"job d", 4⟩, ⟨"job e", 5⟩]

/-- Heaps reachable from the constructor by any finite sequence of `insert` calls with
an `int` key and of `removeMin` calls that returned. -/
inductive Reachable : List (Node T) → Prop where
  | init (placeholder : Node T) : Reachable (MinHeap.new placeholder)
  | afterInsert (vec vec1 : List (Node T)) (val : T) (key : Int) :
      Reachable vec → INT_MIN ≤ key → key ≤ INT_MAX →
      MinHeap.insert vec val key = .ok vec1 () → Reachable vec1
  | afterRemoveMin (fuel : Nat) (vec vec1 : List (Node T)) (x : T) :
      Reachable vec → MinHeap.removeMin fuel vec = .ok vec1 x → Reachable vec1

/-- The reachable heaps that never held more than `2^31` elements: `insert` is called
only on a vector of at most `2^31` slots, placeholder included. On these `left(i)` and
`right(i)` are `2i` and `2i + 1` for every slot `i` below `size()`. -/
inductive ReachableCapped : List (Node T) → Prop where
  | init (placeholder : Node T) : ReachableCapped (MinHeap.new placeholder)
  | afterInsert (vec vec1 : List (Node T)) (val : T) (key : Int) :
      ReachableCapped vec → vec.length ≤ 2147483648 → INT_MIN ≤ key → key ≤ INT_MAX →
      MinHeap.insert vec val key = .ok vec1 () → ReachableCapped vec1
  | afterRemoveMin (fuel : Nat) (vec vec1 : List (Node T)) (x : T) :
      ReachableCapped vec → MinHeap.removeMin fuel vec = .ok vec1 x → ReachableCapped vec1

/-- A slot of the vector seen as a pointer: it points to a live node or to a node
that was deleted. -/
inductive Ptr (T : Type) where
  | live (n : Node T)
  | dangling
  deriving DecidableEq, Repr

/-- The vector of a heap whose nodes are all live. -/
def toPtrs (vec : List (Node T)) : List (Ptr T) := vec.map Ptr.live

/-- Member `clear()` on the pointers: `delete *i` for every slot after the first; the
vector itself is left as it is. -/
def clear : List (Ptr T) → List (Ptr T)
  | [] => []
  | p :: rest => p :: rest.map (fun _ => Ptr.dangling)

/-- Statement `delete vec[0]`. -/
def deleteFirst : List (Ptr T) → List (Ptr T)
  | [] => []
  | _ :: rest => Ptr.dangling :: rest

/-- Member `copy(heap)` on the pointers: push a pointer to a new node for every node
of `heap.vec`. -/
def copyPtrs (vec : List (Ptr T)) (heap : List (Node T)) : List (Ptr T) :=
  vec ++ heap.map (fun n => Ptr.live ⟨n.data, n.key⟩)

/-- Member `operator=`: `clear(); delete vec[0]; copy(heap);`. -/
def assign (vec : List (Ptr T)) (heap : List (Node T)) : List (Ptr T) :=
  copyPtrs (deleteFirst (clear vec)) heap

/-- Calls a client can make. -/
inductive Op (T : Type) where
  | insert (val : T) (key : Int)
  | removeMin

/-- What a call did: an insert that returned, a removal that returned a payload, or a
call that threw. -/
inductive Event (T : Type) where
  | inserted
  | removed (x : T)
  | threw (e : Exn)

/-- Run a sequence of calls. A call that throws leaves the vector as it is at the
throw and the sequence goes on; undefined behaviour or exhausted fuel ends the run
with `none`. The result is the final vector and what each call did. -/
def run (fuel : Nat) : List (Op T) → List (Node T) → Option (List (Node T) × List (Event T))
  | [], vec => some (vec, [])
  | .insert val key :: ops, vec =>
    match insert vec val key with
    | .ok vec1 _ => (run fuel ops vec1).map (fun r => (r.1, .inserted :: r.2))
    | .thrown e st => (run fuel ops st).map (fun r => (r.1, .threw e :: r.2))
    | .undefinedBehaviour => none
    | .outOfFuel => none
  | .removeMin :: ops, vec =>
    match removeMin fuel vec with
    | .ok vec1 x => (run fuel ops vec1).map (fun r => (r.1, .removed x :: r.2))
    | .thrown e st => (run fuel ops st).map (fun r => (r.1, .threw e :: r.2))
    | .undefinedBehaviour => none
    | .outOfFuel => none

/-- Number of `insert` calls in a sequence. -/
def countInsertOps : List (Op T) → Nat
  | [] => 0
  | .insert _ _ :: ops => countInsertOps ops + 1
  | .removeMin :: ops => countInsertOps ops

/-- Number of inserts that returned. -/
def countInserted : List (Event T) → Nat
  | [] => 0
  | .inserted :: es => countInserted es + 1
  | _ :: es => countInserted es

/-- Number of removals that returned a payload. -/
def countRemoved : List (Event T) → Nat
  | [] => 0
  | .removed _ :: es => countRemoved es + 1
  | _ :: es => countRemoved es

/-- Every key of an `insert` call is an `int`. -/
def keysInRange : List (Op T) → Prop
  | [] => True
  | .insert _ key :: ops => INT_MIN ≤ key ∧ key ≤ INT_MAX ∧ keysInRange ops
  | .removeMin :: ops => keysInRange ops

end MinHeap

namespace IntMinHeap

/-- Heaps reachable from the constructor by any finite sequence of `insert` calls with
an `int` and of `removeMin` calls that returned. -/
inductive Reachable : List Int → Prop where
  | init : Reachable IntMinHeap.new
  | afterInsert (vec vec1 : List Int) (val : Int) :
      Reachable vec → INT_MIN ≤ val → val ≤ INT_MAX →
      IntMinHeap.insert vec val = .ok vec1 () → Reachable vec1
  | afterRemoveMin (fuel : Nat) (vec vec1 : List Int) (x : Int) :
      Reachable vec → IntMinHeap.removeMin fuel vec = .ok vec1 x → Reachable vec1

/-- The reachable heaps that never held more than `2^31` elements: `insert` is called
only on a vector of at most `2^31` slots, placeholder included. -/
inductive ReachableCapped : List Int → Prop where
  | init : ReachableCapped IntMinHeap.new
  | afterInsert (vec vec1 : List Int) (val : Int) :
      ReachableCapped vec → vec.length ≤ 2147483648 → INT_MIN ≤ val → val ≤ INT_MAX →
      IntMinHeap.insert vec val = .ok vec1 () → ReachableCapped vec1
  | afterRemoveMin (fuel : Nat) (vec vec1 : List Int) (x : Int) :
      ReachableCapped vec → IntMinHeap.removeMin fuel vec = .ok vec1 x → ReachableCapped vec1

/-- The generic heap of `int` whose nodes carry each value as data and as key. -/
def liftVec (vec : List Int) : List (Node Int) := vec.map (fun x => ⟨x, x⟩)

/-- Transport of an outcome of the integer heap to the generic heap. -/
def liftOutcome {α : Type} : Outcome (List Int) α → Outcome (List (Node Int)) α
  | .ok st a => .ok (liftVec st) a
  | .thrown e st => .thrown e (liftVec st)
  | .undefinedBehaviour => .undefinedBehaviour
  | .outOfFuel => .outOfFuel

end IntMinHeap

/-! ## Clearing, the spec's removal, subtrees -/

namespace IntMinHeap

/-- Member `clear()`: `vec.clear()`, which empties the vector, placeholder included. -/
def clear (_vec : List Int) : List Int := []

end IntMinHeap

namespace MinHeap

variable {T : Type}

/-- Choice of `smallest` in the spec's `siftDown(i)` on an array with elements in
slots `1..n`: the left child `2i` counts if `2i <= n`, the right child `2i+1` if
`2i+1 <= n`, and a later candidate wins only with a strictly smaller key. Indices are
mathematical integers. `none` when a slot it reads is not there. -/
def specSmallest (arr : List (Node T)) (n i : Nat) : Option Nat :=
  let afterLeft : Option Nat :=
    if 2 * i ≤ n then
      match arr[2 * i]?, arr[i]? with
      | some nl, some ni => some (if nl.key < ni.key then 2 * i else i)
      | _, _ => none
    else some i
  match afterLeft with
  | none => none
  | some s1 =>
    if 2 * i + 1 ≤ n then
      match arr[2 * i + 1]?, arr[s1]? with
      | some nr, some ns => some (if nr.key < ns.key then 2 * i + 1 else s1)
      | _, _ => none
    else some s1

/-- The spec's `siftDown(i)` (section 4.1), written from its words: take `smallest`
among `i` and its existing children; if it is not `i`, swap slots `i` and `smallest`
and recurse into `smallest`, otherwise stop. `n` is `length(array) - 1`. -/
def specSiftDown : Nat → List (Node T) → Nat → Outcome (List (Node T)) Unit
  | 0, _, _ => .outOfFuel
  | fuel + 1, arr, i =>
    match specSmallest arr (arr.length - 1) i with
    | none => .undefinedBehaviour
    | some smallest =>
      if smallest ≠ i then
        match swap arr i smallest with
        | some arr1 => specSiftDown fuel arr1 smallest
        | none => .undefinedBehaviour
      else .ok arr ()

/-- The spec's `removeMin()` (section 4.1), written from its words: fail if `n = 0`;
otherwise capture the payload at index 1, move the element at index `n` into index 1,
shrink the array by one slot, then `siftDown(1)`, and return the captured payload. -/
def specRemoveMin (fuel : Nat) (arr : List (Node T)) : Outcome (List (Node T)) T :=
  if arr.length - 1 = 0 then .thrown .emptyHeap arr
  else
    match arr[1]?, arr[arr.length - 1]? with
    | some n1, some last =>
      match specSiftDown fuel ((arr.set 1 last).dropLast) 1 with
      | .ok arr2 _ => .ok arr2 n1.data
      | .thrown e st => .thrown e st
      | .undefinedBehaviour => .undefinedBehaviour
      | .outOfFuel => .outOfFuel
    | _, _ => .undefinedBehaviour

/-- Slot `j` lies in the subtree rooted at slot `i`: it is `i` itself, or its parent
`j / 2` lies in that subtree. -/
inductive InSubtree (i : Nat) : Nat → Prop where
  | root : InSubtree i i
  | child (j : Nat) : InSubtree i (j / 2) → InSubtree i j

end MinHeap

/-! ## Indices used by the member functions -/

namespace MinHeap

variable {T : Type}

/-- Indices `swap(i, j)` uses, in the order of evaluation: `t = vec[i]` reads slot `i`,
`vec[i] = vec[j]` reads slot `j` and then writes slot `i`, `vec[j] = t` writes slot
`j`. -/
def swapAccesses (i j : Nat) : List Nat := [i, j, i, j]

/-- Indices the loop of `heapDecreaseKey` uses in `vec[...]`, in order: the test
`vec[p]->key > vec[i]->key`, reached only when `i > 1`, then `swap(i, p)`. -/
def decreaseLoopAccesses : Nat → List (Node T) → Nat → List Nat
  | 0, _, _ => []
  | fuel + 1, vec, i =>
    if 1 < i then
      parent i :: i ::
        match vec[parent i]?, vec[i]? with
        | some np, some ni =>
          if np.key > ni.key then
            swapAccesses i (parent i) ++
              match swap vec i (parent i) with
              | some vec1 => decreaseLoopAccesses fuel vec1 (parent i)
              | none => []
          else []
        | _, _ => []
    else []

/-- Indices `heapDecreaseKey(i, key)` uses: the test `key > vec[i]->key`, then
`vec[i]->key = key` and the loop. -/
def heapDecreaseKeyAccesses (vec : List (Node T)) (i : Nat) (key : Int) : List Nat :=
  i ::
    match vec[i]? with
    | none => []
    | some ni =>
      if key > ni.key then []
      else i :: decreaseLoopAccesses (i + 1) (vec.set i ⟨ni.data, key⟩) i

/-- Indices `insert(val, key)` uses, all after the `push_back`. -/
def insertAccesses (vec : List (Node T)) (val : T) (key : Int) : List Nat :=
  heapDecreaseKeyAccesses (vec ++ [⟨val, INT_MAX⟩]) (size (vec ++ [⟨val, INT_MAX⟩])) key

/-- Indices `minHeapify(i)` uses: `vec[le]`, `vec[i]` when `le < size()`; `vec[ri]`,
`vec[smallest]` when `ri < size()`; then `swap(i, smallest)` and the nested call. -/
def minHeapifyAccesses : Nat → List (Node T) → Nat → List Nat
  | 0, _, _ => []
  | fuel + 1, vec, i =>
    (if left i < size vec then [left i, i] else []) ++
      match smallestLeft vec i with
      | none => []
      | some s1 =>
        (if right i < size vec then [right i, s1] else []) ++
          match smallestRight vec i s1 with
          | none => []
          | some smallest =>
            if smallest ≠ i then
              swapAccesses i smallest ++
                match swap vec i smallest with
                | some vec1 => minHeapifyAccesses fuel vec1 smallest
                | none => []
            else []

/-- Indices `removeMin()` uses: `vec[1]->data`, `delete vec[1]`,
`vec[1] = vec[size()]`, which reads slot `size()` and then writes slot 1, then
`minHeapify(1)`. -/
def removeMinAccesses (fuel : Nat) (vec : List (Node T)) : List Nat :=
  if size vec = 0 then []
  else
    1 :: 1 :: size vec :: 1 ::
      match vec[1]?, vec[size vec]? with
      | some _, some last => minHeapifyAccesses fuel (vec.set 1 last) 1
      | _, _ => []

end MinHeap

/-! ## Step-by-step runs of the two heaps -/

namespace MinHeap

variable {T : Type}

/-- Run a sequence of calls and record, after every call, what it did, `size()` and
the slots after the placeholder. `none` ends the record when a call runs into
undefined behaviour or out of fuel; a call that throws leaves the vector as it is at
the throw. -/
def trace (fuel : Nat) :
    List (Op T) → List (Node T) → List (Option (Event T × Nat × List (Node T)))
  | [], _ => []
  | .insert val key :: ops, vec =>
    match insert vec val key with
    | .ok vec1 _ => some (.inserted, size vec1, vec1.tail) :: trace fuel ops vec1
    | .thrown e st => some (.threw e, size st, st.tail) :: trace fuel ops st
    | .undefinedBehaviour => [none]
    | .outOfFuel => [none]
  | .removeMin :: ops, vec =>
    match removeMin fuel vec with
    | .ok vec1 x => some (.removed x, size vec1, vec1.tail) :: trace fuel ops vec1
    | .thrown e st => some (.threw e, size st, st.tail) :: trace fuel ops st
    | .undefinedBehaviour => [none]
    | .outOfFuel => [none]

end MinHeap

namespace IntMinHeap

/-- Calls a client of the integer heap can make. -/
inductive Op where
  | insert (val : Int)
  | removeMin

/-- The corresponding call on `MinHeap<int>`: `insert(v)` becomes `insert(v, v)`. -/
def toGeneric : Op → MinHeap.Op Int
  | .insert val => .insert val val
  | .removeMin => .removeMin

/-- Run a sequence of calls on the integer heap and record, after every call, what it
did, `size()` and the slots after the placeholder, as `MinHeap.trace` does. -/
def trace (fuel : Nat) :
    List Op → List Int → List (Option (MinHeap.Event Int × Nat × List Int))
  | [], _ => []
  | .insert val :: ops, vec =>
    match insert vec val with
    | .ok vec1 _ => some (.inserted, size vec1, vec1.tail) :: trace fuel ops vec1
    | .thrown e st => some (.threw e, size st, st.tail) :: trace fuel ops st
    | .undefinedBehaviour => [none]
    | .outOfFuel => [none]
  | .removeMin :: ops, vec =>
    match removeMin fuel vec with
    | .ok vec1 x => some (.removed x, size vec1, vec1.tail) :: trace fuel ops vec1
    | .thrown e st => some (.threw e, size st, st.tail) :: trace fuel ops st
    | .undefinedBehaviour => [none]
    | .outOfFuel => [none]

/-- Number of `insert` calls in a sequence. -/
def countInserts : List Op → Nat
  | [] => 0
  | .insert _ :: ops => countInserts ops + 1
  | .removeMin :: ops => countInserts ops

/-- Every inserted value is an `int`. -/
def valuesInRange : List Op → Prop
  | [] => True
  | .insert val :: ops => INT_MIN ≤ val ∧ val ≤ INT_MAX ∧ valuesInRange ops
  | .removeMin :: ops => valuesInRange ops

/-- A record of the generic heap read through one field of its nodes. -/
def readRecord (f : Node Int → Int) :
    Option (MinHeap.Event Int × Nat × List (Node Int)) →
      Option (MinHeap.Event Int × Nat × List Int)
  | none => none
  | some (e, n, slots) => some (e, n, slots.map f)

end IntMinHeap

/-! ## The generic heap with its nodes on the free store

`MinHeap<T>` keeps pointers: `vec` is a `vector<Node *>`, `insert` and `copy` allocate
their nodes with `new`, `removeMin` deletes one. The definitions above hold the nodes by
value. Here the free store is a list of cells, an address is an index into it and
`delete` leaves `none` in the cell; the member functions act on the store and on the
vector of addresses. -/

namespace HeapStore

variable {T : Type}

/-- The node a pointer refers to in the free store `mem`, where an address is an index
and a deleted node leaves `none`; `none` for a pointer to a deleted node. -/
def deref (mem : List (Option (Node T))) (a : Nat) : Option (Node T) :=
  match mem[a]? with
  | some (some n) => some n
  | _ => none

/-- Statement `delete p`. -/
def release (mem : List (Option (Node T))) (a : Nat) : List (Option (Node T)) :=
  mem.set a none

/-- Expression `vec[i]->...`: the node the pointer in slot `i` refers to. -/
def nodeAt (mem : List (Option (Node T))) (vec : List Nat) (i : Nat) : Option (Node T) :=
  match vec[i]? with
  | some a => deref mem a
  | none => none

/-- Member `swap(i, j)`: the two pointers change places. -/
def swap (vec : List Nat) (i j : Nat) : Option (List Nat) :=
  match vec[i]?, vec[j]? with
  | some a, some b => some ((vec.set i b).set j a)
  | _, _ => none

/-- First test of `minHeapify`: `le < size() && vec[le]->key < vec[i]->key`. -/
def smallestLeft (mem : List (Option (Node T))) (vec : List Nat) (i : Nat) : Option Nat :=
  if MinHeap.left i < MinHeap.size vec then
    match nodeAt mem vec (MinHeap.left i), nodeAt mem vec i with
    | some nl, some ni => some (if nl.key < ni.key then MinHeap.left i else i)
    | _, _ => none
  else some i

/-- Second test of `minHeapify`: `ri < size() && vec[ri]->key < vec[smallest]->key`. -/
def smallestRight (mem : List (Option (Node T))) (vec : List Nat) (i smallest : Nat) :
    Option Nat :=
  if MinHeap.right i < MinHeap.size vec then
    match nodeAt mem vec (MinHeap.right i), nodeAt mem vec smallest with
    | some nr, some ns => some (if nr.key < ns.key then MinHeap.right i else smallest)
    | _, _ => none
  else some smallest

/-- Member `minHeapify(i)` on the vector of pointers; the store is only read. -/
def minHeapify (mem : List (Option (Node T))) : Nat → List Nat → Nat → Outcome (List Nat) Unit
  | 0, _, _ => .outOfFuel
  | fuel + 1, vec, i =>
    match smallestLeft mem vec i with
    | none => .undefinedBehaviour
    | some s1 =>
      match smallestRight mem vec i s1 with
      | none => .undefinedBehaviour
      | some smallest =>
        if smallest ≠ i then
          match swap vec i smallest with
          | some vec1 => minHeapify mem fuel vec1 smallest
          | none => .undefinedBehaviour
        else .ok vec ()

/-- Member `removeMin()`: `T min = vec[1]->data; delete vec[1]; vec[1] = vec[size()];
minHeapify(1); vec.pop_back(); return min;`. The state is the store and the vector. -/
def removeMin (fuel : Nat) (mem : List (Option (Node T))) (vec : List Nat) :
    Outcome (List (Option (Node T)) × List Nat) T :=
  if MinHeap.size vec = 0 then .thrown .emptyHeap (mem, vec)
  else
    match vec[1]?, vec[MinHeap.size vec]? with
    | some a1, some alast =>
      match deref mem a1 with
      | some n1 =>
        match minHeapify (release mem a1) fuel (vec.set 1 alast) 1 with
        | .ok vec2 _ =>
          if vec2.length = 0 then .undefinedBehaviour
          else .ok (release mem a1, vec2.dropLast) n1.data
        | .thrown e st => .thrown e (release mem a1, st)
        | .undefinedBehaviour => .undefinedBehaviour
        | .outOfFuel => .outOfFuel
      | none => .undefinedBehaviour
    | _, _ => .undefinedBehaviour

/-- Member `copy(heap)`: for every pointer of `heap.vec`, in order,
`vec.push_back(new Node((*i)->data, (*i)->key))`; the new node gets a fresh address.
`none` when a pointer of `heap.vec` refers to a deleted node. -/
def copy : List (Option (Node T)) → List Nat → List Nat →
    Option (List (Option (Node T)) × List Nat)
  | mem, vec, [] => some (mem, vec)
  | mem, vec, a :: rest =>
    match deref mem a with
    | some n => copy (mem ++ [some ⟨n.data, n.key⟩]) (vec ++ [mem.length]) rest
    | none => none

/-- Copy constructor `MinHeap(const MinHeap<T>&)`: `copy(heap)` on an empty vector. -/
def copyConstruct (mem : List (Option (Node T))) (heap : List Nat) :
    Option (List (Option (Node T)) × List Nat) :=
  copy mem [] heap

/-- The test driver's loop: `count` calls of `removeMin()`, the payloads in order. -/
def removeAll (fuel : Nat) : Nat → List (Option (Node T)) → List Nat →
    Outcome (List (Option (Node T)) × List Nat) (List T)
  | 0, mem, vec => .ok (mem, vec) []
  | count + 1, mem, vec =>
    match removeMin fuel mem vec with
    | .ok st m =>
      match removeAll fuel count st.1 st.2 with
      | .ok st2 ms => .ok st2 (m :: ms)
      | .thrown e st2 => .thrown e st2
      | .undefinedBehaviour => .undefinedBehaviour
      | .outOfFuel => .outOfFuel
    | .thrown e st => .thrown e st
    | .undefinedBehaviour => .undefinedBehaviour
    | .outOfFuel => .outOfFuel

/-- The pointers of `vec` refer, slot by slot, to the live nodes `nodes`. -/
def Rep (mem : List (Option (Node T))) (vec : List Nat) (nodes : List (Node T)) : Prop :=
  vec.map (deref mem) = nodes.map some

/-- Constructor `MinHeap()`: `vec.push_back(new MinHeap<T>::Node())`. The store may
already hold the nodes of other heaps. -/
def construct (mem : List (Option (Node T))) (placeholder : Node T) :
    List (Option (Node T)) × List Nat :=
  (mem ++ [some placeholder], [mem.length])

/-- The `while` loop of `heapDecreaseKey` on the pointers, one iteration per unit of
fuel. -/
def decreaseLoop (mem : List (Option (Node T))) : Nat → List Nat → Nat → Outcome (List Nat) Unit
  | 0, _, _ => .outOfFuel
  | fuel + 1, vec, i =>
    if 1 < i then
      match nodeAt mem vec (MinHeap.parent i), nodeAt mem vec i with
      | some np, some ni =>
        if np.key > ni.key then
          match swap vec i (MinHeap.parent i) with
          | some vec1 => decreaseLoop mem fuel vec1 (MinHeap.parent i)
          | none => .undefinedBehaviour
        else .ok vec ()
      | _, _ => .undefinedBehaviour
    else .ok vec ()

/-- Member `heapDecreaseKey(i, key)`: the test, then `vec[i]->key = key`, which writes
into the node, then the loop. -/
def heapDecreaseKey (mem : List (Option (Node T))) (vec : List Nat) (i : Nat) (key : Int) :
    Outcome (List (Option (Node T)) × List Nat) Unit :=
  match vec[i]? with
  | none => .undefinedBehaviour
  | some a =>
    match deref mem a with
    | none => .undefinedBehaviour
    | some ni =>
      if key > ni.key then .thrown .keyGreater (mem, vec)
      else
        match decreaseLoop (mem.set a (some ⟨ni.data, key⟩)) (i + 1) vec i with
        | .ok vec1 _ => .ok (mem.set a (some ⟨ni.data, key⟩), vec1) ()
        | .thrown e st => .thrown e (mem.set a (some ⟨ni.data, key⟩), st)
        | .undefinedBehaviour => .undefinedBehaviour
        | .outOfFuel => .outOfFuel

/-- Member `insert(val, key)`: `vec.push_back(new Node(val, INT_MAX));
heapDecreaseKey(size(), key);`. -/
def insert (mem : List (Option (Node T))) (vec : List Nat) (val : T) (key : Int) :
    Outcome (List (Option (Node T)) × List Nat) Unit :=
  heapDecreaseKey (mem ++ [some ⟨val, INT_MAX⟩]) (vec ++ [mem.length])
    (MinHeap.size (vec ++ [mem.length])) key

/-- Heaps on the store reachable from the constructor by any finite sequence of
`insert` calls with an `int` key and of `removeMin` calls that returned. -/
inductive Reachable : List (Option (Node T)) → List Nat → Prop where
  | init (mem : List (Option (Node T))) (placeholder : Node T) :
      Reachable (construct mem placeholder).1 (construct mem placeholder).2
  | afterInsert (mem mem1 : List (Option (Node T))) (vec vec1 : List Nat) (val : T)
      (key : Int) : Reachable mem vec → INT_MIN ≤ key → key ≤ INT_MAX →
      insert mem vec val key = .ok (mem1, vec1) () → Reachable mem1 vec1
  | afterRemoveMin (fuel : Nat) (mem mem1 : List (Option (Node T))) (vec vec1 : List Nat)
      (x : T) : Reachable mem vec → removeMin fuel mem vec = .ok (mem1, vec1) x →
      Reachable mem1 vec1

/-- The reachable heaps on the store that never held more than `2^31` elements: `insert`
is called only on a vector of at most `2^31` slots, placeholder included. -/
inductive ReachableCapped : List (Option (Node T)) → List Nat → Prop where
  | init (mem : List (Option (Node T))) (placeholder : Node T) :
      ReachableCapped (construct mem placeholder).1 (construct mem placeholder).2
  | afterInsert (mem mem1 : List (Option (Node T))) (vec vec1 : List Nat) (val : T)
      (key : Int) : ReachableCapped mem vec → vec.length ≤ 2147483648 → INT_MIN ≤ key →
      key ≤ INT_MAX → insert mem vec val key = .ok (mem1, vec1) () →
      ReachableCapped mem1 vec1
  | afterRemoveMin (fuel : Nat) (mem mem1 : List (Option (Node T))) (vec vec1 : List Nat)
      (x : T) : ReachableCapped mem vec → removeMin fuel mem vec = .ok (mem1, vec1) x →
      ReachableCapped mem1 vec1

/-- Usage pattern of the test driver on the store: `insert(val, key)` for each pair in
order. -/
def insertAll : List (Option (Node T)) → List Nat → List (T × Int) →
    Outcome (List (Option (Node T)) × List Nat) Unit
  | mem, vec, [] => .ok (mem, vec) ()
  | mem, vec, p :: rest =>
    match insert mem vec p.1 p.2 with
    | .ok st _ => insertAll st.1 st.2 rest
    | .thrown e st => .thrown e st
    | .undefinedBehaviour => .undefinedBehaviour
    | .outOfFuel => .outOfFuel

/-- The free store of `TestMinHeap.cpp` after its six inserts: the placeholder, then
the six nodes in the order of their allocation. -/
def testStore : List (Option (Node String)) :=
  [some ⟨"", 0⟩, some ⟨"job c", 3⟩, some ⟨"job a", 1⟩, some ⟨"job e", 5⟩, some ⟨"job b", 2⟩,
    some ⟨"job d", 4⟩, some ⟨"RUSH!", -5⟩]

/-- The vector of pointers of `TestMinHeap.cpp` after its six inserts. -/
def testVec : List Nat := [0, 6, 4, 2, 1, 5, 3]

end HeapStore

/-! ## Predicates used in the proofs -/

namespace MinHeap

variable {T : Type}

/-- Key stored in slot `i` (0 outside the vector). -/
def keyAt (vec : List (Node T)) (i : Nat) : Int :=
  match vec[i]? with
  | some n => n.key
  | none => 0

/-- Node that `insert(p.1, p.2)` leaves in the vector. -/
def toNode (p : T × Int) : Node T := ⟨p.1, p.2⟩

/-- Heap order on the slots below `m`: every slot `j` with `2 ≤ j < m` has a key at
least the key of slot `parent j`. -/
def HeapOrd (vec : List (Node T)) (m : Nat) : Prop :=
  ∀ j, 2 ≤ j → j < m → keyAt vec (j / 2) ≤ keyAt vec j

/-- Heap order inside the subtree rooted at `r`, on the slots below `m`: every slot of
the subtree other than `r` has a key at least the key of its parent. -/
def SubtreeOrd (vec : List (Node T)) (r m : Nat) : Prop :=
  ∀ j, InSubtree r j → j ≠ r → j < m → keyAt vec (j / 2) ≤ keyAt vec j

/-- Heap order below `m` except between slot `i` and its children; the children of
`i` are still above the parent of `i`. This is what `minHeapify(i)` repairs. -/
def DownOk (vec : List (Node T)) (i m : Nat) : Prop :=
  (∀ j, 2 ≤ j → j < m → j / 2 ≠ i → keyAt vec (j / 2) ≤ keyAt vec j) ∧
  (∀ j, 2 ≤ j → j < m → j / 2 = i → 2 ≤ i → keyAt vec (i / 2) ≤ keyAt vec j)

/-- Heap order below `m` except between slot `i` and its parent; the children of `i`
are still above the parent of `i`. This is what the loop of `heapDecreaseKey`
repairs. -/
def UpOk (vec : List (Node T)) (i m : Nat) : Prop :=
  (∀ j, 2 ≤ j → j < m → j ≠ i → keyAt vec (j / 2) ≤ keyAt vec j) ∧
  (∀ j, 2 ≤ j → j < m → j / 2 = i → 2 ≤ i → keyAt vec (i / 2) ≤ keyAt vec j)

end MinHeap

namespace IntMinHeap

end IntMinHeap

namespace MinHeap

variable {T : Type}

/-- Outcome after the last slot of the vector is popped. -/
def popOutcome {α : Type} : Outcome (List (Node T)) α → Outcome (List (Node T)) α
  | .ok st a => .ok st.dropLast a
  | .thrown e st => .thrown e st.dropLast
  | .undefinedBehaviour => .undefinedBehaviour
  | .outOfFuel => .outOfFuel

end MinHeap

namespace MinHeap

variable {T : Type}

/-- The vector with another node in slot 0. -/
def setHead (b : Node T) : List (Node T) → List (Node T)
  | [] => []
  | _ :: rest => b :: rest

/-- An outcome with another node in slot 0 of its vector. -/
def setHeadOutcome {α : Type} (b : Node T) :
    Outcome (List (Node T)) α → Outcome (List (Node T)) α
  | .ok st a => .ok (setHead b st) a
  | .thrown e st => .thrown e (setHead b st)
  | .undefinedBehaviour => .undefinedBehaviour
  | .outOfFuel => .outOfFuel

end MinHeap

/-! ## Heaps at the limits of the 32-bit indices

Heaps and arrays on which `left`, `right` or `size` wrap: `left(2^31)` is 0,
`right(2^31)` is 1, and `size()` of a vector of `2^32 + 1` slots is 0. -/

namespace MinHeap

variable {T : Type}

/-- State of the vector while `minHeapify` carries a node with key `b` down the left
spine of a vector of `2^31 + 2` slots: the carried node is in slot `i`, every other
slot from 1 to `2^31` holds key `a`, and the key in slot 0 is above `a`. -/
def Carried (vec : List (Node T)) (a b : Int) (i : Nat) : Prop :=
  vec.length = 2147483650 ∧ keyAt vec i = b ∧ a < keyAt vec 0 ∧
    ∀ j, 1 ≤ j → j ≤ 2147483648 → j ≠ i → keyAt vec j = a

/-- A placeholder whose uninitialised key happens to be above the keys inserted below. -/
def highPlaceholder : Node String := ⟨"", 1000⟩

/-- `2^31` pairs with key 0, then one pair with key 5. -/
def flatPairs : List (String × Int) := List.replicate 2147483648 ("a", 0) ++ [("b", 5)]

/-- The vector after the inserts of `flatPairs` into a new heap: no insert moves
anything. -/
def flatHeap : List (Node String) :=
  highPlaceholder :: (List.replicate 2147483648 ⟨"a", 0⟩ ++ [⟨"b", 5⟩])

/-- Keys of a heap of `2^31 + 1` elements that `removeMin` handles past the point where
`left` and `right` wrap: slot 1 holds 0, slot 2 holds 1, slot 3 holds 2, the other
slots of the left spine (4, 8, ..., `2^31`) hold 3, the last slot `2^31 + 1` holds 50
and every other slot holds 100. -/
def spineKey (j : Nat) : Int :=
  if j = 1 then 0 else if j = 2 then 1 else if j = 3 then 2
  else if j ∣ 2147483648 then 3 else if j = 2147483649 then 50 else 100

/-- Keys while `minHeapify` carries the key 50 down the left spine of a vector of
`2^31 + 2` slots filled with `spineKey`: the carried node is in slot `i`, slot 0 holds
`p`. -/
def Descending (v : List (Node T)) (p : Node T) (i : Nat) : Prop :=
  v.length = 2147483650 ∧ v[0]? = some p ∧ keyAt v i = 50 ∧ keyAt v 1 = 1 ∧
    keyAt v 3 = 2 ∧ keyAt v 6 = 100 ∧
    (∀ m, m ∣ 2147483648 → 2 ≤ m → m ≠ i → keyAt v m = 3) ∧
    (∀ j, j % 2 = 1 → 5 ≤ j → j ≤ 2147483648 → keyAt v j = 100)

/-- The inserts that build the heap of `spineKey`: value and key `spineKey j` for
`j = 1, ..., 2^31 + 1`, in this order. -/
def spinePairs : List (Int × Int) :=
  (List.range 2147483649).map (fun j => (spineKey (j + 1), spineKey (j + 1)))

/-- The vector these inserts leave behind the placeholder `p`: every insert finds its
parent with a key that is not larger and moves nothing. -/
def spineHeap (p : Node Int) : List (Node Int) :=
  p :: (List.range 2147483649).map (fun j => ⟨spineKey (j + 1), spineKey (j + 1)⟩)

/-- A placeholder of a heap of `int` whose uninitialised key happens to be 1000. -/
def abovePlaceholder : Node Int := ⟨0, 1000⟩

/-- A placeholder of a heap of `int` whose uninitialised key happens to be -1. -/
def belowPlaceholder : Node Int := ⟨0, -1⟩

/-- Key of slot `j >= 1` of `wrapArray`. -/
def wrapKey (j : Nat) : Int :=
  if j = 1 then 1 else if j = 2147483648 then 5 else 9

/-- An array of `2^31 + 1` slots: a placeholder with key 0, key 1 in slot 1, key 5 in
the last slot `2^31`, key 9 in every slot between. -/
def wrapArray : List (Node Int) :=
  ⟨0, 0⟩ :: (List.range 2147483648).map (fun j => ⟨wrapKey (j + 1), wrapKey (j + 1)⟩)

/-- `2^32 - 2` pairs with key 0, then one pair with key 5: the inserts that fill a
vector of `2^32` slots. -/
def fullPairs : List (String × Int) := List.replicate 4294967294 ("a", 0) ++ [("b", 5)]

/-- The vector of `2^32` slots after the inserts of `fullPairs` into a new heap whose
placeholder key is 0. -/
def fullHeap : List (Node String) :=
  testPlaceholder :: (List.replicate 4294967294 ⟨"a", 0⟩ ++ [⟨"b", 5⟩])

end MinHeap

namespace IntMinHeap

/-- The ints of the heap-sort that never ends: `2^31` zeros, then 5. -/
def flatInts : List Int := List.replicate 2147483648 0 ++ [5]

/-- The calls on which the two heaps part when `n = 2^31 + 1`: `insert(spineKey j)` for
`j = 1, ..., n`, then one `removeMin()`. -/
def spineOps (n : Nat) : List Op :=
  (List.range n).map (fun j => Op.insert (MinHeap.spineKey (j + 1))) ++ [Op.removeMin]

end IntMinHeap

/-! ## Lemmas -/

set_option linter.unnecessarySeqFocus false

section ListFacts
variable {α : Type}

theorem perm_cons_set (x h : α) : ∀ (t : List α) (j : Nat), t[j]? = some x →
    (x :: t.set j h).Perm (h :: t)
  | [], j, hx => by simp at hx
  | y :: t, 0, hx => by
    simp at hx; subst hx
    simpa using List.Perm.swap h y t
  | y :: t, j + 1, hx => by
    simp at hx
    have ih := perm_cons_set x h t j hx
    simp only [List.set_cons_succ]
    exact ((List.Perm.swap y x _).trans (ih.cons y)).trans (List.Perm.swap h y t)

theorem perm_set_set : ∀ (l : List α) (i j : Nat) (a b : α), l[i]? = some a → l[j]? = some b →
    ((l.set i b).set j a).Perm l
  | [], i, j, a, b, hi, _ => by simp at hi
  | x :: t, 0, 0, a, b, hi, hj => by
    simp at hi hj; subst hi; simp
  | x :: t, 0, j + 1, a, b, hi, hj => by
    simp at hi hj; subst hi
    simpa using perm_cons_set _ _ t j hj
  | x :: t, i + 1, 0, a, b, hi, hj => by
    simp at hi hj; subst hj
    simpa using perm_cons_set _ _ t i hi
  | x :: t, i + 1, j + 1, a, b, hi, hj => by
    simp at hi hj
    simpa using (perm_set_set t i j a b hi hj).cons x

theorem eq_dropLast_append {x : α} (l : List α) (h : l[l.length - 1]? = some x) :
    l = l.dropLast ++ [x] := by
  have hne : l ≠ [] := by
    intro h0; subst h0; simp at h
  have h2 := List.dropLast_concat_getLast hne
  have h3 : l.getLast hne = x := by
    rw [List.getLast_eq_getElem]
    have : l.length - 1 < l.length := by
      have := List.length_pos.mpr hne; omega
    rw [List.getElem?_eq_getElem this] at h
    exact Option.some.inj h
  rw [h3] at h2; exact h2.symm

theorem perm_dropLast_of_last {x : α} {l1 l2 : List α} (hp : l2.Perm l1)
    (h1 : l1[l1.length - 1]? = some x) (h2 : l2[l2.length - 1]? = some x) :
    l2.dropLast.Perm l1.dropLast := by
  have e1 := eq_dropLast_append l1 h1
  have e2 := eq_dropLast_append l2 h2
  rw [e1, e2] at hp
  exact (List.perm_append_right_iff [x]).mp hp

theorem perm_tail_of_head {l1 l2 : List α} (hp : l2.Perm l1) (h : l2[0]? = l1[0]?) :
    l2.tail.Perm l1.tail := by
  cases l1 with
  | nil => have := hp.eq_nil; subst this; simp
  | cons a t1 =>
    cases l2 with
    | nil => have := hp.symm.eq_nil; simp at this
    | cons b t2 =>
      simp at h; subst h
      simpa using hp.cons_inv

theorem tail_dropLast_perm (ph n1 last : α) (rest : List α)
    (h : (ph :: n1 :: rest)[rest.length + 1]? = some last) :
    ((ph :: last :: rest).dropLast).tail.Perm rest := by
  by_cases hr : rest = []
  · subst hr; simp
  · have hlen := List.length_pos.mpr hr
    have h2 : rest[rest.length - 1]? = some last := by
      have : rest.length + 1 = (rest.length - 1) + 1 + 1 := by omega
      rw [this] at h
      simpa using h
    have e := eq_dropLast_append rest h2
    have : (ph :: last :: rest).dropLast = ph :: last :: rest.dropLast := by
      conv_lhs => rw [e]
      simp [List.dropLast_cons_of_ne_nil]
    rw [this]
    conv_rhs => rw [e]
    simpa using (List.perm_append_singleton last rest.dropLast).symm

end ListFacts

namespace MinHeap
variable {T : Type}

theorem left_eq (i : Nat) (h : i < 2147483648) : left i = 2 * i := by
  unfold left UINT_MOD; omega

theorem right_eq (i : Nat) (h : i < 2147483648) : right i = 2 * i + 1 := by
  unfold right UINT_MOD; omega

theorem size_eq (vec : List (Node T)) (h1 : 1 ≤ vec.length) (h2 : vec.length ≤ 4294967296) :
    size vec = vec.length - 1 := by
  unfold size UINT_MOD; split <;> omega

theorem slot_of_lt (vec : List (Node T)) (i : Nat) (h : i < vec.length) :
    ∃ n, vec[i]? = some n := ⟨vec[i], by simp [h]⟩

theorem keyAt_of_some {vec : List (Node T)} {i : Nat} {n : Node T} (h : vec[i]? = some n) :
    keyAt vec i = n.key := by simp [keyAt, h]

theorem smallest_choice (vec : List (Node T)) (i : Nat) (hL : vec.length ≤ 2147483649)
    (hi2 : i < 2147483648) (hi : i < vec.length) :
    ∃ s1 sm, smallestLeft vec i = some s1 ∧ smallestRight vec i s1 = some sm ∧
      (sm = i ∨ ((sm = 2 * i ∨ sm = 2 * i + 1) ∧ sm < size vec ∧ keyAt vec sm < keyAt vec i)) ∧
      keyAt vec sm ≤ keyAt vec i ∧
      (∀ j, j / 2 = i → j < size vec → keyAt vec sm ≤ keyAt vec j) := by
  have hl := left_eq i (by omega)
  have hr := right_eq i (by omega)
  have hs := size_eq vec (by omega) (by omega)
  obtain ⟨ni, hni⟩ := slot_of_lt vec i hi
  have kj : ∀ j, j / 2 = i → j = 2 * i ∨ j = 2 * i + 1 := by intro j hj; omega
  by_cases c1 : 2 * i < size vec
  · obtain ⟨nl, hnl⟩ := slot_of_lt vec (2 * i) (by omega)
    by_cases c2 : 2 * i + 1 < size vec
    · obtain ⟨nr, hnr⟩ := slot_of_lt vec (2 * i + 1) (by omega)
      by_cases k1 : nl.key < ni.key
      · by_cases k2 : nr.key < nl.key
        · refine ⟨2 * i, 2 * i + 1, by simp [smallestLeft, hl, c1, hnl, hni, k1],
            by simp [smallestRight, hr, c2, hnr, hnl, k2], ?_, ?_, ?_⟩
          · right; simp [keyAt, hnr, hni, c2]; omega
          · simp [keyAt, hnr, hni]; omega
          · intro j hj _; rcases kj j hj with rfl | rfl <;> simp [keyAt, hnr, hnl] <;> omega
        · refine ⟨2 * i, 2 * i, by simp [smallestLeft, hl, c1, hnl, hni, k1],
            by simp [smallestRight, hr, c2, hnr, hnl, k2], ?_, ?_, ?_⟩
          · right; simp [keyAt, hnl, hni, c1]; omega
          · simp [keyAt, hnl, hni]; omega
          · intro j hj _; rcases kj j hj with rfl | rfl <;> simp [keyAt, hnr, hnl] <;> omega
      · by_cases k2 : nr.key < ni.key
        · refine ⟨i, 2 * i + 1, by simp [smallestLeft, hl, c1, hnl, hni, k1],
            by simp [smallestRight, hr, c2, hnr, hni, k2], ?_, ?_, ?_⟩
          · right; simp [keyAt, hnr, hni, c2]; omega
          · simp [keyAt, hnr, hni]; omega
          · intro j hj _; rcases kj j hj with rfl | rfl <;> simp [keyAt, hnr, hnl] <;> omega
        · refine ⟨i, i, by simp [smallestLeft, hl, c1, hnl, hni, k1],
            by simp [smallestRight, hr, c2, hnr, hni, k2], ?_, ?_, ?_⟩
          · left; rfl
          · simp
          · intro j hj _; rcases kj j hj with rfl | rfl <;> simp [keyAt, hnr, hnl, hni] <;> omega
    · by_cases k1 : nl.key < ni.key
      · refine ⟨2 * i, 2 * i, by simp [smallestLeft, hl, c1, hnl, hni, k1],
          by simp [smallestRight, hr, c2], ?_, ?_, ?_⟩
        · right; simp [keyAt, hnl, hni, c1]; omega
        · simp [keyAt, hnl, hni]; omega
        · intro j hj hjs; rcases kj j hj with rfl | rfl
          · simp
          · omega
      · refine ⟨i, i, by simp [smallestLeft, hl, c1, hnl, hni, k1],
          by simp [smallestRight, hr, c2], ?_, ?_, ?_⟩
        · left; rfl
        · simp
        · intro j hj hjs; rcases kj j hj with rfl | rfl
          · simp [keyAt, hnl, hni]; omega
          · omega
  · have c2 : ¬ 2 * i + 1 < size vec := by omega
    refine ⟨i, i, by simp [smallestLeft, hl, c1], by simp [smallestRight, hr, c2], ?_, ?_, ?_⟩
    · left; rfl
    · simp
    · intro j hj hjs; rcases kj j hj with rfl | rfl <;> omega

theorem smallest_child (vec : List (Node T)) (i : Nat) (hL : vec.length ≤ 2147483649)
    (hi2 : i < 2147483648) (hi : i < vec.length) (s1 sm : Nat)
    (e1 : smallestLeft vec i = some s1) (e2 : smallestRight vec i s1 = some sm)
    (hne : sm ≠ i) : (sm = 2 * i ∨ sm = 2 * i + 1) ∧ sm < size vec := by
  obtain ⟨t1, tm, f1, f2, hsm, _⟩ := smallest_choice vec i hL hi2 hi
  rw [e1] at f1; cases f1
  rw [e2] at f2; cases f2
  rcases hsm with h | ⟨h, hlt, _⟩
  · exact absurd h hne
  · exact ⟨h, hlt⟩

theorem swap_spec (vec : List (Node T)) (i j : Nat) (hi : i < vec.length) (hj : j < vec.length) :
    ∃ v1, swap vec i j = some v1 ∧ v1.length = vec.length ∧ v1.Perm vec ∧
      (∀ k, v1[k]? = if k = j then vec[i]? else if k = i then vec[j]? else vec[k]?) := by
  obtain ⟨a, ha⟩ := slot_of_lt vec i hi
  obtain ⟨b, hb⟩ := slot_of_lt vec j hj
  refine ⟨(vec.set i b).set j a, by simp [swap, ha, hb], by simp, perm_set_set vec i j a b ha hb, ?_⟩
  intro k
  by_cases hkj : k = j
  · subst hkj; simp [List.getElem?_set, hj, ha]
  · by_cases hki : k = i
    · subst hki; simp [List.getElem?_set, hi, hb, hkj, Ne.symm hkj]
    · simp [List.getElem?_set, hkj, hki, Ne.symm hkj, Ne.symm hki]

theorem keyAt_congr {v1 vec : List (Node T)} {k l : Nat} (h : v1[k]? = vec[l]?) :
    keyAt v1 k = keyAt vec l := by simp [keyAt, h]

theorem size_congr {v1 vec : List (Node T)} (h : v1.length = vec.length) : size v1 = size vec := by
  unfold size; rw [h]

theorem minHeapify_spec : ∀ (fuel : Nat) (vec : List (Node T)) (i : Nat),
    vec.length ≤ 2147483649 → i < 2147483648 → 1 ≤ i → i < vec.length →
    vec.length ≤ i + fuel →
    DownOk vec i (size vec) →
    ∃ v2, minHeapify fuel vec i = .ok v2 () ∧ v2.length = vec.length ∧ v2.Perm vec ∧
      HeapOrd v2 (size vec) ∧ ∀ k, (k < i ∨ size vec ≤ k) → v2[k]? = vec[k]? := by
  intro fuel
  induction fuel with
  | zero => intro vec i _ _ _ h1 h2 _; omega
  | succ fuel ih =>
    intro vec i hL hi2 h1 hi hf hd
    obtain ⟨s1, sm, e1, e2, hsm, hle, hch⟩ := smallest_choice vec i hL hi2 hi
    have hs := size_eq vec (by omega) (by omega)
    rcases hsm with rfl | ⟨hsm, hlt, hklt⟩
    · refine ⟨vec, by simp [minHeapify, e1, e2], rfl, List.Perm.refl _, ?_, fun _ _ => rfl⟩
      intro j hj2 hjm
      by_cases hji : j / 2 = sm
      · rw [hji]; exact hch j hji hjm
      · exact hd.1 j hj2 hjm hji
    · have hne : sm ≠ i := by omega
      obtain ⟨v1, es, hlen, hperm, hget⟩ := swap_spec vec i sm hi (by omega)
      have hk : ∀ k, keyAt v1 k =
          if k = sm then keyAt vec i else if k = i then keyAt vec sm else keyAt vec k := by
        intro k
        by_cases c1 : k = sm
        · rw [if_pos c1]; apply keyAt_congr; rw [hget, if_pos c1]
        · by_cases c2 : k = i
          · rw [if_neg c1, if_pos c2]; apply keyAt_congr; rw [hget, if_neg c1, if_pos c2]
          · rw [if_neg c1, if_neg c2]; apply keyAt_congr; rw [hget, if_neg c1, if_neg c2]
      have hsz : size v1 = size vec := size_congr hlen
      have hd1 : DownOk v1 sm (size v1) := by
        rw [hsz]
        constructor
        · intro j hj2 hjm hjs
          by_cases c1 : j = sm
          · have : j / 2 = i := by omega
            rw [hk, hk, this, if_neg (by omega), if_pos rfl, if_pos c1]
            omega
          · by_cases c2 : j = i
            · have h3 := hd.2 sm (by omega) hlt (by omega) (by omega)
              rw [hk, hk, if_neg hjs, if_neg (by omega), if_neg c1, if_pos c2]
              rw [c2]; exact h3
            · by_cases c3 : j / 2 = i
              · rw [hk, hk, if_neg hjs, if_pos c3, if_neg c1, if_neg c2]
                exact hch j c3 hjm
              · rw [hk, hk, if_neg hjs, if_neg c3, if_neg c1, if_neg c2]
                exact hd.1 j hj2 hjm c3
        · intro j hj2 hjm hjs _
          have h3 := hd.1 j hj2 hjm (by omega)
          rw [hk, hk, if_neg (by omega), if_pos (by omega), if_neg (by omega), if_neg (by omega)]
          rw [hjs] at h3; exact h3
      obtain ⟨v2, e3, hlen2, hperm2, hord, hfix⟩ :=
        ih v1 sm (by omega) (by omega) (by omega) (by omega) (by omega) hd1
      refine ⟨v2, by simp [minHeapify, e1, e2, hne, es, e3], by omega, hperm2.trans hperm,
        by rw [← hsz]; exact hord, ?_⟩
      intro k hk2
      rw [hfix k (by rw [hsz]; omega), hget, if_neg (by omega), if_neg (by omega)]

theorem swap_keyAt {vec v1 : List (Node T)} {i s : Nat}
    (hget : ∀ k, v1[k]? = if k = s then vec[i]? else if k = i then vec[s]? else vec[k]?) :
    ∀ k, keyAt v1 k =
      if k = s then keyAt vec i else if k = i then keyAt vec s else keyAt vec k := by
  intro k
  by_cases c1 : k = s
  · rw [if_pos c1]; apply keyAt_congr; rw [hget, if_pos c1]
  · by_cases c2 : k = i
    · rw [if_neg c1, if_pos c2]; apply keyAt_congr; rw [hget, if_neg c1, if_pos c2]
    · rw [if_neg c1, if_neg c2]; apply keyAt_congr; rw [hget, if_neg c1, if_neg c2]

theorem decreaseLoop_spec : ∀ (fuel : Nat) (vec : List (Node T)) (i : Nat),
    i < fuel → i < vec.length →
    ∃ v2, decreaseLoop fuel vec i = .ok v2 () ∧ v2.length = vec.length ∧ v2.Perm vec ∧
      v2[0]? = vec[0]? ∧ (UpOk vec i vec.length → HeapOrd v2 vec.length) := by
  intro fuel
  induction fuel with
  | zero => intro vec i h; omega
  | succ fuel ih =>
    intro vec i hf hi
    by_cases h1 : 1 < i
    · obtain ⟨np, hnp⟩ := slot_of_lt vec (i / 2) (by omega)
      obtain ⟨ni, hni⟩ := slot_of_lt vec i hi
      by_cases hk : np.key > ni.key
      · obtain ⟨v1, es, hlen, hperm, hget⟩ := swap_spec vec i (i / 2) hi (by omega)
        have hkk := swap_keyAt hget
        obtain ⟨v2, e3, hlen2, hperm2, h0, hord⟩ := ih v1 (i / 2) (by omega) (by omega)
        refine ⟨v2, ?_, by omega, hperm2.trans hperm, ?_, ?_⟩
        · rw [decreaseLoop]; simp only [parent, h1, hnp, hni, hk, es]; simpa using e3
        · rw [h0, hget, if_neg (by omega), if_neg (by omega)]
        · intro hup
          rw [← hlen]; apply hord; rw [hlen]
          have kp : keyAt vec (i / 2) = np.key := keyAt_of_some hnp
          have ki : keyAt vec i = ni.key := keyAt_of_some hni
          constructor
          · intro j hj2 hjm hjp
            by_cases c1 : j = i
            · rw [hkk, hkk, c1, if_pos rfl, if_neg (by omega), if_pos rfl]; omega
            · by_cases c2 : j / 2 = i
              · have := hup.2 j hj2 hjm c2 (by omega)
                rw [hkk, hkk, if_neg (by omega), if_pos c2, if_neg hjp, if_neg c1]
                exact this
              · by_cases c3 : j / 2 = i / 2
                · have := hup.1 j hj2 hjm c1
                  rw [hkk, hkk, if_pos c3, if_neg hjp, if_neg c1]
                  rw [c3] at this; omega
                · rw [hkk, hkk, if_neg c3, if_neg c2, if_neg hjp, if_neg c1]
                  exact hup.1 j hj2 hjm c1
          · intro j hj2 hjm hjp hp2
            have h4 := hup.1 (i / 2) hp2 (by omega) (by omega)
            by_cases c1 : j = i
            · rw [hkk, hkk, if_neg (by omega), if_neg (by omega), if_neg (by omega), if_pos c1]
              exact h4
            · have := hup.1 j hj2 hjm c1
              rw [hkk, hkk, if_neg (by omega), if_neg (by omega), if_neg (by omega), if_neg c1]
              rw [hjp] at this; omega
      · refine ⟨vec, ?_, rfl, List.Perm.refl _, rfl, ?_⟩
        · rw [decreaseLoop]; simp only [parent, h1, hnp, hni, hk]; simp
        · intro hup j hj2 hjm
          by_cases c1 : j = i
          · rw [c1, keyAt_of_some hnp, keyAt_of_some hni]; omega
          · exact hup.1 j hj2 hjm c1
    · refine ⟨vec, ?_, rfl, List.Perm.refl _, rfl, ?_⟩
      · rw [decreaseLoop]; simp [h1]
      · intro hup j hj2 hjm
        exact hup.1 j hj2 hjm (by omega)

theorem root_min (vec : List (Node T)) (m : Nat) (h : HeapOrd vec m) :
    ∀ j, 1 ≤ j → j < m → keyAt vec 1 ≤ keyAt vec j := by
  intro j
  induction j using Nat.strong_induction_on with
  | _ j ih =>
    intro h1 hm
    by_cases c : j = 1
    · subst c; exact le_refl _
    · have := ih (j / 2) (by omega) (by omega) (by omega)
      have := h j (by omega) hm
      omega

theorem heapDecreaseKey_spec (vec : List (Node T)) (i : Nat) (key : Int) (ni : Node T)
    (hni : vec[i]? = some ni) (hk : key ≤ ni.key) :
    ∃ v2, heapDecreaseKey vec i key = .ok v2 () ∧ v2.length = vec.length ∧
      v2.Perm (vec.set i ⟨ni.data, key⟩) ∧ v2[0]? = (vec.set i ⟨ni.data, key⟩)[0]? ∧
      (UpOk (vec.set i ⟨ni.data, key⟩) i vec.length → HeapOrd v2 vec.length) := by
  have hi : i < vec.length := by
    by_contra hc
    rw [List.getElem?_eq_none (by omega)] at hni; simp at hni
  obtain ⟨v2, e, hlen, hperm, h0, hord⟩ :=
    decreaseLoop_spec (i + 1) (vec.set i ⟨ni.data, key⟩) i (by omega) (by simpa using hi)
  refine ⟨v2, ?_, by simpa using hlen, hperm, h0, by simpa using hord⟩
  unfold heapDecreaseKey
  simp only [hni]
  rw [if_neg (by omega)]
  exact e

theorem insert_spec (vec : List (Node T)) (val : T) (key : Int)
    (h1 : 1 ≤ vec.length) (hL : vec.length < 4294967296) (hk : key ≤ INT_MAX) :
    ∃ v2, insert vec val key = .ok v2 () ∧ v2.length = vec.length + 1 ∧
      v2.Perm (vec ++ [⟨val, key⟩]) ∧ v2[0]? = vec[0]? ∧
      (HeapOrd vec vec.length → HeapOrd v2 v2.length) := by
  have hs : size (vec ++ [(⟨val, INT_MAX⟩ : Node T)]) = vec.length := by
    unfold size UINT_MOD; simp; omega
  have hget : (vec ++ [(⟨val, INT_MAX⟩ : Node T)])[vec.length]? = some ⟨val, INT_MAX⟩ := by
    simp
  have hset : (vec ++ [(⟨val, INT_MAX⟩ : Node T)]).set vec.length ⟨val, key⟩
      = vec ++ [⟨val, key⟩] := by
    simp
  obtain ⟨v2, e, hlen, hperm, h0, hord⟩ :=
    heapDecreaseKey_spec (vec ++ [⟨val, INT_MAX⟩]) vec.length key ⟨val, INT_MAX⟩ hget hk
  simp only [hset] at hperm h0 hord
  refine ⟨v2, ?_, by simpa using hlen, hperm, ?_, ?_⟩
  · unfold insert; rw [hs]; exact e
  · rw [h0, List.getElem?_append_left (by omega)]
  · intro hheap
    have hlen2 : v2.length = vec.length + 1 := by simpa using hlen
    rw [hlen2]
    have := hord ?_
    · simpa using this
    · have hkk : ∀ j, j < vec.length → keyAt (vec ++ [(⟨val, key⟩ : Node T)]) j = keyAt vec j := by
        intro j hj
        apply keyAt_congr
        rw [List.getElem?_append_left hj]
      constructor
      · intro j hj2 hjm hne
        simp at hjm
        rw [hkk j (by omega), hkk (j / 2) (by omega)]
        exact hheap j hj2 (by omega)
      · intro j hj2 hjm hj _
        simp at hjm
        omega

theorem removeMin_spec (fuel : Nat) (vec : List (Node T))
    (h2 : 2 ≤ vec.length) (hL : vec.length ≤ 2147483649) (hf : vec.length ≤ fuel + 1)
    (hheap : HeapOrd vec vec.length) :
    ∃ n1 v3, vec[1]? = some n1 ∧ removeMin fuel vec = .ok v3 n1.data ∧
      v3.length + 1 = vec.length ∧ v3[0]? = vec[0]? ∧ (n1 :: v3.tail).Perm vec.tail ∧
      HeapOrd v3 v3.length ∧ (∀ j, 1 ≤ j → j < vec.length → n1.key ≤ keyAt vec j) := by
  have hs := size_eq vec (by omega) (by omega)
  obtain ⟨n1, hn1⟩ := slot_of_lt vec 1 (by omega)
  obtain ⟨last, hlast⟩ := slot_of_lt vec (vec.length - 1) (by omega)
  have hlen1 : (vec.set 1 last).length = vec.length := by simp
  have hs1 : size (vec.set 1 last) = vec.length - 1 := by rw [size_congr hlen1, hs]
  have hk1 : ∀ j, j ≠ 1 → keyAt (vec.set 1 last) j = keyAt vec j := by
    intro j hj
    apply keyAt_congr
    rw [List.getElem?_set_ne (Ne.symm hj)]
  have hdown : DownOk (vec.set 1 last) 1 (size (vec.set 1 last)) := by
    rw [hs1]
    constructor
    · intro j hj2 hjm hj1
      rw [hk1 j (by omega), hk1 (j / 2) hj1]
      exact hheap j hj2 (by omega)
    · intro j _ _ _ h; omega
  obtain ⟨v2, e2, hlen2, hperm2, hord2, hfix2⟩ :=
    minHeapify_spec fuel (vec.set 1 last) 1 (by omega) (by omega) (le_refl 1) (by omega)
      (by omega) hdown
  rw [hs1] at hord2 hfix2
  have hlen2' : v2.length = vec.length := by omega
  have hlastv1 : (vec.set 1 last)[vec.length - 1]? = some last := by
    by_cases c : vec.length - 1 = 1
    · rw [c]; simp [List.getElem?_set]; omega
    · rw [List.getElem?_set_ne (Ne.symm c)]; exact hlast
  have hlastv2 : v2[vec.length - 1]? = some last := by
    rw [hfix2 _ (Or.inr (le_refl _))]; exact hlastv1
  have h0v2 : v2[0]? = vec[0]? := by
    rw [hfix2 0 (Or.inl (by omega))]; simp
  have hpd : v2.dropLast.Perm (vec.set 1 last).dropLast :=
    perm_dropLast_of_last hperm2 (by rw [hlen1]; exact hlastv1) (by rw [hlen2']; exact hlastv2)
  refine ⟨n1, v2.dropLast, hn1, ?_, by simp; omega, ?_, ?_, ?_, ?_⟩
  · unfold removeMin
    rw [hs, if_neg (by omega)]
    simp only [hn1, hlast, e2]
    rw [if_neg (by omega)]
  · rw [List.getElem?_dropLast, if_pos (by omega)]; exact h0v2
  · -- permutation
    have hd0 : v2.dropLast[0]? = (vec.set 1 last).dropLast[0]? := by
      rw [List.getElem?_dropLast, List.getElem?_dropLast, if_pos (by omega),
        if_pos (by omega), h0v2]; simp
    have ht := perm_tail_of_head hpd hd0
    match vec, h2, hn1, hlast with
    | ph :: m1 :: rest, _, hn1, hlast =>
      simp at hn1; subst hn1
      simp only [List.set_cons_succ, List.set_cons_zero, List.tail_cons] at ht ⊢
      have := tail_dropLast_perm ph m1 last rest (by simpa using hlast)
      exact (ht.trans this).cons m1
  · intro j hj2 hjm
    simp at hjm
    have e1 : keyAt v2.dropLast j = keyAt v2 j := by
      apply keyAt_congr
      rw [List.getElem?_dropLast, if_pos (by omega)]
    have e3 : keyAt v2.dropLast (j / 2) = keyAt v2 (j / 2) := by
      apply keyAt_congr
      rw [List.getElem?_dropLast, if_pos (by omega)]
    rw [e1, e3]
    exact hord2 j hj2 (by omega)
  · intro j hj1 hjm
    have := root_min vec vec.length hheap j hj1 hjm
    rw [keyAt_of_some hn1] at this
    exact this

theorem minHeapify_fuel_mono : ∀ (fuel k : Nat) (vec : List (Node T)) (i : Nat),
    minHeapify fuel vec i ≠ .outOfFuel → minHeapify (fuel + k) vec i = minHeapify fuel vec i := by
  intro fuel
  induction fuel with
  | zero => intro k vec i h; exact absurd (by rw [minHeapify]) h
  | succ fuel ih =>
    intro k vec i h
    have e : fuel + 1 + k = (fuel + k) + 1 := by omega
    rw [e]
    rw [minHeapify] at h ⊢
    rw [minHeapify]
    cases h1 : smallestLeft vec i with
    | none => rfl
    | some s1 =>
      simp only [h1] at h ⊢
      cases h2 : smallestRight vec i s1 with
      | none => rfl
      | some sm =>
        simp only [h2] at h ⊢
        by_cases c : sm ≠ i
        · simp only [if_pos c] at h ⊢
          cases h3 : swap vec i sm with
          | none => rfl
          | some v1 =>
            simp only [h3] at h ⊢
            exact ih k v1 sm h
        · simp only [if_neg c]

theorem removeMin_fuel_mono (fuel k : Nat) (vec vec1 : List (Node T)) (x : T)
    (h : removeMin fuel vec = .ok vec1 x) : removeMin (fuel + k) vec = .ok vec1 x := by
  unfold removeMin at h ⊢
  by_cases c : size vec = 0
  · simp [c] at h
  · simp only [c, if_false] at h ⊢
    cases h1 : vec[1]? with
    | none => simp [h1] at h
    | some n1 =>
      cases h2 : vec[size vec]? with
      | none => simp [h1, h2] at h
      | some last =>
        simp only [h1, h2] at h ⊢
        have hne : minHeapify fuel (vec.set 1 last) 1 ≠ .outOfFuel := by
          intro hc; rw [hc] at h; simp at h
        rw [minHeapify_fuel_mono fuel k _ _ hne]
        exact h

/-- Shape of a heap in the range where index arithmetic is exact. -/
theorem reachable_inv {vec : List (Node T)} (h : ReachableCapped vec) :
    1 ≤ vec.length ∧ vec.length ≤ 2147483649 ∧ HeapOrd vec vec.length := by
  induction h with
  | init ph =>
    refine ⟨by simp [new], by simp [new], ?_⟩
    intro j hj2 hjm; simp [new] at hjm; omega
  | afterInsert vec vec1 val key _ hlen _ hk e ih =>
    obtain ⟨v2, e2, hl2, _, _, hord⟩ := insert_spec vec val key ih.1 (by omega) hk
    rw [e2] at e
    cases e
    exact ⟨by omega, by omega, hord ih.2.2⟩
  | afterRemoveMin fuel vec vec1 x _ e ih =>
    have hs := size_eq vec ih.1 (by omega)
    have h2 : 2 ≤ vec.length := by
      by_contra hc
      have : size vec = 0 := by omega
      simp [removeMin, this] at e
    have e' := removeMin_fuel_mono fuel vec.length vec vec1 x e
    obtain ⟨n1, v3, _, e3, hl3, _, _, hord, _⟩ :=
      removeMin_spec (fuel + vec.length) vec h2 ih.2.1 (by omega) ih.2.2
    rw [e3] at e'
    cases e'
    exact ⟨by omega, by omega, hord⟩

theorem insertAll_spec : ∀ (pairs : List (T × Int)) (vec : List (Node T)),
    1 ≤ vec.length → vec.length + pairs.length ≤ 2147483649 →
    (∀ p ∈ pairs, p.2 ≤ INT_MAX) → HeapOrd vec vec.length →
    ∃ v2, insertAll vec pairs = .ok v2 () ∧ v2.length = vec.length + pairs.length ∧
      v2[0]? = vec[0]? ∧ v2.tail.Perm (vec.tail ++ pairs.map toNode) ∧
      HeapOrd v2 v2.length := by
  intro pairs
  induction pairs with
  | nil =>
    intro vec _ _ _ hh
    exact ⟨vec, rfl, by simp, rfl, by simp, hh⟩
  | cons p rest ih =>
    intro vec h1 hL hk hh
    simp at hL
    obtain ⟨v1, e1, hl1, hp1, h01, hord1⟩ :=
      insert_spec vec p.1 p.2 h1 (by omega) (hk p (by simp))
    obtain ⟨v2, e2, hl2, h02, hp2, hord2⟩ :=
      ih v1 (by omega) (by omega) (fun q hq => hk q (by simp [hq])) (hord1 hh)
    refine ⟨v2, ?_, by simp; omega, by rw [h02, h01], ?_, hord2⟩
    · rw [insertAll]; simp only [e1]; exact e2
    · have ht : v1.tail.Perm (vec.tail ++ [toNode p]) := by
        have := perm_tail_of_head hp1 (by rw [h01, List.getElem?_append_left (by omega)])
        rw [List.tail_append_of_ne_nil] at this
        · exact this
        · intro hc; rw [hc] at h1; simp at h1
      refine hp2.trans ?_
      simp only [List.map_cons]
      have := ht.append_right (rest.map toNode)
      simpa using this

theorem key_le_of_mem_tail (vec : List (Node T)) (k : Int)
    (h : ∀ j, 1 ≤ j → j < vec.length → k ≤ keyAt vec j) :
    ∀ m ∈ vec.tail, k ≤ m.key := by
  intro m hm
  obtain ⟨j, hj⟩ := List.mem_iff_getElem?.mp hm
  rw [List.getElem?_tail] at hj
  have hlt : j + 1 < vec.length := by
    by_contra hc
    rw [List.getElem?_eq_none (by omega)] at hj; simp at hj
  have := h (j + 1) (by omega) hlt
  rw [keyAt_of_some hj] at this
  exact this

theorem removeAll_spec (fuel : Nat) : ∀ (n : Nat) (vec : List (Node T)),
    vec.length = n + 1 → vec.length ≤ 2147483649 → vec.length ≤ fuel + 1 →
    HeapOrd vec vec.length →
    ∃ ns : List (Node T), removeAll fuel n vec = .ok (vec.take 1) (ns.map Node.data) ∧
      ns.Perm vec.tail ∧ ns.Sorted (fun a b => a.key ≤ b.key) := by
  intro n
  induction n with
  | zero =>
    intro vec hl _ _ _
    refine ⟨[], ?_, ?_, by simp⟩
    · rw [removeAll]
      match vec, hl with
      | [a], _ => rfl
    · match vec, hl with
      | [a], _ => simp
  | succ n ih =>
    intro vec hl hL hf hh
    obtain ⟨n1, v3, hn1, e3, hl3, h03, hp3, hord3, hmin⟩ :=
      removeMin_spec fuel vec (by omega) hL hf hh
    obtain ⟨ns, e4, hp4, hs4⟩ := ih v3 (by omega) (by omega) (by omega) hord3
    refine ⟨n1 :: ns, ?_, (hp4.cons n1).trans hp3, ?_⟩
    · rw [removeAll]; simp only [e3, e4]
      have hv3 : 1 ≤ v3.length := by omega
      have : v3.take 1 = vec.take 1 := by
        cases vec with
        | nil => simp at hl
        | cons a t =>
          cases v3 with
          | nil => simp at hv3
          | cons b t3 => simp at h03; simp [h03]
      simp [this]
    · rw [List.sorted_cons]
      refine ⟨?_, hs4⟩
      intro m hm
      have hm3 : m ∈ n1 :: v3.tail := List.mem_cons_of_mem _ (hp4.subset hm)
      have hmv : m ∈ vec.tail := hp3.subset hm3
      exact key_le_of_mem_tail vec n1.key hmin m hmv

end MinHeap

namespace IntMinHeap

theorem liftVec_slot (v : List Int) (i : Nat) :
    (liftVec v)[i]? = (v[i]?).map (fun x => (⟨x, x⟩ : Node Int)) := by
  simp [liftVec]

theorem liftVec_length (v : List Int) : (liftVec v).length = v.length := by
  simp [liftVec]

theorem liftVec_set (v : List Int) (i : Nat) (x : Int) :
    liftVec (v.set i x) = (liftVec v).set i ⟨x, x⟩ := by
  simp [liftVec, List.map_set]

theorem liftVec_size (v : List Int) : MinHeap.size (liftVec v) = size v := by
  simp [MinHeap.size, size, liftVec_length]

theorem swap_sim (v : List Int) (i j : Nat) :
    MinHeap.swap (liftVec v) i j = (swap v i j).map liftVec := by
  unfold MinHeap.swap swap
  rw [liftVec_slot, liftVec_slot]
  cases v[i]? <;> cases v[j]? <;> simp [liftVec_set]

theorem smallestLeft_sim (v : List Int) (i : Nat) :
    MinHeap.smallestLeft (liftVec v) i = smallestLeft v i := by
  unfold MinHeap.smallestLeft smallestLeft
  rw [liftVec_size, liftVec_slot, liftVec_slot]
  have : MinHeap.left i = left i := rfl
  rw [this]
  cases v[left i]? <;> cases v[i]? <;> simp

theorem smallestRight_sim (v : List Int) (i s : Nat) :
    MinHeap.smallestRight (liftVec v) i s = smallestRight v i s := by
  unfold MinHeap.smallestRight smallestRight
  rw [liftVec_size, liftVec_slot, liftVec_slot]
  have : MinHeap.right i = right i := rfl
  rw [this]
  cases v[right i]? <;> cases v[s]? <;> simp

theorem minHeapify_sim : ∀ (fuel : Nat) (v : List Int) (i : Nat),
    MinHeap.minHeapify fuel (liftVec v) i = liftOutcome (minHeapify fuel v i) := by
  intro fuel
  induction fuel with
  | zero => intro v i; rw [MinHeap.minHeapify, minHeapify]; rfl
  | succ fuel ih =>
    intro v i
    rw [MinHeap.minHeapify, minHeapify, smallestLeft_sim]
    cases h1 : smallestLeft v i with
    | none => rfl
    | some s1 =>
      simp only [smallestRight_sim]
      cases h2 : smallestRight v i s1 with
      | none => rfl
      | some sm =>
        simp only []
        by_cases c : sm ≠ i
        · simp only [if_pos c, swap_sim]
          cases h3 : swap v i sm with
          | none => rfl
          | some v1 => simpa using ih v1 sm
        · simp only [if_neg c]; rfl

theorem decreaseLoop_sim : ∀ (fuel : Nat) (v : List Int) (i : Nat),
    MinHeap.decreaseLoop fuel (liftVec v) i = liftOutcome (decreaseLoop fuel v i) := by
  intro fuel
  induction fuel with
  | zero => intro v i; rw [MinHeap.decreaseLoop, decreaseLoop]; rfl
  | succ fuel ih =>
    intro v i
    rw [MinHeap.decreaseLoop, decreaseLoop]
    by_cases c : 1 < i
    · simp only [if_pos c, liftVec_slot]
      have : MinHeap.parent i = parent i := rfl
      rw [this]
      cases h1 : v[parent i]? with
      | none => rfl
      | some kp =>
        cases h2 : v[i]? with
        | none => rfl
        | some ki =>
          simp only [Option.map_some']
          by_cases k : kp > ki
          · simp only [if_pos k, swap_sim]
            cases h3 : swap v i (parent i) with
            | none => rfl
            | some v1 => simpa using ih v1 (parent i)
          · simp only [if_neg k]; rfl
    · simp only [if_neg c]; rfl

theorem removeMin_sim (fuel : Nat) (v : List Int) :
    MinHeap.removeMin fuel (liftVec v) = liftOutcome (removeMin fuel v) := by
  unfold MinHeap.removeMin removeMin
  rw [liftVec_size]
  by_cases c : size v = 0
  · simp only [if_pos c]; rfl
  · simp only [if_neg c, liftVec_slot]
    cases h1 : v[1]? with
    | none => rfl
    | some m =>
      cases h2 : v[size v]? with
      | none => rfl
      | some last =>
        simp only [Option.map_some']
        rw [← liftVec_set, minHeapify_sim]
        cases h3 : minHeapify fuel (v.set 1 last) 1 with
        | ok v2 u =>
          simp only [liftOutcome, liftVec_length]
          by_cases l : v2.length = 0
          · simp only [if_pos l]
          · simp only [if_neg l, liftVec, List.map_dropLast]
        | thrown e st => rfl
        | undefinedBehaviour => rfl
        | outOfFuel => rfl

theorem insert_sim (v : List Int) (x : Int) (hx : x ≤ INT_MAX) (hL : v.length < 4294967296) :
    MinHeap.insert (liftVec v) x x = liftOutcome (insert v x) := by
  unfold MinHeap.insert insert MinHeap.heapDecreaseKey heapDecreaseKey
  have hs : size (v ++ [INT_MAX]) = v.length := by
    unfold size UINT_MOD; simp; omega
  have hs2 : MinHeap.size (liftVec v ++ [(⟨x, INT_MAX⟩ : Node Int)]) = v.length := by
    unfold MinHeap.size UINT_MOD; simp [liftVec_length]; omega
  rw [hs, hs2]
  have h1 : (liftVec v ++ [(⟨x, INT_MAX⟩ : Node Int)])[v.length]? = some ⟨x, INT_MAX⟩ := by
    rw [List.getElem?_append_right (by simp [liftVec_length])]; simp [liftVec_length]
  have h2 : (v ++ [INT_MAX])[v.length]? = some INT_MAX := by simp
  simp only [h1, h2]
  rw [if_neg (by omega), if_neg (by omega)]
  have h3 : (liftVec v ++ [(⟨x, INT_MAX⟩ : Node Int)]).set v.length ⟨x, x⟩ =
      liftVec ((v ++ [INT_MAX]).set v.length x) := by
    simp [liftVec]
  rw [h3, decreaseLoop_sim]

theorem liftOutcome_eq_ok {α : Type} {o : Outcome (List Int) α} {v2 : List (Node Int)} {a : α}
    (h : liftOutcome o = .ok v2 a) : ∃ w, o = .ok w a ∧ liftVec w = v2 := by
  cases o with
  | ok w b => simp [liftOutcome] at h; exact ⟨w, by rw [h.2], h.1⟩
  | thrown e st => simp [liftOutcome] at h
  | undefinedBehaviour => simp [liftOutcome] at h
  | outOfFuel => simp [liftOutcome] at h

theorem map_key_liftVec (w : List Int) : (liftVec w).map Node.key = w := by
  simp [liftVec, Function.comp_def]

theorem map_data_liftVec (w : List Int) : (liftVec w).map Node.data = w := by
  simp [liftVec, Function.comp_def]

theorem insertAll_sim : ∀ (xs : List Int) (v : List Int),
    1 ≤ v.length → v.length + xs.length ≤ 4294967296 → (∀ x ∈ xs, x ≤ INT_MAX) →
    MinHeap.insertAll (liftVec v) (xs.map (fun x => (x, x))) = liftOutcome (insertAll v xs) := by
  intro xs
  induction xs with
  | nil => intro v _ _ _; rfl
  | cons x rest ih =>
    intro v h1 hL hk
    simp at hL
    rw [List.map_cons, MinHeap.insertAll, insertAll]
    simp only []
    rw [insert_sim v x (hk x (by simp)) (by omega)]
    obtain ⟨v2, e2, hl2, _⟩ := MinHeap.insert_spec (liftVec v) x x
      (by simpa [liftVec_length] using h1) (by rw [liftVec_length]; omega) (hk x (by simp))
    rw [insert_sim v x (hk x (by simp)) (by omega)] at e2
    obtain ⟨w, ew, hw⟩ := liftOutcome_eq_ok e2
    rw [ew]
    simp only [liftOutcome]
    have hwl : w.length = v.length + 1 := by
      rw [← liftVec_length w, hw, hl2, liftVec_length]
    exact ih w (by omega) (by omega) (fun y hy => hk y (by simp [hy]))

theorem removeAll_sim (fuel : Nat) : ∀ (n : Nat) (v : List Int),
    MinHeap.removeAll fuel n (liftVec v) = liftOutcome (removeAll fuel n v) := by
  intro n
  induction n with
  | zero => intro v; rfl
  | succ n ih =>
    intro v
    rw [MinHeap.removeAll, removeAll, removeMin_sim]
    cases h : removeMin fuel v with
    | ok v1 m =>
      simp only [liftOutcome]
      rw [ih v1]
      cases h2 : removeAll fuel n v1 <;> rfl
    | thrown e st => rfl
    | undefinedBehaviour => rfl
    | outOfFuel => rfl

theorem heapSort_spec (fuel : Nat) (xs : List Int) (hk : ∀ x ∈ xs, x ≤ INT_MAX)
    (hL : xs.length ≤ 2147483648) (hf : xs.length ≤ fuel) :
    heapSort fuel xs = .ok [INT_MAX] (xs.insertionSort (fun a b => a ≤ b)) := by
  have hk2 : ∀ p ∈ xs.map (fun x => (x, x)), p.2 ≤ INT_MAX := by
    intro p hp
    simp at hp
    obtain ⟨a, ha, rfl⟩ := hp
    exact hk a ha
  have hord0 : MinHeap.HeapOrd (liftVec new) (liftVec new).length := by
    intro j hj2 hjm; simp [liftVec, new] at hjm; omega
  obtain ⟨v2, e2, hl2, h02, hp2, hord2⟩ := MinHeap.insertAll_spec (xs.map (fun x => (x, x)))
    (liftVec new) (by simp [liftVec, new]) (by simp [liftVec, new]; omega) hk2 hord0
  rw [insertAll_sim xs new (by simp [new]) (by simp [new]; omega) hk] at e2
  obtain ⟨w, ew, hw⟩ := liftOutcome_eq_ok e2
  have hl2' : v2.length = xs.length + 1 := by
    rw [hl2]; simp [liftVec, new]; omega
  obtain ⟨ns, e3, hp3, hs3⟩ := MinHeap.removeAll_spec fuel xs.length v2 hl2' (by omega)
    (by omega) hord2
  rw [← hw, removeAll_sim] at e3
  obtain ⟨w2, ew2, hw2⟩ := liftOutcome_eq_ok e3
  unfold heapSort
  rw [ew]
  simp only []
  rw [ew2]
  -- the final vector
  have hfin : w2 = [INT_MAX] := by
    have h1 : (liftVec w2).map Node.key = ((liftVec w).take 1).map Node.key := by rw [hw2]
    rw [map_key_liftVec, List.map_take, map_key_liftVec] at h1
    rw [h1]
    have h0 : w[0]? = some INT_MAX := by
      have : (liftVec w)[0]? = (liftVec new)[0]? := by rw [hw]; exact h02
      rw [liftVec_slot, liftVec_slot] at this
      simp [new] at this
      cases hw0 : w[0]? with
      | none => simp [hw0] at this
      | some a => simp [hw0] at this; rw [this]
    cases w with
    | nil => simp at h0
    | cons a t => simp at h0; simp [h0]
  -- the payloads
  have hdiag : ∀ n ∈ ns, n.data = n.key := by
    intro n hn
    have : n ∈ liftVec w := by
      rw [hw]; exact List.mem_of_mem_tail (hp3.subset hn)
    simp [liftVec] at this
    obtain ⟨a, _, rfl⟩ := this
    rfl
  have hmap : ns.map Node.data = ns.map Node.key := List.map_congr_left hdiag
  have hperm : (ns.map Node.key).Perm xs := by
    have := (hp3.trans hp2).map Node.key
    simpa [liftVec, new, MinHeap.toNode, Function.comp_def] using this
  have hsorted : (ns.map Node.key).Sorted (fun a b => a ≤ b) := by
    rw [List.Sorted, List.pairwise_map]
    exact hs3
  have hsort := List.eq_of_perm_of_sorted
    (hperm.trans (List.perm_insertionSort (fun a b : Int => a ≤ b) xs).symm) hsorted
    (List.sorted_insertionSort (fun a b : Int => a ≤ b) xs)
  rw [hfin, hmap, hsort]

end IntMinHeap

namespace MinHeap
variable {T : Type}

theorem reachable_insertAll : ∀ (pairs : List (T × Int)) (vec v2 : List (Node T)),
    ReachableCapped vec → vec.length + pairs.length ≤ 2147483649 →
    (∀ p ∈ pairs, INT_MIN ≤ p.2 ∧ p.2 ≤ INT_MAX) →
    insertAll vec pairs = .ok v2 () → ReachableCapped v2 := by
  intro pairs
  induction pairs with
  | nil =>
    intro vec v2 hr _ _ e
    rw [insertAll] at e
    cases e
    exact hr
  | cons p rest ih =>
    intro vec v2 hr hL hk e
    simp at hL
    have hinv := reachable_inv hr
    obtain ⟨v1, e1, hl1, _⟩ := insert_spec vec p.1 p.2 hinv.1 (by omega) (hk p (by simp)).2
    rw [insertAll] at e
    simp only [e1] at e
    have hr1 : ReachableCapped v1 :=
      ReachableCapped.afterInsert vec v1 p.1 p.2 hr (by omega) (hk p (by simp)).1 (hk p (by simp)).2 e1
    exact ih v1 v2 hr1 (by omega) (fun q hq => hk q (by simp [hq])) e

theorem testHeap_reachable : ReachableCapped testHeap :=
  reachable_insertAll testPairs (new testPlaceholder) testHeap (ReachableCapped.init _)
    (by decide) (by decide) (by decide)

end MinHeap

namespace MinHeap
variable {T : Type}

theorem minHeapify_no_throw : ∀ (fuel : Nat) (vec : List (Node T)) (i : Nat) (e : Exn)
    (st : List (Node T)), minHeapify fuel vec i ≠ .thrown e st := by
  intro fuel
  induction fuel with
  | zero => intro vec i e st; rw [minHeapify]; simp
  | succ fuel ih =>
    intro vec i e st
    rw [minHeapify]
    cases smallestLeft vec i with
    | none => simp
    | some s1 =>
      simp only []
      cases smallestRight vec i s1 with
      | none => simp
      | some sm =>
        simp only []
        by_cases c : sm ≠ i
        · simp only [if_pos c]
          cases swap vec i sm with
          | none => simp
          | some v1 => exact ih v1 sm e st
        · simp only [if_neg c]; simp

theorem decreaseLoop_no_throw : ∀ (fuel : Nat) (vec : List (Node T)) (i : Nat) (e : Exn)
    (st : List (Node T)), decreaseLoop fuel vec i ≠ .thrown e st := by
  intro fuel
  induction fuel with
  | zero => intro vec i e st; rw [decreaseLoop]; simp
  | succ fuel ih =>
    intro vec i e st
    rw [decreaseLoop]
    by_cases c : 1 < i
    · simp only [if_pos c]
      cases vec[parent i]? with
      | none => simp
      | some np =>
        cases vec[i]? with
        | none => simp
        | some ni =>
          simp only []
          by_cases k : np.key > ni.key
          · simp only [if_pos k]
            cases swap vec i (parent i) with
            | none => simp
            | some v1 => exact ih v1 (parent i) e st
          · simp only [if_neg k]; simp
    · simp only [if_neg c]; simp

theorem removeMin_thrown (fuel : Nat) (vec : List (Node T)) (e : Exn) (st : List (Node T))
    (h : removeMin fuel vec = .thrown e st) : size vec = 0 ∧ e = .emptyHeap ∧ st = vec := by
  unfold removeMin at h
  by_cases c : size vec = 0
  · simp only [if_pos c] at h
    cases h
    exact ⟨c, rfl, rfl⟩
  · simp only [if_neg c] at h
    cases h1 : vec[1]? with
    | none => simp [h1] at h
    | some n1 =>
      cases h2 : vec[size vec]? with
      | none => simp [h1, h2] at h
      | some last =>
        simp only [h1, h2] at h
        cases h3 : minHeapify fuel (vec.set 1 last) 1 with
        | ok v2 u =>
          simp only [h3] at h
          by_cases l : v2.length = 0
          · simp [l] at h
          · simp [l] at h
        | thrown e2 st2 => exact absurd h3 (minHeapify_no_throw _ _ _ _ _)
        | undefinedBehaviour => simp [h3] at h
        | outOfFuel => simp [h3] at h

theorem removeMin_empty (fuel : Nat) (vec : List (Node T)) (h : size vec = 0) :
    removeMin fuel vec = .thrown .emptyHeap vec := by
  unfold removeMin; simp [h]

theorem heapDecreaseKey_thrown (vec : List (Node T)) (i : Nat) (key : Int) (n : Node T)
    (hn : vec[i]? = some n) (e : Exn) (st : List (Node T))
    (h : heapDecreaseKey vec i key = .thrown e st) :
    e = .keyGreater ∧ st = vec ∧ key > n.key := by
  unfold heapDecreaseKey at h
  simp only [hn] at h
  by_cases c : key > n.key
  · simp only [if_pos c] at h
    cases h
    exact ⟨rfl, rfl, c⟩
  · simp only [if_neg c] at h
    exact absurd h (decreaseLoop_no_throw _ _ _ _ _)

theorem heapDecreaseKey_greater (vec : List (Node T)) (i : Nat) (key : Int) (n : Node T)
    (hn : vec[i]? = some n) (h : key > n.key) :
    heapDecreaseKey vec i key = .thrown .keyGreater vec := by
  unfold heapDecreaseKey; simp only [hn]; simp [h]

end MinHeap

namespace IntMinHeap

theorem liftVec_injective {v w : List Int} (h : liftVec v = liftVec w) : v = w := by
  have := congrArg (List.map Node.key) h
  rwa [map_key_liftVec, map_key_liftVec] at this

theorem liftOutcome_eq_thrown {α : Type} {o : Outcome (List Int) α} {e : Exn}
    {v2 : List (Node Int)} (h : liftOutcome o = .thrown e v2) :
    ∃ w, o = .thrown e w ∧ liftVec w = v2 := by
  cases o with
  | ok w b => simp [liftOutcome] at h
  | thrown e1 st => simp [liftOutcome] at h; exact ⟨st, by rw [h.1], h.2⟩
  | undefinedBehaviour => simp [liftOutcome] at h
  | outOfFuel => simp [liftOutcome] at h

theorem reachable_lift {v : List Int} (h : ReachableCapped v) : MinHeap.ReachableCapped (liftVec v) := by
  induction h with
  | init => exact MinHeap.ReachableCapped.init ⟨INT_MAX, INT_MAX⟩
  | afterInsert vec vec1 val _ hlen hmin hmax e ih =>
    refine MinHeap.ReachableCapped.afterInsert (liftVec vec) (liftVec vec1) val val ih
      (by rw [liftVec_length]; exact hlen) hmin hmax ?_
    rw [insert_sim vec val hmax (by omega), e]; rfl
  | afterRemoveMin fuel vec vec1 x _ e ih =>
    refine MinHeap.ReachableCapped.afterRemoveMin fuel (liftVec vec) (liftVec vec1) x ih ?_
    rw [removeMin_sim, e]; rfl

theorem int_removeMin_thrown (fuel : Nat) (vec : List Int) (e : Exn) (st : List Int)
    (h : removeMin fuel vec = .thrown e st) : size vec = 0 ∧ e = .emptyHeap ∧ st = vec := by
  have h2 : MinHeap.removeMin fuel (liftVec vec) = .thrown e (liftVec st) := by
    rw [removeMin_sim, h]; rfl
  obtain ⟨a, b, c⟩ := MinHeap.removeMin_thrown fuel (liftVec vec) e (liftVec st) h2
  exact ⟨by rw [← liftVec_size]; exact a, b, liftVec_injective c⟩

theorem int_removeMin_empty (fuel : Nat) (vec : List Int) (h : size vec = 0) :
    removeMin fuel vec = .thrown .emptyHeap vec := by
  unfold removeMin; simp [h]

end IntMinHeap

namespace MinHeap
variable {T : Type}

theorem insertThenRemoveAll_spec (fuel : Nat) (placeholder : Node T)
    (pairs : List (T × Int)) (hint : ∀ p ∈ pairs, p.2 ≤ INT_MAX)
    (hlen : pairs.length ≤ 2147483648) (hfuel : pairs.length ≤ fuel) :
    ∃ sorted : List (T × Int), sorted.Perm pairs ∧
      sorted.Sorted (fun a b => a.2 ≤ b.2) ∧
      insertThenRemoveAll fuel placeholder pairs =
        .ok (MinHeap.new placeholder) (sorted.map Prod.fst) := by
  have hord0 : HeapOrd (MinHeap.new placeholder) (MinHeap.new placeholder).length := by
    intro j hj2 hjm; simp [MinHeap.new] at hjm; omega
  obtain ⟨v2, e2, hl2, h02, hp2, hord2⟩ := insertAll_spec pairs (MinHeap.new placeholder)
    (by simp [MinHeap.new]) (by simp [MinHeap.new]; omega) hint hord0
  have hl2' : v2.length = pairs.length + 1 := by
    rw [hl2]; simp [MinHeap.new]; omega
  obtain ⟨ns, e3, hp3, hs3⟩ := removeAll_spec fuel pairs.length v2 hl2' (by omega)
    (by omega) hord2
  refine ⟨ns.map (fun n => (n.data, n.key)), ?_, ?_, ?_⟩
  · have := (hp3.trans hp2).map (fun n : Node T => (n.data, n.key))
    simpa [MinHeap.new, toNode, Function.comp_def] using this
  · rw [List.Sorted, List.pairwise_map]
    exact hs3
  · unfold insertThenRemoveAll
    rw [e2]
    simp only []
    rw [e3]
    have : v2.take 1 = MinHeap.new placeholder := by
      cases v2 with
      | nil => simp at hl2'
      | cons a t => simp [MinHeap.new] at h02; simp [MinHeap.new, h02]
    rw [this]
    simp [Function.comp_def]

end MinHeap

namespace MinHeap
variable {T : Type}

theorem run_spec (fuel : Nat) : ∀ (ops : List (Op T)) (vec : List (Node T)),
    ReachableCapped vec → keysInRange ops → vec.length + countInsertOps ops ≤ 2147483649 →
    vec.length + countInsertOps ops ≤ fuel + 1 →
    ∃ v2 events, run fuel ops vec = some (v2, events) ∧ ReachableCapped v2 ∧
      countInserted events = countInsertOps ops ∧
      size v2 + countRemoved events = size vec + countInserted events := by
  intro ops
  induction ops with
  | nil =>
    intro vec hr _ _ _
    exact ⟨vec, [], rfl, hr, rfl, rfl⟩
  | cons op ops ih =>
    intro vec hr hk hL hf
    obtain ⟨h1, hL0, hord⟩ := reachable_inv hr
    have hs := size_eq vec h1 (by omega)
    cases op with
    | insert val key =>
      simp only [keysInRange, countInsertOps] at hk hL hf
      obtain ⟨v1, e1, hl1, _⟩ := insert_spec vec val key h1 (by omega) hk.2.1
      have hr1 : ReachableCapped v1 :=
        ReachableCapped.afterInsert vec v1 val key hr (by omega) hk.1 hk.2.1 e1
      obtain ⟨v2, ev, e2, hr2, hc, hsz⟩ := ih v1 hr1 hk.2.2 (by omega) (by omega)
      refine ⟨v2, .inserted :: ev, ?_, hr2, ?_, ?_⟩
      · rw [run]; simp only [e1, e2]; rfl
      · simp only [countInserted, countInsertOps, hc]
      · have hs1 := size_eq v1 (by omega) (by omega)
        simp only [countInserted, countRemoved]
        omega
    | removeMin =>
      simp only [keysInRange, countInsertOps] at hk hL hf
      by_cases c : vec.length = 1
      · have e1 := removeMin_empty fuel vec (by omega)
        obtain ⟨v2, ev, e2, hr2, hc, hsz⟩ := ih vec hr hk hL hf
        refine ⟨v2, .threw .emptyHeap :: ev, ?_, hr2, ?_, ?_⟩
        · rw [run]; simp only [e1, e2]; rfl
        · simp only [countInserted, countInsertOps, hc]
        · simp only [countInserted, countRemoved]; omega
      · obtain ⟨n1, v3, _, e3, hl3, _⟩ := removeMin_spec fuel vec (by omega) hL0 (by omega) hord
        have hr3 : ReachableCapped v3 := ReachableCapped.afterRemoveMin fuel vec v3 n1.data hr e3
        obtain ⟨v2, ev, e2, hr2, hc, hsz⟩ := ih v3 hr3 hk (by omega) (by omega)
        refine ⟨v2, .removed n1.data :: ev, ?_, hr2, ?_, ?_⟩
        · rw [run]; simp only [e3, e2]; rfl
        · simp only [countInserted, countInsertOps, hc]
        · have hs3 := size_eq v3 (by omega) (by omega)
          simp only [countInserted, countRemoved]
          omega

theorem assign_length (vec : List (Ptr T)) (heap : List (Node T)) :
    (assign vec heap).length = vec.length + heap.length := by
  unfold assign copyPtrs
  cases vec with
  | nil => simp [clear, deleteFirst]
  | cons p rest => simp [clear, deleteFirst]; omega

end MinHeap

namespace IntMinHeap

theorem int_heapDecreaseKey_thrown (vec : List Int) (i : Nat) (key k : Int)
    (hk : vec[i]? = some k) (e : Exn) (st : List Int)
    (h : heapDecreaseKey vec i key = .thrown e st) :
    e = .keyGreater ∧ st = vec ∧ key > k := by
  unfold heapDecreaseKey at h
  simp only [hk] at h
  by_cases c : key > k
  · simp only [if_pos c] at h
    cases h
    exact ⟨rfl, rfl, c⟩
  · simp only [if_neg c] at h
    have h2 := decreaseLoop_sim (i + 1) (vec.set i key) i
    rw [h] at h2
    exact absurd h2 (MinHeap.decreaseLoop_no_throw _ _ _ _ _)

theorem int_heapDecreaseKey_greater (vec : List Int) (i : Nat) (key k : Int)
    (hk : vec[i]? = some k) (h : key > k) :
    heapDecreaseKey vec i key = .thrown .keyGreater vec := by
  unfold heapDecreaseKey; simp only [hk]; simp [h]

theorem heapDecreaseKey_ok (vec : List Int) (i : Nat) (key k : Int)
    (hk : vec[i]? = some k) (h : key ≤ k) :
    ∃ vec1, heapDecreaseKey vec i key = .ok vec1 () := by
  have hi : i < vec.length := by
    by_contra hc
    rw [List.getElem?_eq_none (by omega)] at hk; simp at hk
  unfold heapDecreaseKey
  simp only [hk]
  rw [if_neg (by omega)]
  obtain ⟨v2, e2, _⟩ := MinHeap.decreaseLoop_spec (i + 1) (liftVec (vec.set i key)) i
    (by omega) (by simpa [liftVec_length] using hi)
  rw [decreaseLoop_sim] at e2
  obtain ⟨w, ew, _⟩ := liftOutcome_eq_ok e2
  exact ⟨w, ew⟩

end IntMinHeap

namespace MinHeap
variable {T : Type}

theorem clear_length (vec : List (Ptr T)) : (clear vec).length = vec.length := by
  cases vec with
  | nil => rfl
  | cons p rest => simp [clear]

theorem insert_tail_perm (vec : List (Node T)) (val : T) (key : Int)
    (h1 : 1 ≤ vec.length) (hL : vec.length < 4294967296) (hk : key ≤ INT_MAX) :
    ∃ v2, insert vec val key = .ok v2 () ∧ v2.tail.Perm (vec.tail ++ [⟨val, key⟩]) := by
  obtain ⟨v2, e, _, hp, h0, _⟩ := insert_spec vec val key h1 hL hk
  refine ⟨v2, e, ?_⟩
  have := perm_tail_of_head hp (by rw [h0, List.getElem?_append_left (by omega)])
  rw [List.tail_append_of_ne_nil] at this
  · exact this
  · intro hc; rw [hc] at h1; simp at h1

end MinHeap

namespace MinHeap
variable {T : Type}

theorem smallestLeft_eq (vec : List (Node T)) (i : Nat) (hL : vec.length ≤ 2147483649)
    (hi2 : i < 2147483648) (hi : i < vec.length) :
    smallestLeft vec i =
      some (if 2 * i < size vec ∧ keyAt vec (2 * i) < keyAt vec i then 2 * i else i) := by
  have hl := left_eq i (by omega)
  have hs := size_eq vec (by omega) (by omega)
  obtain ⟨ni, hni⟩ := slot_of_lt vec i hi
  unfold smallestLeft
  rw [hl]
  by_cases c1 : 2 * i < size vec
  · obtain ⟨nl, hnl⟩ := slot_of_lt vec (2 * i) (by omega)
    simp [c1, hnl, hni, keyAt_of_some hnl, keyAt_of_some hni]
  · simp [c1]

theorem smallestRight_eq (vec : List (Node T)) (i s1 : Nat) (hL : vec.length ≤ 2147483649)
    (hi2 : i < 2147483648) (hs1 : s1 < vec.length) :
    smallestRight vec i s1 =
      some (if 2 * i + 1 < size vec ∧ keyAt vec (2 * i + 1) < keyAt vec s1
        then 2 * i + 1 else s1) := by
  have hr := right_eq i (by omega)
  have hs := size_eq vec (by omega) (by omega)
  obtain ⟨ns, hns⟩ := slot_of_lt vec s1 hs1
  unfold smallestRight
  rw [hr]
  by_cases c1 : 2 * i + 1 < size vec
  · obtain ⟨nr, hnr⟩ := slot_of_lt vec (2 * i + 1) (by omega)
    simp [c1, hnr, hns, keyAt_of_some hnr, keyAt_of_some hns]
  · simp [c1]

/-- The index `minHeapify(i)` ends up calling `smallest`, as a closed formula, for a
slot `i` below `2^31`. -/
theorem smallest_formula_of_lt (vec : List (Node T)) (i : Nat)
    (hL : vec.length ≤ 2147483649) (hi2 : i < 2147483648) (hi : i < vec.length) :
    ∃ s1 sm, smallestLeft vec i = some s1 ∧ smallestRight vec i s1 = some sm ∧
      s1 = (if 2 * i < size vec ∧ keyAt vec (2 * i) < keyAt vec i then 2 * i else i) ∧
      sm = (if 2 * i + 1 < size vec ∧ keyAt vec (2 * i + 1) < keyAt vec s1
        then 2 * i + 1 else s1) := by
  have hs := size_eq vec (by omega) (by omega)
  have e1 := smallestLeft_eq vec i hL hi2 hi
  have hs1 : (if 2 * i < size vec ∧ keyAt vec (2 * i) < keyAt vec i then 2 * i else i)
      < vec.length := by
    split
    · omega
    · exact hi
  exact ⟨_, _, e1, smallestRight_eq vec i _ hL hi2 hs1, rfl, rfl⟩

/-- Termination of `minHeapify` within the range where `left` and `right` are exact,
from a slot `i` below `2^31`: if `i` doubled `d + 1` times is not below `size()`,
`d + 1` nested calls are enough. -/
theorem minHeapify_total_of_lt : ∀ (d : Nat) (vec : List (Node T)) (i : Nat),
    vec.length ≤ 2147483649 → i < 2147483648 → 1 ≤ i → i < vec.length →
    size vec ≤ 2 ^ (d + 1) * i →
    ∃ v2, minHeapify (d + 1) vec i = .ok v2 () ∧ v2.length = vec.length := by
  intro d
  induction d with
  | zero =>
    intro vec i hL hi2 h1 hi hd
    obtain ⟨s1, sm, e1, e2, hsm, _⟩ := smallest_choice vec i hL hi2 hi
    have : sm = i := by
      rcases hsm with h | ⟨h, hlt, _⟩
      · exact h
      · simp at hd; omega
    refine ⟨vec, ?_, rfl⟩
    rw [minHeapify]; simp only [e1, e2, this]; simp
  | succ d ih =>
    intro vec i hL hi2 h1 hi hd
    obtain ⟨s1, sm, e1, e2, hsm, _⟩ := smallest_choice vec i hL hi2 hi
    have hs := size_eq vec (by omega) (by omega)
    rcases hsm with h | ⟨h, hlt, _⟩
    · refine ⟨vec, ?_, rfl⟩
      rw [minHeapify]; simp only [e1, e2, h]; simp
    · obtain ⟨v1, es, hlen, _⟩ := swap_spec vec i sm hi (by omega)
      have hpow : 2 ^ (d + 1 + 1) * i = 2 ^ (d + 1) * (2 * i) := by ring
      have hmono : 2 ^ (d + 1) * (2 * i) ≤ 2 ^ (d + 1) * sm :=
        Nat.mul_le_mul_left _ (by omega)
      obtain ⟨v2, e3, hlen2⟩ := ih v1 sm (by omega) (by omega) (by omega) (by omega)
        (by rw [size_congr hlen]; omega)
      refine ⟨v2, ?_, by omega⟩
      rw [minHeapify]; simp only [e1, e2, es]
      rw [if_pos (by omega)]
      exact e3

/-- Termination of `minHeapify` within the range where `left` and `right` are exact:
if `i` doubled `d + 1` times is not below `size()`, `d + 1` nested calls are enough. -/
theorem minHeapify_total (d : Nat) (vec : List (Node T)) (i : Nat)
    (hL : vec.length ≤ 2147483648) (h1 : 1 ≤ i) (hi : i < vec.length)
    (hd : size vec ≤ 2 ^ (d + 1) * i) :
    ∃ v2, minHeapify (d + 1) vec i = .ok v2 () ∧ v2.length = vec.length :=
  minHeapify_total_of_lt d vec i (by omega) (by omega) h1 hi hd

/-- Outside the vector `minHeapify` makes no nested call. -/
theorem minHeapify_outside (fuel : Nat) (vec : List (Node T)) (i : Nat)
    (hi : vec.length ≤ i) :
    minHeapify (fuel + 1) vec i = .ok vec () ∨
      minHeapify (fuel + 1) vec i = .undefinedBehaviour := by
  have hni : vec[i]? = none := List.getElem?_eq_none hi
  rw [minHeapify]
  unfold smallestLeft
  by_cases c1 : left i < size vec
  · right
    simp only [if_pos c1, hni]
    cases vec[left i]? <;> rfl
  · simp only [if_neg c1]
    unfold smallestRight
    by_cases c2 : right i < size vec
    · right
      simp only [if_pos c2, hni]
      cases vec[right i]? <;> rfl
    · left
      simp only [if_neg c2]
      simp

end MinHeap

namespace IntMinHeap

theorem int_minHeapify_total (d : Nat) (vec : List Int) (i : Nat)
    (hL : vec.length ≤ 2147483648) (h1 : 1 ≤ i) (hi : i < vec.length)
    (hd : size vec ≤ 2 ^ (d + 1) * i) :
    ∃ v2, minHeapify (d + 1) vec i = .ok v2 () := by
  obtain ⟨v2, e, _⟩ := MinHeap.minHeapify_total d (liftVec vec) i (by rwa [liftVec_length]) h1
    (by rwa [liftVec_length]) (by rw [liftVec_size]; exact hd)
  rw [minHeapify_sim] at e
  obtain ⟨w, ew, _⟩ := liftOutcome_eq_ok e
  exact ⟨w, ew⟩

theorem int_minHeapify_not_outOfFuel (fuel : Nat) (vec : List Int) (i : Nat)
    (h : MinHeap.minHeapify fuel (liftVec vec) i ≠ .outOfFuel) :
    minHeapify fuel vec i ≠ .outOfFuel := by
  intro hc
  apply h
  rw [minHeapify_sim, hc]; rfl

end IntMinHeap

namespace MinHeap
variable {T : Type}

theorem minHeapify_terminates_aux (d fuel : Nat) (vec : List (Node T)) (i : Nat)
    (hL : vec.length ≤ 2147483648) (h1 : 1 ≤ i) (hd : size vec ≤ 2 ^ (d + 1) * i)
    (hf : d + 1 ≤ fuel) : minHeapify fuel vec i ≠ .outOfFuel := by
  have hne : minHeapify (d + 1) vec i ≠ .outOfFuel := by
    by_cases hi : i < vec.length
    · obtain ⟨v2, e, _⟩ := minHeapify_total d vec i hL h1 hi hd
      rw [e]; simp
    · rcases minHeapify_outside d vec i (by omega) with e | e <;> rw [e] <;> simp
  have := minHeapify_fuel_mono (d + 1) (fuel - (d + 1)) vec i hne
  rw [show d + 1 + (fuel - (d + 1)) = fuel by omega] at this
  rw [this]; exact hne

theorem smallest_is_child (vec : List (Node T)) (i : Nat) (hL : vec.length ≤ 2147483648)
    (s1 sm : Nat) (e1 : smallestLeft vec i = some s1) (e2 : smallestRight vec i s1 = some sm)
    (hne : sm ≠ i) : (sm = 2 * i ∨ sm = 2 * i + 1) ∧ i < sm ∧ sm < size vec := by
  by_cases hi : i < vec.length
  · obtain ⟨t1, tm, f1, f2, hsm, _⟩ := smallest_choice vec i (by omega) (by omega) hi
    rw [e1] at f1; cases f1
    rw [e2] at f2; cases f2
    rcases hsm with h | ⟨h, hlt, hk⟩
    · exact absurd h hne
    · exact ⟨h, by omega, hlt⟩
  · exfalso
    have hni : vec[i]? = none := List.getElem?_eq_none (by omega)
    unfold smallestLeft at e1
    by_cases c1 : left i < size vec
    · simp only [if_pos c1, hni] at e1
      cases h : vec[left i]? <;> simp [h] at e1
    · simp only [if_neg c1] at e1
      cases e1
      unfold smallestRight at e2
      by_cases c2 : right i < size vec
      · simp only [if_pos c2, hni] at e2
        cases h : vec[right i]? <;> simp [h] at e2
      · simp only [if_neg c2] at e2
        cases e2
        exact hne rfl

end MinHeap

section ListFacts
variable {α : Type}

theorem dropLast_set (l : List α) (k : Nat) (x : α) :
    (l.set k x).dropLast = l.dropLast.set k x := by
  rw [List.dropLast_eq_take, List.dropLast_eq_take, List.length_set, List.set_take]

end ListFacts

namespace MinHeap
variable {T : Type}

theorem keyAt_dropLast (v : List (Node T)) (k : Nat) (h : k < v.length - 1) :
    keyAt v.dropLast k = keyAt v k := by
  apply keyAt_congr
  rw [List.getElem?_dropLast, if_pos h]

theorem specSmallest_eq (arr : List (Node T)) (i : Nat) (h1 : 1 ≤ i) :
    specSmallest arr (arr.length - 1) i =
      some (if 2 * i + 1 < arr.length ∧ keyAt arr (2 * i + 1) <
          keyAt arr (if 2 * i < arr.length ∧ keyAt arr (2 * i) < keyAt arr i then 2 * i else i)
        then 2 * i + 1
        else (if 2 * i < arr.length ∧ keyAt arr (2 * i) < keyAt arr i then 2 * i else i)) := by
  unfold specSmallest
  by_cases c1 : 2 * i < arr.length
  · obtain ⟨nl, hnl⟩ := slot_of_lt arr (2 * i) c1
    obtain ⟨ni, hni⟩ := slot_of_lt arr i (by omega)
    have a1 : 2 * i ≤ arr.length - 1 := by omega
    simp only [if_pos a1, hnl, hni, keyAt_of_some hnl, keyAt_of_some hni, c1, true_and]
    by_cases c2 : 2 * i + 1 < arr.length
    · obtain ⟨nr, hnr⟩ := slot_of_lt arr (2 * i + 1) c2
      have a2 : 2 * i + 1 ≤ arr.length - 1 := by omega
      simp only [if_pos a2, hnr, keyAt_of_some hnr, c2, true_and]
      by_cases k1 : nl.key < ni.key
      · simp only [if_pos k1, hnl, keyAt_of_some hnl]
      · simp only [if_neg k1, hni, keyAt_of_some hni]
    · have a2 : ¬ 2 * i + 1 ≤ arr.length - 1 := by omega
      simp only [if_neg a2, c2, false_and, if_false]
  · have a1 : ¬ 2 * i ≤ arr.length - 1 := by omega
    have c2 : ¬ 2 * i + 1 < arr.length := by omega
    have a2 : ¬ 2 * i + 1 ≤ arr.length - 1 := by omega
    simp only [if_neg a1, if_neg a2, c1, c2, false_and, if_false]

end MinHeap

namespace MinHeap
variable {T : Type}

theorem swap_dropLast (v v1 : List (Node T)) (i s : Nat) (hi : i < v.length - 1)
    (hs : s < v.length - 1) (h : swap v i s = some v1) :
    swap v.dropLast i s = some v1.dropLast := by
  obtain ⟨a, ha⟩ := slot_of_lt v i (by omega)
  obtain ⟨b, hb⟩ := slot_of_lt v s (by omega)
  unfold swap at h ⊢
  simp only [ha, hb] at h
  rw [List.getElem?_dropLast, List.getElem?_dropLast, if_pos hi, if_pos hs]
  simp only [ha, hb]
  cases h
  rw [dropLast_set, dropLast_set]

theorem swap_length (v v1 : List (Node T)) (i s : Nat) (h : swap v i s = some v1) :
    v1.length = v.length := by
  unfold swap at h
  cases ha : v[i]? with
  | none => simp [ha] at h
  | some a =>
    cases hb : v[s]? with
    | none => simp [ha, hb] at h
    | some b =>
      simp only [ha, hb] at h
      cases h
      simp

theorem minHeapify_length : ∀ (fuel : Nat) (v v2 : List (Node T)) (i : Nat) (u : Unit),
    minHeapify fuel v i = .ok v2 u → v2.length = v.length := by
  intro fuel
  induction fuel with
  | zero => intro v v2 i u h; rw [minHeapify] at h; cases h
  | succ fuel ih =>
    intro v v2 i u h
    rw [minHeapify] at h
    cases h1 : smallestLeft v i with
    | none => simp [h1] at h
    | some s1 =>
      simp only [h1] at h
      cases h2 : smallestRight v i s1 with
      | none => simp [h2] at h
      | some sm =>
        simp only [h2] at h
        by_cases c : sm ≠ i
        · simp only [if_pos c] at h
          cases h3 : swap v i sm with
          | none => simp [h3] at h
          | some v1 =>
            simp only [h3] at h
            rw [ih v1 v2 sm u h, swap_length v v1 i sm h3]
        · simp only [if_neg c] at h
          cases h
          rfl

theorem specSiftDown_refines : ∀ (fuel : Nat) (v : List (Node T)) (i : Nat),
    v.length ≤ 2147483649 → i < 2147483648 → 1 ≤ i → i < v.length →
    specSiftDown fuel v.dropLast i = popOutcome (minHeapify fuel v i) := by
  intro fuel
  induction fuel with
  | zero => intro v i _ _ _ _; rw [specSiftDown, minHeapify]; rfl
  | succ fuel ih =>
    intro v i hL hi2 h1 hi
    have hs := size_eq v (by omega) (by omega)
    obtain ⟨s1, sm, e1, e2, hs1, hsm⟩ := smallest_formula_of_lt v i hL hi2 hi
    have hspec := specSmallest_eq v.dropLast i h1
    have hlen : v.dropLast.length = v.length - 1 := by simp
    rw [hlen] at hspec
    have hsame : specSmallest v.dropLast (v.length - 1 - 1) i = some sm := by
      rw [hspec, hsm, hs1, hs]
      by_cases A : 2 * i < v.length - 1
      · rw [keyAt_dropLast v (2 * i) A, keyAt_dropLast v i (by omega)]
        by_cases B : 2 * i + 1 < v.length - 1
        · rw [keyAt_dropLast v (2 * i + 1) B]
          by_cases k1 : keyAt v (2 * i) < keyAt v i
          · simp only [A, k1, and_self, if_true, B, true_and]
            rw [keyAt_dropLast v (2 * i) A]
          · simp only [A, k1, and_false, if_false, B, true_and]
            rw [keyAt_dropLast v i (by omega)]
        · simp only [B, false_and, if_false]
      · have B : ¬ 2 * i + 1 < v.length - 1 := by omega
        simp only [A, B, false_and, if_false]
    rw [specSiftDown, minHeapify]
    simp only [hlen, hsame, e1, e2]
    by_cases c : sm ≠ i
    · simp only [if_pos c]
      have hlt : sm < v.length - 1 ∧ i < sm := by
        have := smallest_child v i hL hi2 hi s1 sm e1 e2 c
        omega
      obtain ⟨v1, es, hlen1, _⟩ := swap_spec v i sm hi (by omega)
      rw [es, swap_dropLast v v1 i sm (by omega) hlt.1 es]
      exact ih v1 sm (by omega) (by omega) (by omega) (by omega)
    · simp only [if_neg c]; rfl

theorem specRemoveMin_refines (fuel : Nat) (vec : List (Node T))
    (h2 : 2 ≤ vec.length) (hL : vec.length ≤ 2147483649) :
    removeMin fuel vec = specRemoveMin fuel vec := by
  have hs := size_eq vec (by omega) (by omega)
  unfold removeMin specRemoveMin
  rw [hs, if_neg (by omega), if_neg (by omega)]
  cases h1 : vec[1]? with
  | none => rfl
  | some n1 =>
    cases hl : vec[vec.length - 1]? with
    | none => rfl
    | some last =>
      simp only []
      rw [specSiftDown_refines fuel (vec.set 1 last) 1 (by simpa using hL) (by omega)
        (le_refl 1) (by simp; omega)]
      cases hm : minHeapify fuel (vec.set 1 last) 1 with
      | ok v2 u =>
        simp only [popOutcome]
        have hne : v2.length ≠ 0 := by
          rw [minHeapify_length fuel _ v2 1 u hm, List.length_set]; omega
        rw [if_neg hne]
      | thrown e st => exact absurd hm (minHeapify_no_throw _ _ _ _ _)
      | undefinedBehaviour => rfl
      | outOfFuel => rfl

end MinHeap

namespace MinHeap
variable {T : Type}

theorem removeMin_returns (fuel : Nat) (vec : List (Node T)) (h2 : 2 ≤ vec.length)
    (hL : vec.length ≤ 2147483649) (hf : size vec ≤ fuel) :
    ∃ n1 vec1, vec[1]? = some n1 ∧ removeMin fuel vec = .ok vec1 n1.data := by
  have hs := size_eq vec (by omega) (by omega)
  obtain ⟨n1, hn1⟩ := slot_of_lt vec 1 (by omega)
  obtain ⟨last, hlast⟩ := slot_of_lt vec (vec.length - 1) (by omega)
  have hlen1 : (vec.set 1 last).length = vec.length := by simp
  have hpow : size (vec.set 1 last) ≤ 2 ^ (fuel - 1 + 1) * 1 := by
    rw [size_congr hlen1, show fuel - 1 + 1 = fuel by omega]
    have := Nat.lt_two_pow fuel
    omega
  obtain ⟨v2, e2, hl2⟩ := minHeapify_total_of_lt (fuel - 1) (vec.set 1 last) 1 (by omega)
    (by omega) (le_refl 1) (by omega) hpow
  rw [show fuel - 1 + 1 = fuel by omega] at e2
  refine ⟨n1, v2.dropLast, hn1, ?_⟩
  unfold removeMin
  rw [hs, if_neg (by omega)]
  simp only [hn1, hlast, e2]
  rw [if_neg (by omega)]

end MinHeap

namespace MinHeap
variable {T : Type}

theorem InSubtree.le {i j : Nat} (h : InSubtree i j) : i ≤ j := by
  induction h with
  | root => exact le_refl _
  | child j _ ih => exact le_trans ih (Nat.div_le_self j 2)

theorem InSubtree.of_left {i j : Nat} (h : InSubtree (2 * i) j) : InSubtree i j := by
  induction h with
  | root => exact InSubtree.child (2 * i) (by rw [show 2 * i / 2 = i by omega]; exact InSubtree.root)
  | child j _ ih => exact InSubtree.child j ih

theorem InSubtree.of_right {i j : Nat} (h : InSubtree (2 * i + 1) j) : InSubtree i j := by
  induction h with
  | root =>
    exact InSubtree.child (2 * i + 1) (by rw [show (2 * i + 1) / 2 = i by omega]; exact InSubtree.root)
  | child j _ ih => exact InSubtree.child j ih

theorem InSubtree.parent_of_ne {i j : Nat} (h : InSubtree i j) (hne : j ≠ i) :
    InSubtree i (j / 2) := by
  cases h with
  | root => exact absurd rfl hne
  | child _ h => exact h

theorem InSubtree.split {i j : Nat} (h : InSubtree i j) (hne : j ≠ i) :
    InSubtree (2 * i) j ∨ InSubtree (2 * i + 1) j := by
  induction h with
  | root => exact absurd rfl hne
  | child j h ih =>
    by_cases c : j / 2 = i
    · have : j = 2 * i ∨ j = 2 * i + 1 := by omega
      rcases this with rfl | rfl
      · exact Or.inl InSubtree.root
      · exact Or.inr InSubtree.root
    · rcases ih c with h1 | h1
      · exact Or.inl (InSubtree.child j h1)
      · exact Or.inr (InSubtree.child j h1)

theorem InSubtree.trans {i j k : Nat} (h1 : InSubtree i j) (h2 : InSubtree j k) :
    InSubtree i k := by
  induction h2 with
  | root => exact h1
  | child k _ ih => exact InSubtree.child k ih

theorem InSubtree.not_sibling {i j : Nat} (h1 : 1 ≤ i) (h : InSubtree (2 * i) j) :
    ¬ InSubtree (2 * i + 1) j := by
  induction h with
  | root => intro hc; have := hc.le; omega
  | child j h ih =>
    intro hc
    cases hc with
    | root =>
      have := h.le
      omega
    | child _ hc => exact ih hc

/-- Two ancestors of the same slot are comparable. -/
theorem InSubtree.chain {a b j : Nat} (ha : InSubtree a j) (hb : InSubtree b j) :
    InSubtree a b ∨ InSubtree b a := by
  induction ha with
  | root => exact Or.inr hb
  | child j ha ih =>
    cases hb with
    | root => exact Or.inl (InSubtree.child _ ha)
    | child _ hb => exact ih hb

end MinHeap

namespace MinHeap
variable {T : Type}

theorem minHeapify_subtree : ∀ (fuel : Nat) (vec : List (Node T)) (i : Nat),
    vec.length ≤ 2147483648 → 1 ≤ i → i < vec.length → vec.length ≤ i + fuel →
    SubtreeOrd vec (2 * i) (size vec) → SubtreeOrd vec (2 * i + 1) (size vec) →
    ∃ v2, minHeapify fuel vec i = .ok v2 () ∧ v2.length = vec.length ∧ v2.Perm vec ∧
      SubtreeOrd v2 i (size vec) ∧ (∀ k, ¬ InSubtree i k → v2[k]? = vec[k]?) ∧
      (∀ k, size vec ≤ k → v2[k]? = vec[k]?) ∧
      (keyAt v2 i = keyAt vec i ∨ (2 * i < size vec ∧ keyAt v2 i = keyAt vec (2 * i)) ∨
        (2 * i + 1 < size vec ∧ keyAt v2 i = keyAt vec (2 * i + 1))) := by
  intro fuel
  induction fuel with
  | zero => intro vec i _ _ h1 h2; omega
  | succ fuel ih =>
    intro vec i hL h1 hi hf hleft hright
    obtain ⟨s1, sm, e1, e2, hsm, hle, hch⟩ := smallest_choice vec i (by omega) (by omega) hi
    have hs := size_eq vec (by omega) (by omega)
    rcases hsm with rfl | ⟨hsm, hlt, hklt⟩
    · refine ⟨vec, by rw [minHeapify]; simp only [e1, e2]; simp, rfl, List.Perm.refl _, ?_,
        fun _ _ => rfl, fun _ _ => rfl, Or.inl rfl⟩
      intro j hj hne hjm
      by_cases c : j / 2 = sm
      · rw [c]; exact hch j c hjm
      · rcases hj.split hne with hc | hc
        · exact hleft j hc (by omega) hjm
        · exact hright j hc (by omega) hjm
    · have hne : sm ≠ i := by omega
      -- the sibling of the chosen child, and the facts that do not depend on the side
      obtain ⟨s, hs2, hsne, hsplit, hdis, hordc, hords⟩ : ∃ s, s / 2 = i ∧ s ≠ sm ∧
          (∀ j, InSubtree i j → j ≠ i → InSubtree sm j ∨ InSubtree s j) ∧
          (∀ j, InSubtree s j → ¬ InSubtree sm j) ∧
          SubtreeOrd vec sm (size vec) ∧ SubtreeOrd vec s (size vec) := by
        rcases hsm with rfl | rfl
        · exact ⟨2 * i + 1, by omega, by omega, fun j hj hn => hj.split hn,
            fun j hj hc => InSubtree.not_sibling h1 hc hj, hleft, hright⟩
        · exact ⟨2 * i, by omega, by omega, fun j hj hn => (hj.split hn).symm,
            fun j hj hc => InSubtree.not_sibling h1 hj hc, hright, hleft⟩
      have hsmi : InSubtree i sm := by
        rcases hsm with rfl | rfl
        · exact InSubtree.of_left InSubtree.root
        · exact InSubtree.of_right InSubtree.root
      have hsub : ∀ j, InSubtree sm j → InSubtree i j := fun j hj => hsmi.trans hj
      have hsm2 : sm / 2 = i := by omega
      obtain ⟨v1, es, hlen, hperm, hget⟩ := swap_spec vec i sm hi (by omega)
      have hk := swap_keyAt hget
      have hsz : size v1 = size vec := size_congr hlen
      -- below the chosen child nothing has moved
      have hkeep : ∀ j, InSubtree sm j → j ≠ sm → keyAt v1 j = keyAt vec j := by
        intro j hj hn
        have := hj.le
        rw [hk, if_neg hn, if_neg (by omega)]
      have hsub1 : ∀ c, c / 2 = sm → SubtreeOrd v1 c (size v1) := by
        intro c hc j hj hn hjm
        rw [hsz] at hjm
        have hcj := hj.le
        have hcsm : InSubtree sm c := InSubtree.child c (by rw [hc]; exact InSubtree.root)
        have hjsm : InSubtree sm j := hcsm.trans hj
        have hpar : InSubtree c (j / 2) := hj.parent_of_ne hn
        have hparle := hpar.le
        rw [hkeep j hjsm (by omega), hkeep (j / 2) (hcsm.trans hpar) (by omega)]
        exact hordc j hjsm (by omega) hjm
      obtain ⟨v2, e3, hlen2, hperm2, hord2, hfix2, hhigh2, hroot2⟩ :=
        ih v1 sm (by omega) (by omega) (by omega) (by omega)
          (hsub1 (2 * sm) (by omega)) (hsub1 (2 * sm + 1) (by omega))
      rw [hsz] at hord2 hhigh2 hroot2
      have hnot_i : ¬ InSubtree sm i := fun hc => by have := hc.le; omega
      have hv2i : keyAt v2 i = keyAt vec sm := by
        rw [keyAt_congr (hfix2 i hnot_i), hk, if_neg (by omega), if_pos rfl]
      have hroot_ge : keyAt vec sm ≤ keyAt v2 sm := by
        rcases hroot2 with h | ⟨hlt2, h⟩ | ⟨hlt2, h⟩
        · rw [h, hk, if_pos rfl]; omega
        · rw [h, hkeep (2 * sm) (InSubtree.child _ (by
            rw [show 2 * sm / 2 = sm by omega]; exact InSubtree.root)) (by omega)]
          have := hordc (2 * sm) (InSubtree.child _ (by
            rw [show 2 * sm / 2 = sm by omega]; exact InSubtree.root)) (by omega) hlt2
          rw [show 2 * sm / 2 = sm by omega] at this
          exact this
        · rw [h, hkeep (2 * sm + 1) (InSubtree.child _ (by
            rw [show (2 * sm + 1) / 2 = sm by omega]; exact InSubtree.root)) (by omega)]
          have := hordc (2 * sm + 1) (InSubtree.child _ (by
            rw [show (2 * sm + 1) / 2 = sm by omega]; exact InSubtree.root)) (by omega) hlt2
          rw [show (2 * sm + 1) / 2 = sm by omega] at this
          exact this
      refine ⟨v2, ?_, by omega, hperm2.trans hperm, ?_, ?_, ?_, ?_⟩
      · rw [minHeapify]; simp only [e1, e2, es]; rw [if_pos hne]; exact e3
      · intro j hj hn hjm
        rcases hsplit j hj hn with hc | hc
        · by_cases c : j = sm
          · rw [c, hsm2, hv2i]; exact hroot_ge
          · exact hord2 j hc c hjm
        · have hnc : ¬ InSubtree sm j := hdis j hc
          have hjs := hc.le
          have hvj : keyAt v2 j = keyAt vec j := by
            rw [keyAt_congr (hfix2 j hnc), hk, if_neg (by intro h; exact hnc (h ▸ InSubtree.root)),
              if_neg (by omega)]
          by_cases c : j = s
          · rw [c, hs2, hv2i, ← c, hvj]
            exact hch j (by omega) hjm
          · have hpar : InSubtree s (j / 2) := hc.parent_of_ne c
            have hnpar : ¬ InSubtree sm (j / 2) := hdis _ hpar
            have hparle := hpar.le
            rw [hvj, keyAt_congr (hfix2 (j / 2) hnpar), hk,
              if_neg (by intro h; exact hnpar (h ▸ InSubtree.root)), if_neg (by omega)]
            exact hords j hc c hjm
      · intro k hk2
        have hnc : ¬ InSubtree sm k := fun hc => hk2 (hsub k hc)
        rw [hfix2 k hnc, hget, if_neg (by intro h; exact hnc (h ▸ InSubtree.root)),
          if_neg (by intro h; exact hk2 (h ▸ InSubtree.root))]
      · intro k hk2
        rw [hhigh2 k hk2, hget, if_neg (by omega), if_neg (by omega)]
      · rcases hsm with h | h
        · exact Or.inr (Or.inl ⟨by omega, by rw [hv2i, h]⟩)
        · exact Or.inr (Or.inr ⟨by omega, by rw [hv2i, h]⟩)

end MinHeap

namespace MinHeap
variable {T : Type}

theorem decreaseLoop_path : ∀ (fuel : Nat) (vec : List (Node T)) (i : Nat),
    i < fuel → 1 ≤ i → i < vec.length →
    ∃ v2 p, decreaseLoop fuel vec i = .ok v2 () ∧ 1 ≤ p ∧ InSubtree p i ∧
      v2[p]? = vec[i]? ∧ (p = 1 ∨ keyAt vec (p / 2) ≤ keyAt vec i) ∧
      (∀ a, InSubtree p a → InSubtree a i → a ≠ p →
        v2[a]? = vec[a / 2]? ∧ keyAt vec (a / 2) > keyAt vec i) ∧
      (∀ k, ¬ (InSubtree p k ∧ InSubtree k i) → v2[k]? = vec[k]?) := by
  intro fuel
  induction fuel with
  | zero => intro vec i h; omega
  | succ fuel ih =>
    intro vec i hf h1 hi
    have stop : ∀ (hstop : i = 1 ∨ keyAt vec (i / 2) ≤ keyAt vec i)
        (e : decreaseLoop (fuel + 1) vec i = .ok vec ()),
        ∃ v2 p, decreaseLoop (fuel + 1) vec i = .ok v2 () ∧ 1 ≤ p ∧ InSubtree p i ∧
          v2[p]? = vec[i]? ∧ (p = 1 ∨ keyAt vec (p / 2) ≤ keyAt vec i) ∧
          (∀ a, InSubtree p a → InSubtree a i → a ≠ p →
            v2[a]? = vec[a / 2]? ∧ keyAt vec (a / 2) > keyAt vec i) ∧
          (∀ k, ¬ (InSubtree p k ∧ InSubtree k i) → v2[k]? = vec[k]?) := by
      intro hstop e
      refine ⟨vec, i, e, h1, InSubtree.root, rfl, hstop, ?_, fun _ _ => rfl⟩
      intro a ha1 ha2 hne
      have := ha1.le; have := ha2.le
      omega
    by_cases c1 : 1 < i
    · obtain ⟨np, hnp⟩ := slot_of_lt vec (i / 2) (by omega)
      obtain ⟨ni, hni⟩ := slot_of_lt vec i hi
      by_cases hk : np.key > ni.key
      · obtain ⟨v1, es, hlen, hperm, hget⟩ := swap_spec vec i (i / 2) hi (by omega)
        have hkk := swap_keyAt hget
        obtain ⟨v2, p, e3, hp1, hpq, hvp, hpar, hpath, hfix⟩ :=
          ih v1 (i / 2) (by omega) (by omega) (by omega)
        have hpi : InSubtree p i := InSubtree.child i hpq
        have hple := hpq.le
        have hq : keyAt v1 (i / 2) = keyAt vec i := by rw [hkk, if_pos rfl]
        have hlow : ∀ k, k < i / 2 → keyAt v1 k = keyAt vec k := by
          intro k hk2; rw [hkk, if_neg (by omega), if_neg (by omega)]
        refine ⟨v2, p, ?_, hp1, hpi, ?_, ?_, ?_, ?_⟩
        · rw [decreaseLoop]; simp only [parent, c1, hnp, hni, hk, es]; simpa using e3
        · rw [hvp, hget, if_pos rfl]
        · rcases hpar with h | h
          · exact Or.inl h
          · right
            rw [hq, hlow (p / 2) (by omega)] at h
            exact h
        · intro a ha1 ha2 hne
          by_cases ca : a = i
          · subst ca
            have hnot : ¬ (InSubtree p a ∧ InSubtree a (a / 2)) := by
              intro h; have := h.2.le; omega
            rw [hfix a hnot, hget, if_neg (by omega), if_pos rfl]
            refine ⟨rfl, ?_⟩
            rw [keyAt_of_some hnp, keyAt_of_some hni]; exact hk
          · have ha3 : InSubtree a (i / 2) := ha2.parent_of_ne (fun h => ca h.symm)
            have hale := ha3.le
            have hpa := ha1.le
            obtain ⟨g1, g2⟩ := hpath a ha1 ha3 hne
            rw [hq, hlow (a / 2) (by omega)] at g2
            refine ⟨?_, g2⟩
            rw [g1, hget, if_neg (by omega), if_neg (by omega)]
        · intro k hk2
          have hki : k ≠ i := by
            intro h; subst h; exact hk2 ⟨hpi, InSubtree.root⟩
          have hkq : k ≠ i / 2 := by
            intro h; subst h
            exact hk2 ⟨hpq, InSubtree.child i InSubtree.root⟩
          have hnot : ¬ (InSubtree p k ∧ InSubtree k (i / 2)) := by
            intro h; exact hk2 ⟨h.1, InSubtree.child i h.2⟩
          rw [hfix k hnot, hget, if_neg hkq, if_neg hki]
      · apply stop
        · right; rw [keyAt_of_some hnp, keyAt_of_some hni]; omega
        · rw [decreaseLoop]; simp only [parent, c1, hnp, hni, hk]; simp
    · apply stop
      · left; omega
      · rw [decreaseLoop]; simp [c1]

end MinHeap

namespace MinHeap
variable {T : Type}

theorem heapDecreaseKey_path (vec : List (Node T)) (i : Nat) (ni : Node T) (newKey : Int)
    (h1 : 1 ≤ i) (hni : vec[i]? = some ni) (hk : newKey ≤ ni.key)
    (hheap : HeapOrd vec vec.length) :
    ∃ v2 p, heapDecreaseKey vec i newKey = .ok v2 () ∧ v2.length = vec.length ∧
      HeapOrd v2 v2.length ∧ v2.Perm (vec.set i ⟨ni.data, newKey⟩) ∧
      1 ≤ p ∧ InSubtree p i ∧ v2[p]? = some ⟨ni.data, newKey⟩ ∧
      (p = 1 ∨ keyAt vec (p / 2) ≤ newKey) ∧
      (∀ a, InSubtree p a → InSubtree a i → a ≠ p →
        v2[a]? = vec[a / 2]? ∧ keyAt vec (a / 2) > newKey) ∧
      (∀ k, ¬ (InSubtree p k ∧ InSubtree k i) → v2[k]? = vec[k]?) := by
  have hi : i < vec.length := by
    by_contra hc
    rw [List.getElem?_eq_none (by omega)] at hni; simp at hni
  obtain ⟨v2, e, hlen, hperm, _, hord⟩ := heapDecreaseKey_spec vec i newKey ni hni hk
  have hset : ∀ k, k ≠ i → (vec.set i ⟨ni.data, newKey⟩)[k]? = vec[k]? := by
    intro k hk2; rw [List.getElem?_set_ne (Ne.symm hk2)]
  have hseti : (vec.set i ⟨ni.data, newKey⟩)[i]? = some ⟨ni.data, newKey⟩ := by
    rw [List.getElem?_set_self hi]
  have hkset : ∀ k, k ≠ i → keyAt (vec.set i ⟨ni.data, newKey⟩) k = keyAt vec k :=
    fun k hk2 => keyAt_congr (hset k hk2)
  have hki : keyAt (vec.set i ⟨ni.data, newKey⟩) i = newKey := keyAt_of_some hseti
  obtain ⟨w, p, ew, hp1, hpi, hvp, hpar, hpath, hfix⟩ :=
    decreaseLoop_path (i + 1) (vec.set i ⟨ni.data, newKey⟩) i (by omega) h1 (by simpa using hi)
  have hew : heapDecreaseKey vec i newKey = .ok w () := by
    unfold heapDecreaseKey; simp only [hni]; rw [if_neg (by omega)]; exact ew
  rw [hew] at e
  cases e
  have hple := hpi.le
  refine ⟨v2, p, hew, hlen, ?_, hperm, hp1, hpi, by rw [hvp, hseti], ?_, ?_, ?_⟩
  · rw [hlen]; apply hord
    constructor
    · intro j hj2 hjm hne
      rw [hkset j hne]
      by_cases c : j / 2 = i
      · rw [c, hki]
        have := hheap j hj2 hjm
        rw [c, keyAt_of_some hni] at this
        omega
      · rw [hkset (j / 2) c]; exact hheap j hj2 hjm
    · intro j hj2 hjm hji h2i
      have a1 := hheap j hj2 hjm
      have a2 := hheap i h2i hi
      rw [hkset j (by omega), hkset (i / 2) (by omega)]
      rw [hji] at a1
      omega
  · rcases hpar with h | h
    · exact Or.inl h
    · right; rw [hki, hkset (p / 2) (by omega)] at h; exact h
  · intro a ha1 ha2 hne
    have hale := ha2.le
    have hpa := ha1.le
    obtain ⟨g1, g2⟩ := hpath a ha1 ha2 hne
    rw [hki, hkset (a / 2) (by omega)] at g2
    exact ⟨by rw [g1, hset (a / 2) (by omega)], g2⟩
  · intro k hk2
    have hki2 : k ≠ i := by
      intro h; subst h; exact hk2 ⟨hpi, InSubtree.root⟩
    rw [hfix k hk2, hset k hki2]

end MinHeap

namespace MinHeap
variable {T : Type}

theorem decreaseLoopAccesses_bound : ∀ (fuel : Nat) (vec : List (Node T)) (i : Nat),
    1 ≤ i → i < vec.length →
    ∀ k ∈ decreaseLoopAccesses fuel vec i, 1 ≤ k ∧ k < vec.length := by
  intro fuel
  induction fuel with
  | zero => intro vec i _ _ k hk; simp [decreaseLoopAccesses] at hk
  | succ fuel ih =>
    intro vec i h1 hi k hk
    rw [decreaseLoopAccesses] at hk
    by_cases c1 : 1 < i
    · simp only [if_pos c1, parent, List.mem_cons] at hk
      rcases hk with rfl | rfl | hk
      · omega
      · omega
      · obtain ⟨np, hnp⟩ := slot_of_lt vec (i / 2) (by omega)
        obtain ⟨ni, hni⟩ := slot_of_lt vec i hi
        simp only [hnp, hni] at hk
        by_cases c2 : np.key > ni.key
        · simp only [if_pos c2, List.mem_append, swapAccesses, List.mem_cons,
            List.mem_singleton] at hk
          obtain ⟨v1, es, hlen, _⟩ := swap_spec vec i (i / 2) hi (by omega)
          rcases hk with (rfl | rfl | rfl | rfl | hk) | hk
          · omega
          · omega
          · omega
          · omega
          · simp at hk
          · simp only [parent, es] at hk
            have := ih v1 (i / 2) (by omega) (by omega) k hk
            omega
        · simp only [if_neg c2] at hk; simp at hk
    · simp only [if_neg c1] at hk; simp at hk

theorem minHeapifyAccesses_bound : ∀ (fuel : Nat) (vec : List (Node T)) (i : Nat),
    vec.length ≤ 2147483649 → i < 2147483648 → 1 ≤ i → i < vec.length →
    ∀ k ∈ minHeapifyAccesses fuel vec i, 1 ≤ k ∧ k < vec.length := by
  intro fuel
  induction fuel with
  | zero => intro vec i _ _ _ _ k hk; simp [minHeapifyAccesses] at hk
  | succ fuel ih =>
    intro vec i hL hi2 h1 hi k hk
    have hl := left_eq i (by omega)
    have hr := right_eq i (by omega)
    have hs := size_eq vec (by omega) (by omega)
    obtain ⟨s1, sm, e1, e2, hs1, hsm⟩ := smallest_formula_of_lt vec i hL hi2 hi
    have hs1b : 1 ≤ s1 ∧ s1 < vec.length := by
      rw [hs1]; split
      · rename_i h; omega
      · omega
    rw [minHeapifyAccesses] at hk
    simp only [hl, hr, e1, e2, List.mem_append] at hk
    rcases hk with hk | hk | hk
    · split at hk
      · simp at hk; omega
      · simp at hk
    · split at hk
      · simp at hk; omega
      · simp at hk
    · by_cases c : sm ≠ i
      · have hch := smallest_child vec i hL hi2 hi s1 sm e1 e2 c
        obtain ⟨v1, es, hlen, _⟩ := swap_spec vec i sm hi (by omega)
        simp only [if_pos c, es, List.mem_append, swapAccesses, List.mem_cons,
          List.mem_singleton] at hk
        rcases hk with (rfl | rfl | rfl | rfl | hk) | hk
        · omega
        · omega
        · omega
        · omega
        · simp at hk
        · have := ih v1 sm (by omega) (by omega) (by omega) (by omega) k hk
          omega
      · simp only [if_neg c] at hk; simp at hk

theorem insertAccesses_bound (vec : List (Node T)) (val : T) (key : Int)
    (h1 : 1 ≤ vec.length) (hL : vec.length < 4294967296) :
    ∀ k ∈ insertAccesses vec val key, 1 ≤ k ∧ k < vec.length + 1 := by
  intro k hk
  have hs : size (vec ++ [(⟨val, INT_MAX⟩ : Node T)]) = vec.length := by
    unfold size UINT_MOD; simp; omega
  unfold insertAccesses heapDecreaseKeyAccesses at hk
  rw [hs] at hk
  have hget : (vec ++ [(⟨val, INT_MAX⟩ : Node T)])[vec.length]? = some ⟨val, INT_MAX⟩ := by
    simp
  simp only [hget, List.mem_cons] at hk
  rcases hk with rfl | hk
  · omega
  · split at hk
    · simp at hk
    · simp only [List.mem_cons] at hk
      rcases hk with rfl | hk
      · omega
      · have := decreaseLoopAccesses_bound (vec.length + 1) _ vec.length h1 (by simp) k hk
        simpa using this

theorem removeMinAccesses_bound (fuel : Nat) (vec : List (Node T))
    (h1 : 1 ≤ vec.length) (hL : vec.length ≤ 2147483649) :
    ∀ k ∈ removeMinAccesses fuel vec, 1 ≤ k ∧ k < vec.length := by
  intro k hk
  have hs := size_eq vec h1 (by omega)
  unfold removeMinAccesses at hk
  by_cases c : size vec = 0
  · simp [c] at hk
  · simp only [if_neg c, List.mem_cons] at hk
    rcases hk with rfl | rfl | rfl | rfl | hk
    · omega
    · omega
    · omega
    · omega
    · obtain ⟨n1, hn1⟩ := slot_of_lt vec 1 (by omega)
      obtain ⟨last, hlast⟩ := slot_of_lt vec (size vec) (by omega)
      simp only [hn1, hlast] at hk
      have := minHeapifyAccesses_bound fuel (vec.set 1 last) 1 (by simpa using hL)
        (by omega) (le_refl 1) (by simp; omega) k hk
      simpa using this

end MinHeap

namespace MinHeap
variable {T : Type}

theorem setHead_length (b : Node T) (v : List (Node T)) : (setHead b v).length = v.length := by
  cases v <;> simp [setHead]

theorem setHead_slot (b : Node T) (v : List (Node T)) (k : Nat) (hk : 1 ≤ k) :
    (setHead b v)[k]? = v[k]? := by
  cases v with
  | nil => rfl
  | cons a t =>
    cases k with
    | zero => omega
    | succ k => simp [setHead]

theorem setHead_size (b : Node T) (v : List (Node T)) : size (setHead b v) = size v := by
  unfold size; rw [setHead_length]

theorem setHead_set (b : Node T) (v : List (Node T)) (k : Nat) (x : Node T) (hk : 1 ≤ k) :
    (setHead b v).set k x = setHead b (v.set k x) := by
  cases v with
  | nil => rfl
  | cons a t =>
    cases k with
    | zero => omega
    | succ k => simp [setHead]

theorem setHead_swap (b : Node T) (v : List (Node T)) (i j : Nat) (hi : 1 ≤ i) (hj : 1 ≤ j) :
    swap (setHead b v) i j = (swap v i j).map (setHead b) := by
  unfold swap
  rw [setHead_slot b v i hi, setHead_slot b v j hj]
  cases v[i]? with
  | none => rfl
  | some x =>
    cases v[j]? with
    | none => rfl
    | some y =>
      simp only [Option.map_some']
      rw [setHead_set b v i y hi, setHead_set b _ j x hj]

theorem setHead_dropLast (b : Node T) (v : List (Node T)) (h : 2 ≤ v.length) :
    (setHead b v).dropLast = setHead b v.dropLast := by
  match v, h with
  | a :: c :: t, _ => simp [setHead, List.dropLast]

theorem setHead_append (b : Node T) (v l : List (Node T)) (h : 1 ≤ v.length) :
    setHead b v ++ l = setHead b (v ++ l) := by
  match v, h with
  | a :: t, _ => simp [setHead]

theorem setHead_tail (b : Node T) (v : List (Node T)) : (setHead b v).tail = v.tail := by
  cases v <;> simp [setHead]

theorem decreaseLoop_setHead (b : Node T) : ∀ (fuel : Nat) (v : List (Node T)) (i : Nat),
    1 ≤ i → decreaseLoop fuel (setHead b v) i = setHeadOutcome b (decreaseLoop fuel v i) := by
  intro fuel
  induction fuel with
  | zero => intro v i _; rw [decreaseLoop, decreaseLoop]; rfl
  | succ fuel ih =>
    intro v i h1
    rw [decreaseLoop, decreaseLoop]
    by_cases c : 1 < i
    · have hp : 1 ≤ parent i := by unfold parent; omega
      simp only [if_pos c]
      rw [setHead_slot b v (parent i) hp, setHead_slot b v i h1]
      cases v[parent i]? with
      | none => rfl
      | some np =>
        cases v[i]? with
        | none => rfl
        | some ni =>
          simp only []
          by_cases k : np.key > ni.key
          · simp only [if_pos k]
            rw [setHead_swap b v i (parent i) h1 hp]
            cases swap v i (parent i) with
            | none => rfl
            | some v1 => exact ih v1 (parent i) hp
          · simp only [if_neg k]; rfl
    · simp only [if_neg c]; rfl

theorem insert_setHead (b : Node T) (v : List (Node T)) (val : T) (key : Int)
    (h1 : 1 ≤ v.length) (hL : v.length < 4294967296) :
    insert (setHead b v) val key = setHeadOutcome b (insert v val key) := by
  have hs : size (v ++ [(⟨val, INT_MAX⟩ : Node T)]) = v.length := by
    unfold size UINT_MOD; simp; omega
  unfold insert
  rw [setHead_append b v _ h1, setHead_size, hs]
  unfold heapDecreaseKey
  rw [setHead_slot b _ v.length h1]
  cases (v ++ [(⟨val, INT_MAX⟩ : Node T)])[v.length]? with
  | none => rfl
  | some ni =>
    simp only []
    by_cases k : key > ni.key
    · simp only [if_pos k]; rfl
    · simp only [if_neg k]
      rw [setHead_set b _ v.length _ h1]
      exact decreaseLoop_setHead b _ _ _ h1

theorem smallestLeft_shape (v : List (Node T)) (i s1 : Nat)
    (h : smallestLeft v i = some s1) : s1 = i ∨ (s1 = left i ∧ left i < size v) := by
  unfold smallestLeft at h
  by_cases c : left i < size v
  · simp only [if_pos c] at h
    cases h1 : v[left i]? with
    | none => simp [h1] at h
    | some nl =>
      cases h2 : v[i]? with
      | none => simp [h1, h2] at h
      | some ni =>
        simp only [h1, h2] at h
        cases h
        split
        · exact Or.inr ⟨rfl, c⟩
        · exact Or.inl rfl
  · simp only [if_neg c] at h
    cases h
    exact Or.inl rfl

theorem smallestRight_shape (v : List (Node T)) (i s1 sm : Nat)
    (h : smallestRight v i s1 = some sm) : sm = s1 ∨ (sm = right i ∧ right i < size v) := by
  unfold smallestRight at h
  by_cases c : right i < size v
  · simp only [if_pos c] at h
    cases h1 : v[right i]? with
    | none => simp [h1] at h
    | some nl =>
      cases h2 : v[s1]? with
      | none => simp [h1, h2] at h
      | some ni =>
        simp only [h1, h2] at h
        cases h
        split
        · exact Or.inr ⟨rfl, c⟩
        · exact Or.inl rfl
  · simp only [if_neg c] at h
    cases h
    exact Or.inl rfl

theorem minHeapify_setHead (b : Node T) : ∀ (fuel : Nat) (v : List (Node T)) (i : Nat),
    1 ≤ v.length → v.length ≤ 2147483649 → 1 ≤ i → i < 2147483648 →
    minHeapify fuel (setHead b v) i = setHeadOutcome b (minHeapify fuel v i) := by
  intro fuel
  induction fuel with
  | zero => intro v i _ _ _ _; rw [minHeapify, minHeapify]; rfl
  | succ fuel ih =>
    intro v i hv1 hL h1 hi
    have hl := left_eq i hi
    have hr := right_eq i hi
    have hsz : size v ≤ 2147483648 := by
      unfold size UINT_MOD; split <;> omega
    have e1 : smallestLeft (setHead b v) i = smallestLeft v i := by
      unfold smallestLeft
      rw [setHead_size, setHead_slot b v (left i) (by omega), setHead_slot b v i h1]
    rw [minHeapify, minHeapify, e1]
    cases h1s : smallestLeft v i with
    | none => rfl
    | some s1 =>
      have hs1 : 1 ≤ s1 := by
        rcases smallestLeft_shape v i s1 h1s with h | ⟨h, _⟩ <;> omega
      have e2 : smallestRight (setHead b v) i s1 = smallestRight v i s1 := by
        unfold smallestRight
        rw [setHead_size, setHead_slot b v (right i) (by omega), setHead_slot b v s1 hs1]
      simp only [e2]
      cases h2s : smallestRight v i s1 with
      | none => rfl
      | some sm =>
        simp only []
        by_cases c : sm ≠ i
        · have hsm : 1 ≤ sm ∧ sm < 2147483648 := by
            rcases smallestRight_shape v i s1 sm h2s with h | ⟨h, hlt⟩
            · rcases smallestLeft_shape v i s1 h1s with g | ⟨g, glt⟩ <;> omega
            · omega
          simp only [if_pos c]
          rw [setHead_swap b v i sm h1 hsm.1]
          cases h3 : swap v i sm with
          | none => rfl
          | some v1 =>
            exact ih v1 sm (by rw [swap_length v v1 i sm h3]; exact hv1)
              (by rw [swap_length v v1 i sm h3]; exact hL) hsm.1 hsm.2
        · simp only [if_neg c]; rfl

theorem removeMin_setHead (b : Node T) (fuel : Nat) (v : List (Node T))
    (h1 : 1 ≤ v.length) (hL : v.length ≤ 2147483649) :
    removeMin fuel (setHead b v) = setHeadOutcome b (removeMin fuel v) := by
  have hs := size_eq v h1 (by omega)
  unfold removeMin
  rw [setHead_size]
  by_cases c : size v = 0
  · simp only [if_pos c]; rfl
  · simp only [if_neg c]
    rw [setHead_slot b v 1 (le_refl 1), setHead_slot b v (size v) (by omega)]
    cases v[1]? with
    | none => rfl
    | some n1 =>
      cases v[size v]? with
      | none => rfl
      | some last =>
        simp only []
        rw [setHead_set b v 1 last (le_refl 1),
          minHeapify_setHead b fuel (v.set 1 last) 1 (by simpa using h1)
            (by simpa using hL) (le_refl 1)
            (by omega)]
        cases hm : minHeapify fuel (v.set 1 last) 1 with
        | ok v2 u =>
          have hl2 : v2.length = v.length := by
            rw [minHeapify_length fuel _ v2 1 u hm, List.length_set]
          simp only [setHeadOutcome, setHead_length]
          rw [if_neg (by omega), if_neg (by omega), setHead_dropLast b v2 (by omega)]
        | thrown e st => rfl
        | undefinedBehaviour => rfl
        | outOfFuel => rfl

theorem removeMin_length (fuel : Nat) (v v1 : List (Node T)) (x : T)
    (h : removeMin fuel v = .ok v1 x) : v1.length + 1 = v.length ∧ size v ≠ 0 := by
  unfold removeMin at h
  by_cases c : size v = 0
  · simp [c] at h
  · simp only [if_neg c] at h
    cases h1 : v[1]? with
    | none => simp [h1] at h
    | some n1 =>
      cases h2 : v[size v]? with
      | none => simp [h1, h2] at h
      | some last =>
        simp only [h1, h2] at h
        cases hm : minHeapify fuel (v.set 1 last) 1 with
        | ok v2 u =>
          simp only [hm] at h
          have hl2 : v2.length = v.length := by
            rw [minHeapify_length fuel _ v2 1 u hm, List.length_set]
          by_cases l : v2.length = 0
          · simp [l] at h
          · simp only [if_neg l] at h
            cases h
            refine ⟨?_, c⟩
            simp; omega
        | thrown e st => simp [hm] at h
        | undefinedBehaviour => simp [hm] at h
        | outOfFuel => simp [hm] at h

end MinHeap

namespace IntMinHeap

theorem int_insert_ok (v : List Int) (x : Int) (h1 : 1 ≤ v.length)
    (hL : v.length < 4294967296) (hx : x ≤ INT_MAX) :
    ∃ w, insert v x = .ok w () ∧ w.length = v.length + 1 := by
  obtain ⟨v2, e2, hl2, _⟩ := MinHeap.insert_spec (liftVec v) x x
    (by simpa [liftVec_length] using h1) (by rw [liftVec_length]; exact hL) hx
  rw [insert_sim v x hx hL] at e2
  obtain ⟨w, ew, hw⟩ := liftOutcome_eq_ok e2
  refine ⟨w, ew, ?_⟩
  rw [← liftVec_length w, hw, hl2, liftVec_length]

theorem int_removeMin_length (fuel : Nat) (v w : List Int) (x : Int)
    (h : removeMin fuel v = .ok w x) : w.length + 1 = v.length ∧ size v ≠ 0 := by
  have h2 : MinHeap.removeMin fuel (liftVec v) = .ok (liftVec w) x := by
    rw [removeMin_sim, h]; rfl
  have := MinHeap.removeMin_length fuel (liftVec v) (liftVec w) x h2
  rw [liftVec_length, liftVec_length, liftVec_size] at this
  exact this

theorem map_tail_liftVec (f : Node Int → Int) (hf : ∀ x : Int, f ⟨x, x⟩ = x)
    (ph : Node Int) (w : List Int) :
    (MinHeap.setHead ph (liftVec w)).tail.map f = w.tail := by
  rw [MinHeap.setHead_tail]
  cases w with
  | nil => rfl
  | cons a t =>
    simp only [liftVec, List.map_cons, List.tail_cons, List.map_map]
    conv_rhs => rw [← List.map_id t]
    apply List.map_congr_left
    intro x _
    exact hf x

theorem size_setHead_liftVec (ph : Node Int) (w : List Int) :
    MinHeap.size (MinHeap.setHead ph (liftVec w)) = size w := by
  rw [MinHeap.setHead_size, liftVec_size]

theorem trace_agree (fuel : Nat) (ph : Node Int) (f : Node Int → Int)
    (hf : ∀ x : Int, f ⟨x, x⟩ = x) : ∀ (ops : List Op) (v : List Int),
    1 ≤ v.length → v.length + countInserts ops ≤ 2147483649 → valuesInRange ops →
    (MinHeap.trace fuel (ops.map toGeneric) (MinHeap.setHead ph (liftVec v))).map
      (readRecord f) = trace fuel ops v := by
  intro ops
  induction ops with
  | nil => intro v _ _ _; rfl
  | cons op ops ih =>
    intro v h1 hL hr
    cases op with
    | insert x =>
      simp only [countInserts, valuesInRange] at hL hr
      obtain ⟨w, ew, hw⟩ := int_insert_ok v x h1 (by omega) hr.2.1
      have eg : MinHeap.insert (MinHeap.setHead ph (liftVec v)) x x =
          .ok (MinHeap.setHead ph (liftVec w)) () := by
        rw [MinHeap.insert_setHead ph (liftVec v) x x (by rwa [liftVec_length])
          (by rw [liftVec_length]; omega), insert_sim v x hr.2.1 (by omega), ew]
        rfl
      rw [List.map_cons, toGeneric, MinHeap.trace, trace]
      simp only [eg, ew, List.map_cons, readRecord]
      rw [ih w (by omega) (by omega) hr.2.2, size_setHead_liftVec, map_tail_liftVec f hf]
    | removeMin =>
      simp only [countInserts, valuesInRange] at hL hr
      have eg : MinHeap.removeMin fuel (MinHeap.setHead ph (liftVec v)) =
          MinHeap.setHeadOutcome ph (liftOutcome (removeMin fuel v)) := by
        rw [MinHeap.removeMin_setHead ph fuel (liftVec v) (by rwa [liftVec_length])
          (by rw [liftVec_length]; omega), removeMin_sim]
      rw [List.map_cons, toGeneric, MinHeap.trace, trace, eg]
      cases hres : removeMin fuel v with
      | ok w x =>
        obtain ⟨hlen, hne⟩ := int_removeMin_length fuel v w x hres
        have hsz : size v = v.length - 1 := by
          unfold size UINT_MOD; split <;> omega
        simp only [liftOutcome, MinHeap.setHeadOutcome, List.map_cons, readRecord]
        rw [ih w (by omega) (by omega) hr, size_setHead_liftVec, map_tail_liftVec f hf]
      | thrown e st =>
        obtain ⟨_, _, hst⟩ := int_removeMin_thrown fuel v e st hres
        subst hst
        simp only [liftOutcome, MinHeap.setHeadOutcome, List.map_cons, readRecord]
        rw [ih st h1 hL hr, size_setHead_liftVec, map_tail_liftVec f hf]
      | undefinedBehaviour => rfl
      | outOfFuel => rfl

/-- With enough fuel no call of the run ends in undefined behaviour or out of fuel. -/
theorem trace_complete (fuel : Nat) : ∀ (ops : List Op) (v : List Int),
    ReachableCapped v → v.length + countInserts ops ≤ 2147483649 →
    v.length + countInserts ops ≤ fuel + 1 → valuesInRange ops →
    none ∉ trace fuel ops v ∧ (trace fuel ops v).length = ops.length := by
  intro ops
  induction ops with
  | nil => intro v _ _ _ _; simp [trace]
  | cons op ops ih =>
    intro v hreach hL hf hr
    obtain ⟨h1, hL0, hord⟩ := MinHeap.reachable_inv (reachable_lift hreach)
    rw [liftVec_length] at h1 hL0
    cases op with
    | insert x =>
      simp only [countInserts, valuesInRange] at hL hf hr
      obtain ⟨w, ew, hw⟩ := int_insert_ok v x h1 (by omega) hr.2.1
      have hrw : ReachableCapped w := ReachableCapped.afterInsert v w x hreach (by omega) hr.1 hr.2.1 ew
      obtain ⟨g1, g2⟩ := ih w hrw (by omega) (by omega) hr.2.2
      rw [trace]; simp only [ew]
      exact ⟨by simpa using g1, by simp [g2]⟩
    | removeMin =>
      simp only [countInserts, valuesInRange] at hL hf hr
      by_cases c : v.length = 1
      · have e := int_removeMin_empty fuel v (by unfold size; simp [c])
        obtain ⟨g1, g2⟩ := ih v hreach hL hf hr
        rw [trace]; simp only [e]
        exact ⟨by simpa using g1, by simp [g2]⟩
      · obtain ⟨n1, v3, _, e3, hl3, _⟩ := MinHeap.removeMin_spec fuel (liftVec v)
          (by rw [liftVec_length]; omega) (by rw [liftVec_length]; omega)
          (by rw [liftVec_length]; omega) hord
        rw [removeMin_sim] at e3
        obtain ⟨w, ew, hw⟩ := liftOutcome_eq_ok e3
        have hwl : w.length + 1 = v.length := by
          rw [← liftVec_length w, hw, hl3, liftVec_length]
        have hrw : ReachableCapped w := ReachableCapped.afterRemoveMin fuel v w n1.data hreach ew
        obtain ⟨g1, g2⟩ := ih w hrw (by omega) (by omega) hr
        rw [trace]; simp only [ew]
        exact ⟨by simpa using g1, by simp [g2]⟩

end IntMinHeap

namespace MinHeap

variable {T : Type}

theorem smallestLeft_wrap (vec : List (Node T)) (i : Nat) (h1 : 1 ≤ vec.length)
    (hL : vec.length ≤ 4294967296) (hi : i < vec.length) :
    smallestLeft vec i =
      some (if left i < size vec ∧ keyAt vec (left i) < keyAt vec i then left i else i) := by
  have hs := size_eq vec h1 hL
  obtain ⟨ni, hni⟩ := slot_of_lt vec i hi
  unfold smallestLeft
  by_cases c1 : left i < size vec
  · obtain ⟨nl, hnl⟩ := slot_of_lt vec (left i) (by omega)
    simp [c1, hnl, hni, keyAt_of_some hnl, keyAt_of_some hni]
  · simp [c1]

theorem smallestRight_wrap (vec : List (Node T)) (i s1 : Nat) (h1 : 1 ≤ vec.length)
    (hL : vec.length ≤ 4294967296) (hs1 : s1 < vec.length) :
    smallestRight vec i s1 =
      some (if right i < size vec ∧ keyAt vec (right i) < keyAt vec s1 then right i else s1) := by
  have hs := size_eq vec h1 hL
  obtain ⟨ns, hns⟩ := slot_of_lt vec s1 hs1
  unfold smallestRight
  by_cases c1 : right i < size vec
  · obtain ⟨nr, hnr⟩ := slot_of_lt vec (right i) (by omega)
    simp [c1, hnr, hns, keyAt_of_some hnr, keyAt_of_some hns]
  · simp [c1]

theorem minHeapify_step (fuel : Nat) (vec v1 : List (Node T)) (i s1 sm : Nat)
    (e1 : smallestLeft vec i = some s1) (e2 : smallestRight vec i s1 = some sm)
    (hne : sm ≠ i) (es : swap vec i sm = some v1) :
    minHeapify (fuel + 1) vec i = minHeapify fuel v1 sm := by
  rw [minHeapify]
  simp only [e1, e2, es]
  rw [if_pos hne]

theorem minHeapify_halt (fuel : Nat) (vec : List (Node T)) (i s1 : Nat)
    (e1 : smallestLeft vec i = some s1) (e2 : smallestRight vec i s1 = some i) :
    minHeapify (fuel + 1) vec i = .ok vec () := by
  rw [minHeapify]
  simp only [e1, e2]
  simp

theorem insert_append (vec : List (Node T)) (val : T) (key : Int) (h1 : 1 ≤ vec.length)
    (hL : vec.length < 4294967296) (hk : key ≤ INT_MAX)
    (hp : 2 ≤ vec.length → keyAt vec (vec.length / 2) ≤ key) :
    MinHeap.insert vec val key = .ok (vec ++ [⟨val, key⟩]) () := by
  have hs : size (vec ++ [(⟨val, INT_MAX⟩ : Node T)]) = vec.length := by
    unfold size UINT_MOD; simp; omega
  have hget : (vec ++ [(⟨val, INT_MAX⟩ : Node T)])[vec.length]? = some ⟨val, INT_MAX⟩ := by
    simp
  have hset : (vec ++ [(⟨val, INT_MAX⟩ : Node T)]).set vec.length ⟨val, key⟩
      = vec ++ [⟨val, key⟩] := by
    simp
  unfold MinHeap.insert heapDecreaseKey
  rw [hs]
  simp only [hget]
  rw [if_neg (by omega), hset, decreaseLoop]
  by_cases c : 1 < vec.length
  · obtain ⟨np, hnp⟩ := slot_of_lt vec (vec.length / 2) (by omega)
    have hnp2 : (vec ++ [(⟨val, key⟩ : Node T)])[parent vec.length]? = some np := by
      unfold parent
      rw [List.getElem?_append_left (by omega)]; exact hnp
    have hni : (vec ++ [(⟨val, key⟩ : Node T)])[vec.length]? = some ⟨val, key⟩ := by simp
    have := hp (by omega)
    rw [keyAt_of_some hnp] at this
    simp only [if_pos c, hnp2, hni]
    rw [if_neg (by simpa using this)]
  · rw [if_neg c]

theorem insertAll_heapOrdered : ∀ (pairs : List (T × Int)) (vec : List (Node T)),
    1 ≤ vec.length → vec.length + pairs.length ≤ 4294967296 →
    (∀ p ∈ pairs, p.2 ≤ INT_MAX) →
    HeapOrd (vec ++ pairs.map toNode) (vec.length + pairs.length) →
    insertAll vec pairs = .ok (vec ++ pairs.map toNode) () := by
  intro pairs
  induction pairs with
  | nil => intro vec _ _ _ _; simp [insertAll]
  | cons p rest ih =>
    intro vec h1 hL hk hh
    simp only [List.length_cons] at hL
    have e1 : MinHeap.insert vec p.1 p.2 = .ok (vec ++ [toNode p]) () := by
      apply insert_append vec p.1 p.2 h1 (by omega) (hk p (by simp))
      intro h2
      have := hh vec.length (by omega) (by simp)
      have k1 : keyAt (vec ++ (p :: rest).map toNode) (vec.length / 2) =
          keyAt vec (vec.length / 2) := by
        apply keyAt_congr
        rw [List.getElem?_append_left (by omega)]
      have k2 : keyAt (vec ++ (p :: rest).map toNode) vec.length = p.2 := by
        unfold keyAt
        rw [List.getElem?_append_right (le_refl _)]
        simp [toNode]
      rw [k1, k2] at this
      exact this
    have e2 := ih (vec ++ [toNode p]) (by simp) (by simp; omega)
      (fun q hq => hk q (by simp [hq]))
      (by
        have : (vec ++ [toNode p]) ++ rest.map toNode = vec ++ (p :: rest).map toNode := by
          simp
        rw [this]
        have hl : (vec ++ [toNode p]).length + rest.length = vec.length + (p :: rest).length := by
          simp; omega
        rw [hl]; exact hh)
    rw [insertAll]
    simp only [e1]
    rw [e2]
    simp

theorem reachable_of_insertAll : ∀ (pairs : List (T × Int)) (vec v2 : List (Node T)),
    Reachable vec → (∀ p ∈ pairs, INT_MIN ≤ p.2 ∧ p.2 ≤ INT_MAX) →
    insertAll vec pairs = .ok v2 () → Reachable v2 := by
  intro pairs
  induction pairs with
  | nil =>
    intro vec v2 hr _ e
    simp [insertAll] at e
    rw [← e]; exact hr
  | cons p rest ih =>
    intro vec v2 hr hk e
    rw [insertAll] at e
    cases h1 : MinHeap.insert vec p.1 p.2 with
    | ok v1 u =>
      simp only [h1] at e
      exact ih v1 v2 (Reachable.afterInsert vec v1 p.1 p.2 hr (hk p (by simp)).1
        (hk p (by simp)).2 h1) (fun q hq => hk q (by simp [hq])) e
    | thrown e1 st => simp [h1] at e
    | undefinedBehaviour => simp [h1] at e
    | outOfFuel => simp [h1] at e

theorem carried_size {vec : List (Node T)} {a b : Int} {i : Nat} (h : Carried vec a b i) :
    size vec = 2147483649 := by
  rw [size_eq vec (by rw [h.1]; omega) (by rw [h.1]; omega), h.1]

theorem carried_down (vec : List (Node T)) (a b : Int) (i : Nat) (h : Carried vec a b i)
    (hab : a < b) (h1 : 1 ≤ i) (hi : i ≤ 1073741824) :
    ∃ v1 s1, smallestLeft vec i = some s1 ∧ smallestRight vec i s1 = some (2 * i) ∧
      swap vec i (2 * i) = some v1 ∧ Carried v1 a b (2 * i) := by
  have hs := carried_size h
  obtain ⟨hlen, hb, hp, hrest⟩ := h
  have hl := left_eq i (by omega)
  have hr := right_eq i (by omega)
  have k2 : keyAt vec (2 * i) = a := hrest (2 * i) (by omega) (by omega) (by omega)
  have e1 : smallestLeft vec i = some (2 * i) := by
    rw [smallestLeft_wrap vec i (by omega) (by omega) (by omega), hl, hs, k2, hb]
    rw [if_pos ⟨by omega, hab⟩]
  have e2 : smallestRight vec i (2 * i) = some (2 * i) := by
    rw [smallestRight_wrap vec i (2 * i) (by omega) (by omega) (by omega), hr, hs, k2]
    by_cases c : 2 * i + 1 ≤ 2147483648
    · rw [hrest (2 * i + 1) (by omega) c (by omega)]
      rw [if_neg (by omega)]
    · rw [if_neg (by omega)]
  obtain ⟨v1, es, hlen1, _, hget⟩ := swap_spec vec i (2 * i) (by omega) (by omega)
  have hk := swap_keyAt hget
  refine ⟨v1, 2 * i, e1, e2, es, by omega, ?_, ?_, ?_⟩
  · rw [hk, if_pos rfl]; exact hb
  · rw [hk, if_neg (by omega), if_neg (by omega)]; exact hp
  · intro j hj1 hj2 hne
    rw [hk, if_neg hne]
    by_cases c : j = i
    · rw [if_pos c]; exact k2
    · rw [if_neg c]; exact hrest j hj1 hj2 c

theorem carried_wrap (vec : List (Node T)) (a b : Int) (h : Carried vec a b 2147483648)
    (hab : a < b) :
    ∃ v1 s1, smallestLeft vec 2147483648 = some s1 ∧
      smallestRight vec 2147483648 s1 = some 1 ∧ swap vec 2147483648 1 = some v1 ∧
      Carried v1 a b 1 := by
  have hs := carried_size h
  obtain ⟨hlen, hb, hp, hrest⟩ := h
  have hl : left 2147483648 = 0 := by unfold left UINT_MOD; rfl
  have hr : right 2147483648 = 1 := by unfold right UINT_MOD; rfl
  have k1 : keyAt vec 1 = a := hrest 1 (by omega) (by omega) (by omega)
  have e1 : smallestLeft vec 2147483648 =
      some (if keyAt vec 0 < b then 0 else 2147483648) := by
    rw [smallestLeft_wrap vec _ (by omega) (by omega) (by omega), hl, hs, hb]
    by_cases c : keyAt vec 0 < b
    · rw [if_pos ⟨by omega, c⟩, if_pos c]
    · rw [if_neg (by tauto), if_neg c]
  have e2 : smallestRight vec 2147483648 (if keyAt vec 0 < b then 0 else 2147483648) =
      some 1 := by
    rw [smallestRight_wrap vec _ _ (by omega) (by omega) (by split <;> omega), hr, hs, k1]
    by_cases c : keyAt vec 0 < b
    · rw [if_pos c, if_pos ⟨by omega, hp⟩]
    · rw [if_neg c, hb, if_pos ⟨by omega, hab⟩]
  obtain ⟨v1, es, hlen1, _, hget⟩ := swap_spec vec 2147483648 1 (by omega) (by omega)
  have hk := swap_keyAt hget
  refine ⟨v1, _, e1, e2, es, by omega, ?_, ?_, ?_⟩
  · rw [hk, if_pos rfl]; exact hb
  · rw [hk, if_neg (by omega), if_neg (by omega)]; exact hp
  · intro j hj1 hj2 hne
    rw [hk, if_neg hne]
    by_cases c : j = 2147483648
    · rw [if_pos c]; exact k1
    · rw [if_neg c]; exact hrest j hj1 hj2 c

/-- A node carried down the left spine comes back to slot 1 through `right(2^31) = 1`
and is carried down again: `minHeapify` never returns, whatever the fuel. -/
theorem carried_diverges (a b : Int) (hab : a < b) : ∀ (fuel k : Nat) (vec : List (Node T)),
    k ≤ 31 → Carried vec a b (2 ^ k) → minHeapify fuel vec (2 ^ k) = .outOfFuel := by
  intro fuel
  induction fuel with
  | zero => intro k vec _ _; rw [minHeapify]
  | succ fuel ih =>
    intro k vec hk h
    by_cases c : k = 31
    · subst c
      have h31 : (2 : Nat) ^ 31 = 2147483648 := by norm_num
      rw [h31] at h ⊢
      obtain ⟨v1, s1, e1, e2, es, hc⟩ := carried_wrap vec a b h hab
      rw [minHeapify_step fuel vec v1 _ s1 1 e1 e2 (by omega) es]
      exact ih 0 v1 (by omega) hc
    · have hp1 : 1 ≤ 2 ^ k := Nat.one_le_two_pow
      have hp2 : 2 ^ k ≤ 2 ^ 30 := Nat.pow_le_pow_right (by omega) (by omega)
      have h30 : (2 : Nat) ^ 30 = 1073741824 := by norm_num
      obtain ⟨v1, s1, e1, e2, es, hc⟩ := carried_down vec a b (2 ^ k) h hab hp1 (by omega)
      rw [minHeapify_step fuel vec v1 _ s1 _ e1 e2 (by omega) es]
      have hs : 2 * 2 ^ k = 2 ^ (k + 1) := by rw [pow_succ]; omega
      rw [hs] at hc ⊢
      exact ih (k + 1) v1 (by omega) hc

/-- On a vector of `2^31 + 2` slots whose slots 1 to `2^31` hold key `a`, whose last
slot holds a key `b > a`, and whose slot 0 holds a key above `a`, `removeMin` runs out
of every amount of fuel. -/
theorem removeMin_diverges (vec : List (Node T)) (a b : Int) (hab : a < b)
    (hlen : vec.length = 2147483650) (hp : a < keyAt vec 0)
    (hlow : ∀ j, 1 ≤ j → j ≤ 2147483648 → keyAt vec j = a)
    (hlast : keyAt vec 2147483649 = b) (fuel : Nat) :
    removeMin fuel vec = .outOfFuel := by
  have hs := size_eq vec (by omega) (by omega)
  obtain ⟨n1, hn1⟩ := slot_of_lt vec 1 (by omega)
  obtain ⟨last, hl⟩ := slot_of_lt vec 2147483649 (by omega)
  have hkset : ∀ j, keyAt (vec.set 1 last) j = if j = 1 then b else keyAt vec j := by
    intro j
    by_cases c : j = 1
    · subst c
      rw [if_pos rfl, ← hlast, keyAt_of_some hl]
      apply keyAt_of_some
      rw [List.getElem?_set_self (by omega)]
    · rw [if_neg c]
      apply keyAt_congr
      rw [List.getElem?_set_ne (Ne.symm c)]
  have hc : Carried (vec.set 1 last) a b (2 ^ 0) := by
    refine ⟨by simp [hlen], ?_, ?_, ?_⟩
    · rw [hkset]; simp
    · rw [hkset, if_neg (by omega)]; exact hp
    · intro j hj1 hj2 hne
      rw [hkset, if_neg (by simpa using hne)]
      exact hlow j hj1 hj2
  have hd := carried_diverges a b hab fuel 0 (vec.set 1 last) (by omega) hc
  unfold removeMin
  rw [hs, hlen, if_neg (by omega)]
  simp only [hn1]
  have hl2 : vec[2147483650 - 1]? = some last := hl
  simp only [hl2]
  have h0 : (2 : Nat) ^ 0 = 1 := rfl
  rw [h0] at hd
  rw [hd]

theorem keyAt_flat (p x y : Node T) (n j : Nat) :
    keyAt (p :: (List.replicate n x ++ [y])) j =
      if j = 0 then p.key else if j ≤ n then x.key else if j = n + 1 then y.key else 0 := by
  unfold keyAt
  cases j with
  | zero => simp
  | succ j =>
    simp only [List.getElem?_cons_succ]
    by_cases c : j < n
    · rw [List.getElem?_append_left (by simpa using c)]
      simp [List.getElem?_replicate, c]
      omega
    · rw [List.getElem?_append_right (by simpa using c)]
      simp only [List.length_replicate]
      by_cases c2 : j = n
      · subst c2; simp
      · have : j - n = (j - n - 1) + 1 := by omega
        rw [this]
        simp
        rw [if_neg (by omega), if_neg (by omega)]

theorem flat_heapOrd (p x y : Node T) (n : Nat) (hxy : x.key ≤ y.key) :
    HeapOrd (p :: (List.replicate n x ++ [y])) (n + 2) := by
  intro j hj2 hjm
  rw [keyAt_flat, keyAt_flat]
  rw [if_neg (by omega), if_pos (by omega), if_neg (by omega)]
  split
  · exact le_refl _
  · rw [if_pos (by omega)]; exact hxy

theorem flat_insertAll (p : Node T) (d e : T) (a b : Int) (n : Nat)
    (hn : n + 2 ≤ 4294967296) (hab : a ≤ b) (hb : b ≤ INT_MAX) :
    insertAll (MinHeap.new p) (List.replicate n (d, a) ++ [(e, b)]) =
      .ok (p :: (List.replicate n ⟨d, a⟩ ++ [⟨e, b⟩])) () := by
  have h := insertAll_heapOrdered (List.replicate n (d, a) ++ [(e, b)]) (MinHeap.new p)
    (by simp [MinHeap.new]) (by simp [MinHeap.new]; omega)
    (by
      intro q hq
      simp at hq
      rcases hq with ⟨_, rfl⟩ | rfl
      · exact le_trans hab hb
      · exact hb)
    (by
      have := flat_heapOrd p (⟨d, a⟩ : Node T) ⟨e, b⟩ n hab
      simpa [MinHeap.new, toNode, Nat.add_comm, Nat.add_left_comm] using this)
  simpa [MinHeap.new, toNode] using h

theorem flat_removeMin_diverges (p x y : Node T) (hxy : x.key < y.key) (hp : x.key < p.key)
    (n : Nat) (hn : n = 2147483648) (fuel : Nat) :
    removeMin fuel (p :: (List.replicate n x ++ [y])) = .outOfFuel := by
  apply removeMin_diverges _ x.key y.key hxy
  · simp; omega
  · rw [keyAt_flat]; simpa using hp
  · intro j hj1 hj2
    rw [keyAt_flat, if_neg (by omega), if_pos (by omega)]
  · rw [keyAt_flat, if_neg (by omega), if_neg (by omega), if_pos (by omega)]

theorem flatPairs_length : flatPairs.length = 2147483648 + 1 := by
  unfold flatPairs
  rw [List.length_append, List.length_replicate]
  rfl

theorem flatPairs_int : ∀ p ∈ flatPairs, INT_MIN ≤ p.2 ∧ p.2 ≤ INT_MAX := by
  intro p hp
  unfold flatPairs at hp
  rw [List.mem_append, List.mem_replicate, List.mem_singleton] at hp
  rcases hp with ⟨_, rfl⟩ | rfl <;> decide

theorem flatPairs_insertAll :
    insertAll (MinHeap.new highPlaceholder) flatPairs = .ok flatHeap () :=
  flat_insertAll highPlaceholder "a" "b" 0 5 2147483648 (by omega) (by omega) (by decide)

theorem flatHeap_reachable : Reachable flatHeap :=
  reachable_of_insertAll flatPairs (MinHeap.new highPlaceholder) flatHeap
    (Reachable.init _) flatPairs_int flatPairs_insertAll

theorem flatHeap_removeMin (fuel : Nat) : removeMin fuel flatHeap = .outOfFuel :=
  flat_removeMin_diverges highPlaceholder ⟨"a", 0⟩ ⟨"b", 5⟩ (by decide) (by decide)
    2147483648 rfl fuel

theorem insertThenRemoveAll_diverges {T : Type} (fuel : Nat) (p : Node T)
    (pairs : List (T × Int)) (heap : List (Node T)) (n : Nat)
    (e : insertAll (MinHeap.new p) pairs = .ok heap ()) (hl : pairs.length = n + 1)
    (hd : removeMin fuel heap = .outOfFuel) :
    insertThenRemoveAll fuel p pairs = .outOfFuel := by
  unfold insertThenRemoveAll
  rw [e]
  simp only []
  rw [hl, removeAll, hd]

theorem spine_pow {j : Nat} (h : j ∣ 2147483648) : ∃ k, k ≤ 31 ∧ j = 2 ^ k := by
  have e : (2147483648 : Nat) = 2 ^ 31 := by norm_num
  rw [e] at h
  exact (Nat.dvd_prime_pow Nat.prime_two).1 h

theorem spine_odd {j : Nat} (h : j ∣ 2147483648) (ho : j % 2 = 1) : j = 1 := by
  obtain ⟨k, _, rfl⟩ := spine_pow h
  cases k with
  | zero => rfl
  | succ k => rw [pow_succ] at ho; omega

theorem spine_half {j : Nat} (h : j ∣ 2147483648) (h2 : 2 ≤ j) :
    j % 2 = 0 ∧ j / 2 ∣ 2147483648 := by
  obtain ⟨k, hk, rfl⟩ := spine_pow h
  cases k with
  | zero => simp at h2
  | succ k =>
    have e : (2147483648 : Nat) = 2 ^ 31 := by norm_num
    have e2 : 2 ^ (k + 1) / 2 = 2 ^ k := by rw [pow_succ]; omega
    refine ⟨by rw [pow_succ]; omega, ?_⟩
    rw [e2, e]
    exact Nat.pow_dvd_pow 2 (by omega)

theorem spine_double {i : Nat} (h : i ∣ 2147483648) (hlt : i < 2147483648) :
    2 * i ∣ 2147483648 := by
  obtain ⟨k, hk, rfl⟩ := spine_pow h
  have e : (2147483648 : Nat) = 2 ^ 31 := by norm_num
  have hk2 : k ≠ 31 := by
    intro hc; subst hc; omega
  have e2 : 2 * 2 ^ k = 2 ^ (k + 1) := by rw [pow_succ]; omega
  rw [e2, e]
  exact Nat.pow_dvd_pow 2 (by omega)

theorem spine_le {i : Nat} (h : i ∣ 2147483648) : 1 ≤ i ∧ i ≤ 2147483648 :=
  ⟨Nat.pos_of_dvd_of_pos h (by omega), Nat.le_of_dvd (by omega) h⟩

theorem spine_not_three : ¬ 3 ∣ 2147483648 := by
  intro h; have := spine_odd h (by omega); omega

theorem spine_not_six : ¬ 6 ∣ 2147483648 := by
  intro h
  have := (spine_half h (by omega)).2
  exact spine_not_three this

theorem descending_size {v : List (Node T)} {p : Node T} {i : Nat} (h : Descending v p i) :
    size v = 2147483649 := by
  rw [size_eq v (by rw [h.1]; omega) (by rw [h.1]; omega), h.1]

theorem descending_step (v : List (Node T)) (p : Node T) (i : Nat) (h : Descending v p i)
    (hd : i ∣ 2147483648) (h2 : 2 ≤ i) (hlt : i < 2147483648) :
    ∃ v1, Descending v1 p (2 * i) ∧
      ∀ fuel, minHeapify (fuel + 1) v i = minHeapify fuel v1 (2 * i) := by
  have hs := descending_size h
  obtain ⟨hlen, h0, hc, k1, k3, k6, ks, ko⟩ := h
  have hdd := spine_double hd hlt
  have hle := (spine_le hdd).2
  have hev := (spine_half hd h2).1
  have hl := left_eq i (by omega)
  have hr := right_eq i (by omega)
  have k2i : keyAt v (2 * i) = 3 := ks (2 * i) hdd (by omega) (by omega)
  have e1 : smallestLeft v i = some (2 * i) := by
    rw [smallestLeft_wrap v i (by omega) (by omega) (by omega), hl, hs, k2i, hc]
    rw [if_pos ⟨by omega, by decide⟩]
  have e2 : smallestRight v i (2 * i) = some (2 * i) := by
    rw [smallestRight_wrap v i (2 * i) (by omega) (by omega) (by omega), hr, hs, k2i]
    by_cases c : 2 * i + 1 ≤ 2147483648
    · rw [ko (2 * i + 1) (by omega) (by omega) c]
      rw [if_neg (by intro hh; exact absurd hh.2 (by decide))]
    · rw [if_neg (by omega)]
  obtain ⟨v1, es, hlen1, _, hget⟩ := swap_spec v i (2 * i) (by omega) (by omega)
  have hk := swap_keyAt hget
  have hi3 : i ≠ 3 := by
    intro hc3; subst hc3; exact spine_not_three hd
  have hi6 : i ≠ 6 := by
    intro hc6; subst hc6; exact spine_not_six hd
  refine ⟨v1, ⟨by omega, ?_, ?_, ?_, ?_, ?_, ?_, ?_⟩, fun fuel =>
    minHeapify_step fuel v v1 i (2 * i) (2 * i) e1 e2 (by omega) es⟩
  · rw [hget, if_neg (by omega), if_neg (by omega)]; exact h0
  · rw [hk, if_pos rfl]; exact hc
  · rw [hk, if_neg (by omega), if_neg (by omega)]; exact k1
  · rw [hk, if_neg (by omega), if_neg (Ne.symm hi3)]; exact k3
  · rw [hk, if_neg (by omega), if_neg (Ne.symm hi6)]; exact k6
  · intro m hm hm2 hne
    rw [hk, if_neg hne]
    by_cases c : m = i
    · rw [if_pos c]; exact k2i
    · rw [if_neg c]; exact ks m hm hm2 c
  · intro j hj1 hj5 hjn
    rw [hk, if_neg (by omega), if_neg (by omega)]
    exact ko j hj1 hj5 hjn

theorem descending_run (p : Node T) : ∀ (d i : Nat) (v : List (Node T)),
    i * 2 ^ d = 2147483648 → 2 ≤ i → Descending v p i →
    ∃ v1, Descending v1 p 2147483648 ∧
      ∀ fuel, minHeapify (fuel + d) v i = minHeapify fuel v1 2147483648 := by
  intro d
  induction d with
  | zero =>
    intro i v hi _ h
    have : i = 2147483648 := by simpa using hi
    subst this
    exact ⟨v, h, fun fuel => rfl⟩
  | succ d ih =>
    intro i v hi h2 h
    have hp : 1 ≤ 2 ^ d := Nat.one_le_two_pow
    have e : (2 * i) * 2 ^ d = 2147483648 := by
      rw [pow_succ] at hi; rw [← hi]; ring
    have hd : i ∣ 2147483648 := Dvd.intro _ hi
    have hlt : i < 2147483648 := by
      have : 2 * i ≤ 2 * i * 2 ^ d := Nat.le_mul_of_pos_right _ (by omega)
      omega
    obtain ⟨v1, h1, e1⟩ := descending_step v p i h hd h2 hlt
    obtain ⟨v2, h3, e3⟩ := ih (2 * i) v1 e (by omega) h1
    refine ⟨v2, h3, fun fuel => ?_⟩
    rw [show fuel + (d + 1) = (fuel + d) + 1 by omega, e1, e3]

theorem left_wrap : left 2147483648 = 0 := by unfold left UINT_MOD; rfl

theorem right_wrap : right 2147483648 = 1 := by unfold right UINT_MOD; rfl

/-- What `minHeapify` does once the carried node, now in slot 1 with slot 2 holding key
3 and slot 3 holding key 2, is two calls from a halt: it goes to slot 3 and stays. -/
theorem settle_at_three (v : List (Node T)) (hlen : v.length = 2147483650)
    (k1 : keyAt v 1 = 50) (k2 : keyAt v 2 = 3) (k3 : keyAt v 3 = 2) (k6 : keyAt v 6 = 100)
    (k7 : keyAt v 7 = 100) :
    ∃ v2, (∀ fuel, minHeapify (fuel + 2) v 1 = .ok v2 ()) ∧ v2.length = 2147483650 ∧
      keyAt v2 1 = 2 ∧ ∀ k, k ≠ 1 → k ≠ 3 → v2[k]? = v[k]? := by
  have hs : size v = 2147483649 := by
    rw [size_eq v (by omega) (by omega), hlen]
  have e1 : smallestLeft v 1 = some 2 := by
    rw [smallestLeft_wrap v 1 (by omega) (by omega) (by omega), left_eq 1 (by omega), hs, k2, k1]
    rw [if_pos ⟨by omega, by decide⟩]
  have e2 : smallestRight v 1 2 = some 3 := by
    rw [smallestRight_wrap v 1 2 (by omega) (by omega) (by omega), right_eq 1 (by omega), hs,
      k3, k2]
    rw [if_pos ⟨by omega, by decide⟩]
  obtain ⟨vb, es, hlenb, _, hget⟩ := swap_spec v 1 3 (by omega) (by omega)
  have hk := swap_keyAt hget
  have hsb : size vb = 2147483649 := by rw [size_congr hlenb, hs]
  have kb3 : keyAt vb 3 = 50 := by rw [hk, if_pos rfl]; exact k1
  have kb6 : keyAt vb 6 = 100 := by rw [hk, if_neg (by omega), if_neg (by omega)]; exact k6
  have kb7 : keyAt vb 7 = 100 := by rw [hk, if_neg (by omega), if_neg (by omega)]; exact k7
  have e1b : smallestLeft vb 3 = some 3 := by
    rw [smallestLeft_wrap vb 3 (by omega) (by omega) (by omega), left_eq 3 (by omega), hsb,
      kb6, kb3]
    rw [if_neg (by intro hh; exact absurd hh.2 (by decide))]
  have e2b : smallestRight vb 3 3 = some 3 := by
    rw [smallestRight_wrap vb 3 3 (by omega) (by omega) (by omega), right_eq 3 (by omega), hsb,
      kb7, kb3]
    rw [if_neg (by intro hh; exact absurd hh.2 (by decide))]
  refine ⟨vb, fun fuel => ?_, by omega, ?_, ?_⟩
  · rw [show fuel + 2 = (fuel + 1) + 1 by omega,
      minHeapify_step (fuel + 1) v vb 1 2 3 e1 e2 (by omega) es,
      minHeapify_halt fuel vb 3 3 e1b e2b]
  · rw [hk, if_neg (by omega), if_pos rfl]; exact k3
  · intro k hk1 hk3
    rw [hget, if_neg hk3, if_neg hk1]

/-- End of the carry when the key in slot 0 is above 1: from slot `2^31` the node goes to
slot `right(2^31) = 1`, then to slot 3, and `minHeapify` returns. -/
theorem descending_end_high (v : List (Node T)) (p : Node T)
    (h : Descending v p 2147483648) (hp : 1 < p.key) :
    ∃ v2, (∀ fuel, minHeapify (fuel + 3) v 2147483648 = .ok v2 ()) ∧
      v2.length = 2147483650 ∧ v2[0]? = some p ∧ keyAt v2 1 = 2 ∧
      keyAt v2 2147483648 = 1 ∧ keyAt v2 1073741824 = 3 := by
  have hs := descending_size h
  obtain ⟨hlen, h0, hc, k1, k3, k6, ks, ko⟩ := h
  have k0 : keyAt v 0 = p.key := keyAt_of_some h0
  have e1 : smallestLeft v 2147483648 = some (if p.key < 50 then 0 else 2147483648) := by
    rw [smallestLeft_wrap v _ (by omega) (by omega) (by omega), left_wrap, hs, hc, k0]
    by_cases c : p.key < 50
    · rw [if_pos ⟨by omega, c⟩, if_pos c]
    · rw [if_neg (by tauto), if_neg c]
  have e2 : smallestRight v 2147483648 (if p.key < 50 then 0 else 2147483648) = some 1 := by
    rw [smallestRight_wrap v _ _ (by omega) (by omega) (by split <;> omega), right_wrap, hs, k1]
    by_cases c : p.key < 50
    · rw [if_pos c, k0, if_pos ⟨by omega, hp⟩]
    · rw [if_neg c, hc, if_pos ⟨by omega, by decide⟩]
  obtain ⟨va, es, hlena, _, hget⟩ := swap_spec v 2147483648 1 (by omega) (by omega)
  have hk := swap_keyAt hget
  have d2 : 2 ∣ 2147483648 := Dvd.intro 1073741824 rfl
  have dh : 1073741824 ∣ 2147483648 := Dvd.intro 2 rfl
  obtain ⟨v2, e3, hlen2, k21, hfix⟩ := settle_at_three va (by omega)
    (by rw [hk, if_pos rfl]; exact hc)
    (by rw [hk, if_neg (by omega), if_neg (by omega)]; exact ks 2 d2 (by omega) (by omega))
    (by rw [hk, if_neg (by omega), if_neg (by omega)]; exact k3)
    (by rw [hk, if_neg (by omega), if_neg (by omega)]; exact k6)
    (by rw [hk, if_neg (by omega), if_neg (by omega)]
        exact ko 7 (by omega) (by omega) (by omega))
  refine ⟨v2, fun fuel => ?_, hlen2, ?_, k21, ?_, ?_⟩
  · rw [show fuel + 3 = (fuel + 2) + 1 by omega,
      minHeapify_step (fuel + 2) v va _ _ 1 e1 e2 (by omega) es, e3]
  · rw [hfix 0 (by omega) (by omega), hget, if_neg (by omega), if_neg (by omega)]; exact h0
  · rw [keyAt_congr (hfix 2147483648 (by omega) (by omega)), hk, if_neg (by omega),
      if_pos rfl]
    exact k1
  · rw [keyAt_congr (hfix 1073741824 (by omega) (by omega)), hk, if_neg (by omega),
      if_neg (by omega)]
    exact ks 1073741824 dh (by omega) (by omega)

/-- End of the carry when the key in slot 0 is at most 1: from slot `2^31` the node goes
to slot `left(2^31) = 0`, the placeholder takes its place in slot `2^31`; `minHeapify(0)`
then moves the node of slot 1 into slot 0 and the carried node on to slots 1 and 3. -/
theorem descending_end_low (v : List (Node T)) (p : Node T)
    (h : Descending v p 2147483648) (hp : p.key ≤ 1) :
    ∃ v2, (∀ fuel, minHeapify (fuel + 4) v 2147483648 = .ok v2 ()) ∧
      v2.length = 2147483650 ∧ v2[2147483648]? = some p ∧ keyAt v2 0 = 1 ∧
      keyAt v2 1 = 2 := by
  have hs := descending_size h
  obtain ⟨hlen, h0, hc, k1, k3, k6, ks, ko⟩ := h
  have k0 : keyAt v 0 = p.key := keyAt_of_some h0
  have e1 : smallestLeft v 2147483648 = some 0 := by
    rw [smallestLeft_wrap v _ (by omega) (by omega) (by omega), left_wrap, hs, hc, k0]
    rw [if_pos ⟨by omega, by omega⟩]
  have e2 : smallestRight v 2147483648 0 = some 0 := by
    rw [smallestRight_wrap v _ _ (by omega) (by omega) (by omega), right_wrap, hs, k1, k0]
    rw [if_neg (by omega)]
  obtain ⟨va, es, hlena, _, hget⟩ := swap_spec v 2147483648 0 (by omega) (by omega)
  have hk := swap_keyAt hget
  have hsa : size va = 2147483649 := by rw [size_congr hlena, hs]
  have ka0 : keyAt va 0 = 50 := by rw [hk, if_pos rfl]; exact hc
  have ka1 : keyAt va 1 = 1 := by rw [hk, if_neg (by omega), if_neg (by omega)]; exact k1
  have l0 : left 0 = 0 := by unfold left UINT_MOD; rfl
  have r0 : right 0 = 1 := by unfold right UINT_MOD; rfl
  have e1a : smallestLeft va 0 = some 0 := by
    rw [smallestLeft_wrap va 0 (by omega) (by omega) (by omega), l0]
    simp
  have e2a : smallestRight va 0 0 = some 1 := by
    rw [smallestRight_wrap va 0 0 (by omega) (by omega) (by omega), r0, hsa, ka1, ka0]
    rw [if_pos ⟨by omega, by decide⟩]
  obtain ⟨vb, esb, hlenb, _, hgetb⟩ := swap_spec va 0 1 (by omega) (by omega)
  have hkb := swap_keyAt hgetb
  have d2 : 2 ∣ 2147483648 := Dvd.intro 1073741824 rfl
  have unch : ∀ k, k ≠ 0 → k ≠ 1 → k ≠ 2147483648 → keyAt vb k = keyAt v k := by
    intro k c0 c1 cn
    rw [hkb, if_neg c1, if_neg c0, hk, if_neg c0, if_neg cn]
  obtain ⟨v2, e3, hlen2, k21, hfix⟩ := settle_at_three vb (by omega)
    (by rw [hkb, if_pos rfl]; exact ka0)
    (by rw [unch 2 (by omega) (by omega) (by omega)]; exact ks 2 d2 (by omega) (by omega))
    (by rw [unch 3 (by omega) (by omega) (by omega)]; exact k3)
    (by rw [unch 6 (by omega) (by omega) (by omega)]; exact k6)
    (by rw [unch 7 (by omega) (by omega) (by omega)]
        exact ko 7 (by omega) (by omega) (by omega))
  refine ⟨v2, fun fuel => ?_, hlen2, ?_, ?_, k21⟩
  · rw [show fuel + 4 = (fuel + 3) + 1 by omega,
      minHeapify_step (fuel + 3) v va _ _ 0 e1 e2 (by omega) es,
      show fuel + 3 = (fuel + 2) + 1 by omega,
      minHeapify_step (fuel + 2) va vb 0 0 1 e1a e2a (by omega) esb, e3]
  · rw [hfix 2147483648 (by omega) (by omega), hgetb, if_neg (by omega), if_neg (by omega),
      hget, if_neg (by omega), if_pos rfl]
    exact h0
  · rw [keyAt_congr (hfix 0 (by omega) (by omega)), hkb, if_neg (by omega), if_pos rfl]
    exact ka1

theorem spineKey_spine {m : Nat} (hm : m ∣ 2147483648) (h4 : 4 ≤ m) : spineKey m = 3 := by
  unfold spineKey
  rw [if_neg (by omega), if_neg (by omega), if_neg (by omega), if_pos hm]

theorem spineKey_odd {j : Nat} (ho : j % 2 = 1) (h5 : 5 ≤ j) (hn : j ≤ 2147483648) :
    spineKey j = 100 := by
  unfold spineKey
  rw [if_neg (by omega), if_neg (by omega), if_neg (by omega),
    if_neg (by intro h; have := spine_odd h ho; omega), if_neg (by omega)]

theorem spineKey_six : spineKey 6 = 100 := by
  unfold spineKey
  rw [if_neg (by omega), if_neg (by omega), if_neg (by omega), if_neg spine_not_six,
    if_neg (by omega)]

theorem spineKey_range (j : Nat) : 0 ≤ spineKey j ∧ spineKey j ≤ 100 := by
  unfold spineKey
  split_ifs <;> omega

theorem spineKey_parent (j : Nat) (h2 : 2 ≤ j) (hn : j ≤ 2147483649) :
    spineKey (j / 2) ≤ spineKey j := by
  by_cases c4 : j < 4
  · have : j = 2 ∨ j = 3 := by omega
    rcases this with rfl | rfl <;> decide
  · by_cases cd : j ∣ 2147483648
    · rw [spineKey_spine cd (by omega)]
      have hh := (spine_half cd (by omega)).2
      by_cases c8 : j < 8
      · have h4 : j / 2 = 2 ∨ j / 2 = 3 := by omega
        rcases h4 with h | h <;> rw [h] <;> decide
      · rw [spineKey_spine hh (by omega)]
    · by_cases cl : j = 2147483649
      · subst cl
        decide
      · have : spineKey j = 100 := by
          unfold spineKey
          rw [if_neg (by omega), if_neg (by omega), if_neg (by omega), if_neg cd, if_neg cl]
        rw [this]
        exact (spineKey_range _).2

/-- The carry starts: with key 50 in slot 1 and `spineKey` elsewhere, the first call of
`minHeapify(1)` swaps slots 1 and 2. -/
theorem spine_carry_start (v : List (Node T)) (p : Node T) (hlen : v.length = 2147483650)
    (h0 : v[0]? = some p) (k1 : keyAt v 1 = 50)
    (hkeys : ∀ j, 2 ≤ j → j ≤ 2147483648 → keyAt v j = spineKey j) :
    ∃ v1, Descending v1 p 2 ∧ ∀ fuel, minHeapify (fuel + 1) v 1 = minHeapify fuel v1 2 := by
  have hs : size v = 2147483649 := by
    rw [size_eq v (by omega) (by omega), hlen]
  have k2 : keyAt v 2 = 1 := by rw [hkeys 2 (by omega) (by omega)]; decide
  have k3 : keyAt v 3 = 2 := by rw [hkeys 3 (by omega) (by omega)]; decide
  have e1 : smallestLeft v 1 = some 2 := by
    rw [smallestLeft_wrap v 1 (by omega) (by omega) (by omega), left_eq 1 (by omega), hs, k2, k1]
    rw [if_pos ⟨by omega, by decide⟩]
  have e2 : smallestRight v 1 2 = some 2 := by
    rw [smallestRight_wrap v 1 2 (by omega) (by omega) (by omega), right_eq 1 (by omega), hs,
      k3, k2]
    rw [if_neg (by intro hh; exact absurd hh.2 (by decide))]
  obtain ⟨v1, es, hlen1, _, hget⟩ := swap_spec v 1 2 (by omega) (by omega)
  have hk := swap_keyAt hget
  refine ⟨v1, ⟨by omega, ?_, ?_, ?_, ?_, ?_, ?_, ?_⟩, fun fuel =>
    minHeapify_step fuel v v1 1 2 2 e1 e2 (by omega) es⟩
  · rw [hget, if_neg (by omega), if_neg (by omega)]; exact h0
  · rw [hk, if_pos rfl]; exact k1
  · rw [hk, if_neg (by omega), if_pos rfl]; exact k2
  · rw [hk, if_neg (by omega), if_neg (by omega)]; exact k3
  · rw [hk, if_neg (by omega), if_neg (by omega), hkeys 6 (by omega) (by omega)]
    exact spineKey_six
  · intro m hm hm2 hne
    have hm4 : 4 ≤ m := by
      have := spine_odd hm
      by_contra hc
      have : m = 3 := by omega
      subst this
      exact spine_not_three hm
    rw [hk, if_neg hne, if_neg (by omega), hkeys m (by omega) (spine_le hm).2]
    exact spineKey_spine hm hm4
  · intro j ho h5 hn
    rw [hk, if_neg (by omega), if_neg (by omega), hkeys j (by omega) hn]
    exact spineKey_odd ho h5 hn

theorem keyAt_set_one (vec : List (Node T)) (last : Node T) (h : 1 < vec.length) (j : Nat) :
    keyAt (vec.set 1 last) j = if j = 1 then last.key else keyAt vec j := by
  by_cases c : j = 1
  · subst c
    rw [if_pos rfl]
    apply keyAt_of_some
    rw [List.getElem?_set_self h]
  · rw [if_neg c]
    apply keyAt_congr
    rw [List.getElem?_set_ne (Ne.symm c)]

theorem removeMin_of_minHeapify (fuel : Nat) (vec v2 : List (Node T)) (n1 last : Node T)
    (hs : size vec ≠ 0) (hn1 : vec[1]? = some n1) (hl : vec[size vec]? = some last)
    (e : minHeapify fuel (vec.set 1 last) 1 = .ok v2 ()) (h2 : v2.length ≠ 0) :
    removeMin fuel vec = .ok v2.dropLast n1.data := by
  unfold removeMin
  rw [if_neg hs]
  simp only [hn1, hl, e]
  rw [if_neg h2]

/-- Start of `removeMin` on the heap of `spineKey`: the carry reaches slot `2^31` after
31 calls of `minHeapify`. -/
theorem spine_carry (vec : List (Node T)) (p last : Node T) (hlen : vec.length = 2147483650)
    (h0 : vec[0]? = some p) (hlast : vec[2147483649]? = some last)
    (hkeys : ∀ j, 1 ≤ j → j ≤ 2147483649 → keyAt vec j = spineKey j) :
    ∃ v1, Descending v1 p 2147483648 ∧
      ∀ fuel, minHeapify (fuel + 31) (vec.set 1 last) 1 = minHeapify fuel v1 2147483648 := by
  have kl : last.key = 50 := by
    rw [← keyAt_of_some hlast, hkeys _ (by omega) (by omega)]; decide
  have hks := keyAt_set_one vec last (by omega)
  obtain ⟨v1, hd1, e1⟩ := spine_carry_start (vec.set 1 last) p (by simp [hlen])
    (by rw [List.getElem?_set_ne (by omega)]; exact h0)
    (by rw [hks, if_pos rfl]; exact kl)
    (by intro j hj2 hjn; rw [hks, if_neg (by omega)]; exact hkeys j (by omega) (by omega))
  obtain ⟨v2, hd2, e2⟩ := descending_run p 30 2 v1 (by norm_num) (by omega) hd1
  refine ⟨v2, hd2, fun fuel => ?_⟩
  rw [show fuel + 31 = (fuel + 30) + 1 by omega, e1, e2]

/-- On the heap of `spineKey` with a key above 1 in slot 0, `removeMin` returns after 34
calls of `minHeapify` and leaves key 1 in slot `2^31`, below key 3 in slot `2^30`, and
key 2 in slot 1. -/
theorem spine_removeMin_high (vec : List (Node T)) (p : Node T) (hlen : vec.length = 2147483650)
    (h0 : vec[0]? = some p) (hp : 1 < p.key)
    (hkeys : ∀ j, 1 ≤ j → j ≤ 2147483649 → keyAt vec j = spineKey j) (fuel : Nat) :
    ∃ n1 v3, vec[1]? = some n1 ∧ removeMin (fuel + 34) vec = .ok v3 n1.data ∧
      v3.length = 2147483649 ∧ v3[0]? = some p ∧ keyAt v3 1 = 2 ∧
      keyAt v3 2147483648 = 1 ∧ keyAt v3 1073741824 = 3 := by
  have hs := size_eq vec (by omega) (by omega)
  obtain ⟨n1, hn1⟩ := slot_of_lt vec 1 (by omega)
  obtain ⟨last, hl⟩ := slot_of_lt vec 2147483649 (by omega)
  obtain ⟨v1, hd, e1⟩ := spine_carry vec p last hlen h0 hl hkeys
  obtain ⟨v2, e2, hlen2, h02, k1, kn, kh⟩ := descending_end_high v1 p hd hp
  have e : minHeapify (fuel + 34) (vec.set 1 last) 1 = .ok v2 () := by
    rw [show fuel + 34 = (fuel + 3) + 31 by omega, e1, e2]
  refine ⟨n1, v2.dropLast, hn1, ?_, by simp [hlen2], ?_, ?_, ?_, ?_⟩
  · exact removeMin_of_minHeapify _ vec v2 n1 last (by omega) hn1
      (by rw [hs, hlen]; exact hl) e (by omega)
  · rw [List.getElem?_dropLast, if_pos (by omega)]; exact h02
  · rw [keyAt_dropLast v2 1 (by omega)]; exact k1
  · rw [keyAt_dropLast v2 _ (by omega)]; exact kn
  · rw [keyAt_dropLast v2 _ (by omega)]; exact kh

/-- On the heap of `spineKey` with a key of at most 1 in slot 0, `removeMin` returns
after 35 calls of `minHeapify`; the placeholder is then in slot `2^31` and the node
that was in slot 2 is in slot 0. -/
theorem spine_removeMin_low (vec : List (Node T)) (p : Node T) (hlen : vec.length = 2147483650)
    (h0 : vec[0]? = some p) (hp : p.key ≤ 1)
    (hkeys : ∀ j, 1 ≤ j → j ≤ 2147483649 → keyAt vec j = spineKey j) (fuel : Nat) :
    ∃ n1 v3, vec[1]? = some n1 ∧ removeMin (fuel + 35) vec = .ok v3 n1.data ∧
      v3.length = 2147483649 ∧ v3[2147483648]? = some p ∧ keyAt v3 0 = 1 ∧
      keyAt v3 1 = 2 := by
  have hs := size_eq vec (by omega) (by omega)
  obtain ⟨n1, hn1⟩ := slot_of_lt vec 1 (by omega)
  obtain ⟨last, hl⟩ := slot_of_lt vec 2147483649 (by omega)
  obtain ⟨v1, hd, e1⟩ := spine_carry vec p last hlen h0 hl hkeys
  obtain ⟨v2, e2, hlen2, hn2, k0, k1⟩ := descending_end_low v1 p hd hp
  have e : minHeapify (fuel + 35) (vec.set 1 last) 1 = .ok v2 () := by
    rw [show fuel + 35 = (fuel + 4) + 31 by omega, e1, e2]
  refine ⟨n1, v2.dropLast, hn1, ?_, by simp [hlen2], ?_, ?_, ?_⟩
  · exact removeMin_of_minHeapify _ vec v2 n1 last (by omega) hn1
      (by rw [hs, hlen]; exact hl) e (by omega)
  · rw [List.getElem?_dropLast, if_pos (by omega)]; exact hn2
  · rw [keyAt_dropLast v2 0 (by omega)]; exact k0
  · rw [keyAt_dropLast v2 1 (by omega)]; exact k1

theorem keyAt_range (p : Node Int) (k : Nat → Int) (n j : Nat) :
    keyAt (p :: (List.range n).map (fun j => (⟨k (j + 1), k (j + 1)⟩ : Node Int))) j =
      if j = 0 then p.key else if j ≤ n then k j else 0 := by
  unfold keyAt
  cases j with
  | zero => simp
  | succ j =>
    simp only [List.getElem?_cons_succ, List.getElem?_map]
    by_cases c : j < n
    · rw [List.getElem?_range c]
      simp
      omega
    · rw [List.getElem?_eq_none (by simpa using c)]
      simp
      omega

theorem range_insertAll (p : Node Int) (k : Nat → Int) (n : Nat) (hn : n + 1 ≤ 4294967296)
    (hk : ∀ j, k j ≤ INT_MAX) (hord : ∀ j, 2 ≤ j → j ≤ n → k (j / 2) ≤ k j) :
    insertAll (MinHeap.new p) ((List.range n).map (fun j => (k (j + 1), k (j + 1)))) =
      .ok (p :: (List.range n).map (fun j => (⟨k (j + 1), k (j + 1)⟩ : Node Int))) () := by
  have hmap : MinHeap.new p ++
      ((List.range n).map (fun j => (k (j + 1), k (j + 1)))).map toNode =
      p :: (List.range n).map (fun j => (⟨k (j + 1), k (j + 1)⟩ : Node Int)) := by
    simp [MinHeap.new, toNode, Function.comp_def]
  have h := insertAll_heapOrdered ((List.range n).map (fun j => (k (j + 1), k (j + 1))))
    (MinHeap.new p) (by simp [MinHeap.new]) (by simp [MinHeap.new]; omega)
    (by
      intro q hq
      simp at hq
      obtain ⟨a, _, rfl⟩ := hq
      exact hk _)
    (by
      rw [hmap]
      intro j hj2 hjm
      simp [MinHeap.new] at hjm
      rw [keyAt_range, keyAt_range, if_neg (by omega), if_pos (by omega), if_neg (by omega),
        if_pos (by omega)]
      exact hord j hj2 (by omega))
  rw [h, hmap]

theorem range_heap_int (k : Nat → Int) (n : Nat) (hk : ∀ j, INT_MIN ≤ k j ∧ k j ≤ INT_MAX) :
    ∀ q ∈ (List.range n).map (fun j => (k (j + 1), k (j + 1))),
      INT_MIN ≤ q.2 ∧ q.2 ≤ INT_MAX := by
  intro q hq
  simp at hq
  obtain ⟨a, _, rfl⟩ := hq
  exact hk _

theorem spineKey_int (j : Nat) : INT_MIN ≤ spineKey j ∧ spineKey j ≤ INT_MAX := by
  have := spineKey_range j
  unfold INT_MIN INT_MAX
  omega

theorem spinePairs_insertAll (p : Node Int) :
    insertAll (MinHeap.new p) spinePairs = .ok (spineHeap p) () :=
  range_insertAll p spineKey 2147483649 (by omega) (fun j => (spineKey_int j).2)
    (fun j h2 hn => spineKey_parent j h2 hn)

theorem spineHeap_reachable (p : Node Int) : Reachable (spineHeap p) :=
  reachable_of_insertAll spinePairs (MinHeap.new p) (spineHeap p) (Reachable.init p)
    (range_heap_int spineKey 2147483649 spineKey_int) (spinePairs_insertAll p)

theorem range_heap_length (p : Node Int) (k : Nat → Int) (n : Nat) :
    (p :: (List.range n).map (fun j => (⟨k (j + 1), k (j + 1)⟩ : Node Int))).length = n + 1 := by
  simp

theorem spineHeap_length (p : Node Int) : (spineHeap p).length = 2147483650 :=
  range_heap_length p spineKey 2147483649

theorem cons_head {α : Type} (p : α) (l : List α) : (p :: l)[0]? = some p := by simp

theorem spineHeap_head (p : Node Int) : (spineHeap p)[0]? = some p := cons_head p _

theorem range_heap_keys (p : Node Int) (k : Nat → Int) (n : Nat) :
    ∀ j, 1 ≤ j → j ≤ n →
      keyAt (p :: (List.range n).map (fun j => (⟨k (j + 1), k (j + 1)⟩ : Node Int))) j = k j := by
  intro j h1 hn
  rw [keyAt_range, if_neg (by omega), if_pos hn]

theorem spineHeap_keys (p : Node Int) :
    ∀ j, 1 ≤ j → j ≤ 2147483649 → keyAt (spineHeap p) j = spineKey j :=
  range_heap_keys p spineKey 2147483649

end MinHeap

namespace IntMinHeap

theorem liftOutcome_eq_outOfFuel {α : Type} {o : Outcome (List Int) α}
    (h : liftOutcome o = .outOfFuel) : o = .outOfFuel := by
  cases o <;> simp [liftOutcome] at h ⊢

/-- Heap-sort of `2^31` zeros followed by a 5: the inserts return, the first
`removeMin` never does. -/
theorem int_flat_heapSort_diverges (n : Nat) (hn : n = 2147483648) (fuel : Nat) :
    heapSort fuel (List.replicate n 0 ++ [5]) = .outOfFuel := by
  have hmap : (List.replicate n (0 : Int) ++ [5]).map (fun x => (x, x)) =
      List.replicate n ((0 : Int), (0 : Int)) ++ [((5 : Int), (5 : Int))] := by
    simp
  have hsim := insertAll_sim (List.replicate n 0 ++ [5]) new (by simp [new])
    (by simp [new]; omega)
    (by
      intro x hx
      rw [List.mem_append, List.mem_replicate, List.mem_singleton] at hx
      rcases hx with ⟨_, rfl⟩ | rfl <;> decide)
  have hflat := MinHeap.flat_insertAll (⟨INT_MAX, INT_MAX⟩ : Node Int) 0 5 0 5 n (by omega)
    (by omega) (by decide)
  have hnew : liftVec new = MinHeap.new (⟨INT_MAX, INT_MAX⟩ : Node Int) := rfl
  rw [hmap, hnew, hflat] at hsim
  obtain ⟨w, ew, hw⟩ := liftOutcome_eq_ok hsim.symm
  have hd := MinHeap.flat_removeMin_diverges (⟨INT_MAX, INT_MAX⟩ : Node Int) ⟨0, 0⟩ ⟨5, 5⟩
    (by decide) (by decide) n hn fuel
  rw [← hw, removeMin_sim] at hd
  have hd2 := liftOutcome_eq_outOfFuel hd
  have hl : (List.replicate n (0 : Int) ++ [5]).length = n + 1 := by simp
  unfold heapSort
  rw [ew]
  simp only []
  rw [hl, removeAll, hd2]

end IntMinHeap

namespace MinHeap

variable {T : Type}

/-- The spec's `siftDown` on the same vector stops at slot `2^31`, whose children
`2^32` and `2^32 + 1` are past the end. -/
theorem spec_carried_run (a b : Int) (hab : a < b) : ∀ (d i : Nat) (arr : List (Node T)),
    i * 2 ^ d = 2147483648 → 1 ≤ i → arr.length = 2147483649 → keyAt arr i = b →
    (∀ j, 1 ≤ j → j ≤ 2147483648 → j ≠ i → keyAt arr j = a) →
    ∃ arr2, specSiftDown (d + 1) arr i = .ok arr2 () := by
  intro d
  induction d with
  | zero =>
    intro i arr hi h1 hlen hb hrest
    have : i = 2147483648 := by simpa using hi
    subst this
    refine ⟨arr, ?_⟩
    rw [specSiftDown, specSmallest_eq arr _ h1]
    rw [if_neg (by omega), if_neg (by omega)]
    simp
  | succ d ih =>
    intro i arr hi h1 hlen hb hrest
    have hp : 1 ≤ 2 ^ d := Nat.one_le_two_pow
    have e : (2 * i) * 2 ^ d = 2147483648 := by
      rw [pow_succ] at hi; rw [← hi]; ring
    have hle : 2 * i ≤ 2147483648 := by
      have : 2 * i ≤ 2 * i * 2 ^ d := Nat.le_mul_of_pos_right _ (by omega)
      omega
    have k2 : keyAt arr (2 * i) = a := hrest (2 * i) (by omega) hle (by omega)
    have hsm : specSmallest arr (arr.length - 1) i = some (2 * i) := by
      rw [specSmallest_eq arr i h1, hb, k2]
      rw [if_pos (⟨by omega, hab⟩ : 2 * i < arr.length ∧ a < b)]
      by_cases c : 2 * i + 1 ≤ 2147483648
      · rw [k2, hrest (2 * i + 1) (by omega) c (by omega), if_neg (by omega)]
      · rw [if_neg (by omega)]
    obtain ⟨v1, es, hlen1, _, hget⟩ := swap_spec arr i (2 * i) (by omega) (by omega)
    have hk := swap_keyAt hget
    obtain ⟨arr2, e2⟩ := ih (2 * i) v1 e (by omega) (by omega)
      (by rw [hk, if_pos rfl]; exact hb)
      (by
        intro j hj1 hj2 hne
        rw [hk, if_neg hne]
        by_cases c : j = i
        · rw [if_pos c]; exact k2
        · rw [if_neg c]; exact hrest j hj1 hj2 c)
    refine ⟨arr2, ?_⟩
    rw [specSiftDown, hsm]
    simp only [es]
    rw [if_pos (by omega)]
    exact e2

/-- On the vector on which the code's `removeMin` never returns, the spec's
`removeMin` returns with 32 units of fuel. -/
theorem spec_removeMin_returns (vec : List (Node T)) (a b : Int) (hab : a < b)
    (hlen : vec.length = 2147483650)
    (hlow : ∀ j, 1 ≤ j → j ≤ 2147483648 → keyAt vec j = a)
    (hlast : keyAt vec 2147483649 = b) :
    ∃ arr2 x, specRemoveMin 32 vec = .ok arr2 x := by
  obtain ⟨n1, hn1⟩ := slot_of_lt vec 1 (by omega)
  obtain ⟨last, hl⟩ := slot_of_lt vec 2147483649 (by omega)
  have hks := keyAt_set_one vec last (by omega)
  have hkd : ∀ j, j ≤ 2147483648 →
      keyAt (vec.set 1 last).dropLast j = if j = 1 then last.key else keyAt vec j := by
    intro j hj
    rw [keyAt_dropLast _ j (by simp [hlen]; omega), hks]
  obtain ⟨arr2, e⟩ := spec_carried_run (T := T) a b hab 31 1 (vec.set 1 last).dropLast
    (by norm_num) (by omega) (by simp [hlen])
    (by rw [hkd 1 (by omega), if_pos rfl, ← hlast, keyAt_of_some hl])
    (by
      intro j hj1 hj2 hne
      rw [hkd j hj2, if_neg hne]
      exact hlow j hj1 hj2)
  refine ⟨arr2, n1.data, ?_⟩
  unfold specRemoveMin
  rw [hlen, if_neg (by omega)]
  have hl2 : vec[2147483650 - 1]? = some last := hl
  simp only [hn1, hl2]
  rw [show (32 : Nat) = 31 + 1 from rfl, e]

theorem flat_spec_removeMin_returns (p x y : Node T) (hxy : x.key < y.key) (n : Nat)
    (hn : n = 2147483648) :
    ∃ arr2 r, specRemoveMin 32 (p :: (List.replicate n x ++ [y])) = .ok arr2 r := by
  apply spec_removeMin_returns _ x.key y.key hxy
  · simp; omega
  · intro j hj1 hj2
    rw [keyAt_flat, if_neg (by omega), if_pos (by omega)]
  · rw [keyAt_flat, if_neg (by omega), if_neg (by omega), if_pos (by omega)]

/-- A subtree whose root is not below `m` has no slot below `m`. -/
theorem subtreeOrd_of_le (vec : List (Node T)) (r m : Nat) (h : m ≤ r) : SubtreeOrd vec r m := by
  intro j hj _ hjm
  have := hj.le
  omega

/-- With `size() = 2^31`, `minHeapify(2^31)` compares slot `2^31` with slots
`left(2^31) = 0` and `right(2^31) = 1`: it swaps it with slot 0, goes on at slot 0,
whose `left` is 0 and `right` is 1, swaps slots 0 and 1 and stops at slot 1. -/
theorem wrap_minHeapify (vec : List (Node T)) (hlen : vec.length = 2147483649)
    (kn : keyAt vec 2147483648 = 5) (k0 : keyAt vec 0 = 0) (k1 : keyAt vec 1 = 1)
    (k2 : keyAt vec 2 = 9) (k3 : keyAt vec 3 = 9) :
    ∃ v2, (∀ fuel, minHeapify (fuel + 3) vec 2147483648 = .ok v2 ()) ∧ v2.Perm vec ∧
      v2[1]? = vec[2147483648]? ∧ v2[0]? = vec[1]? := by
  have hs : size vec = 2147483648 := by
    rw [size_eq vec (by omega) (by omega), hlen]
  have hl0 : left 0 = 0 := by unfold left UINT_MOD; rfl
  have hr0 : right 0 = 1 := by unfold right UINT_MOD; rfl
  have e1 : smallestLeft vec 2147483648 = some 0 := by
    rw [smallestLeft_wrap vec _ (by omega) (by omega) (by omega), left_wrap, hs, kn, k0]
    rw [if_pos ⟨by omega, by decide⟩]
  have e2 : smallestRight vec 2147483648 0 = some 0 := by
    rw [smallestRight_wrap vec _ _ (by omega) (by omega) (by omega), right_wrap, hs, k1, k0]
    rw [if_neg (by intro hh; exact absurd hh.2 (by decide))]
  obtain ⟨v1, es, hlen1, hperm, hget⟩ := swap_spec vec 2147483648 0 (by omega) (by omega)
  have hk := swap_keyAt hget
  have hs1 : size v1 = 2147483648 := by rw [size_congr hlen1, hs]
  have ka0 : keyAt v1 0 = 5 := by rw [hk, if_pos rfl]; exact kn
  have ka1 : keyAt v1 1 = 1 := by rw [hk, if_neg (by omega), if_neg (by omega)]; exact k1
  have e1a : smallestLeft v1 0 = some 0 := by
    rw [smallestLeft_wrap v1 0 (by omega) (by omega) (by omega), hl0, hs1, ka0]
    rw [if_neg (by intro hh; exact absurd hh.2 (by decide))]
  have e2a : smallestRight v1 0 0 = some 1 := by
    rw [smallestRight_wrap v1 0 0 (by omega) (by omega) (by omega), hr0, hs1, ka1, ka0]
    rw [if_pos ⟨by omega, by decide⟩]
  obtain ⟨v2, es2, hlen2, hperm2, hget2⟩ := swap_spec v1 0 1 (by omega) (by omega)
  have hk2 := swap_keyAt hget2
  have hs2 : size v2 = 2147483648 := by rw [size_congr hlen2, hs1]
  have kb1 : keyAt v2 1 = 5 := by rw [hk2, if_pos rfl]; exact ka0
  have kb2 : keyAt v2 2 = 9 := by
    rw [hk2, if_neg (by omega), if_neg (by omega), hk, if_neg (by omega), if_neg (by omega)]
    exact k2
  have kb3 : keyAt v2 3 = 9 := by
    rw [hk2, if_neg (by omega), if_neg (by omega), hk, if_neg (by omega), if_neg (by omega)]
    exact k3
  have e1b : smallestLeft v2 1 = some 1 := by
    rw [smallestLeft_wrap v2 1 (by omega) (by omega) (by omega), left_eq 1 (by omega), hs2,
      kb2, kb1]
    rw [if_neg (by intro hh; exact absurd hh.2 (by decide))]
  have e2b : smallestRight v2 1 1 = some 1 := by
    rw [smallestRight_wrap v2 1 1 (by omega) (by omega) (by omega), right_eq 1 (by omega), hs2,
      kb3, kb1]
    rw [if_neg (by intro hh; exact absurd hh.2 (by decide))]
  refine ⟨v2, fun fuel => ?_, hperm2.trans hperm, ?_, ?_⟩
  · rw [show fuel + 3 = (fuel + 2) + 1 by omega,
      minHeapify_step (fuel + 2) vec v1 _ _ 0 e1 e2 (by omega) es,
      show fuel + 2 = (fuel + 1) + 1 by omega,
      minHeapify_step (fuel + 1) v1 v2 _ _ 1 e1a e2a (by omega) es2,
      minHeapify_halt fuel v2 1 1 e1b e2b]
  · rw [hget2, if_pos rfl, hget, if_pos rfl]
  · rw [hget2, if_neg (by omega), if_pos rfl, hget, if_neg (by omega), if_neg (by omega)]

theorem minHeapifyAccesses_step (fuel : Nat) (vec v1 : List (Node T)) (i s1 sm : Nat)
    (e1 : smallestLeft vec i = some s1) (e2 : smallestRight vec i s1 = some sm)
    (hne : sm ≠ i) (es : swap vec i sm = some v1) :
    ∀ k ∈ minHeapifyAccesses fuel v1 sm, k ∈ minHeapifyAccesses (fuel + 1) vec i := by
  intro k hk
  rw [minHeapifyAccesses]
  simp only [e1, e2, es]
  rw [if_pos hne]
  simp only [List.mem_append]
  right; right; right
  exact hk

/-- The carry down the left spine ends with `minHeapify(2^31)`, which reads
`vec[left(2^31)] = vec[0]`. -/
theorem carried_reads_zero (a b : Int) (hab : a < b) : ∀ (d i : Nat) (vec : List (Node T)),
    i * 2 ^ d = 2147483648 → 1 ≤ i → Carried vec a b i →
    0 ∈ minHeapifyAccesses (d + 1) vec i := by
  intro d
  induction d with
  | zero =>
    intro i vec hi _ h
    have : i = 2147483648 := by simpa using hi
    subst this
    rw [minHeapifyAccesses, left_wrap, carried_size h, if_pos (by omega)]
    simp
  | succ d ih =>
    intro i vec hi h1 h
    have hp : 1 ≤ 2 ^ d := Nat.one_le_two_pow
    have e : (2 * i) * 2 ^ d = 2147483648 := by
      rw [pow_succ] at hi; rw [← hi]; ring
    have hle : 2 * i ≤ 2147483648 := by
      have : 2 * i ≤ 2 * i * 2 ^ d := Nat.le_mul_of_pos_right _ (by omega)
      omega
    obtain ⟨v1, s1, e1, e2, es, hc⟩ := carried_down vec a b i h hab h1 (by omega)
    exact minHeapifyAccesses_step (d + 1) vec v1 i s1 (2 * i) e1 e2 (by omega) es 0
      (ih (2 * i) v1 e (by omega) hc)

theorem removeMin_reads_zero (vec : List (Node T)) (a b : Int) (hab : a < b)
    (hlen : vec.length = 2147483650) (hp : a < keyAt vec 0)
    (hlow : ∀ j, 1 ≤ j → j ≤ 2147483648 → keyAt vec j = a)
    (hlast : keyAt vec 2147483649 = b) :
    0 ∈ removeMinAccesses 32 vec := by
  have hs := size_eq vec (by omega) (by omega)
  obtain ⟨n1, hn1⟩ := slot_of_lt vec 1 (by omega)
  obtain ⟨last, hl⟩ := slot_of_lt vec 2147483649 (by omega)
  have hks := keyAt_set_one vec last (by omega)
  have hc : Carried (vec.set 1 last) a b 1 := by
    refine ⟨by simp [hlen], ?_, ?_, ?_⟩
    · rw [hks, if_pos rfl, ← hlast, keyAt_of_some hl]
    · rw [hks, if_neg (by omega)]; exact hp
    · intro j hj1 hj2 hne
      rw [hks, if_neg hne]
      exact hlow j hj1 hj2
  have h0 := carried_reads_zero a b hab 31 1 (vec.set 1 last) (by norm_num) (by omega) hc
  unfold removeMinAccesses
  rw [hs, hlen, if_neg (by omega)]
  have hl2 : vec[2147483650 - 1]? = some last := hl
  simp only [hn1, hl2]
  simp only [List.mem_cons]
  right; right; right; right
  exact h0

theorem flat_removeMin_reads_zero (p x y : Node T) (hxy : x.key < y.key) (hp : x.key < p.key)
    (n : Nat) (hn : n = 2147483648) :
    0 ∈ removeMinAccesses 32 (p :: (List.replicate n x ++ [y])) := by
  apply removeMin_reads_zero _ x.key y.key hxy
  · simp; omega
  · rw [keyAt_flat]; simpa using hp
  · intro j hj1 hj2
    rw [keyAt_flat, if_neg (by omega), if_pos (by omega)]
  · rw [keyAt_flat, if_neg (by omega), if_neg (by omega), if_pos (by omega)]

theorem size_wrapped {α : Type} (v : List α) (h : v.length = 4294967297) : size v = 0 := by
  unfold size UINT_MOD
  rw [h]
  rfl

/-- With `2^32` slots before the call, `insert` pushes one more, `size()` is then 0, and
`heapDecreaseKey(0, key)` tests the key of the placeholder. -/
theorem insert_wrap_throws (vec : List (Node T)) (p : Node T) (val : T) (key : Int)
    (hlen : vec.length = 4294967296) (h0 : vec[0]? = some p) (hk : key > p.key) :
    MinHeap.insert vec val key = .thrown .keyGreater (vec ++ [⟨val, INT_MAX⟩]) := by
  unfold MinHeap.insert
  rw [size_wrapped _ (by simp [hlen])]
  exact heapDecreaseKey_greater _ 0 key p
    (by rw [List.getElem?_append_left (by omega)]; exact h0) hk

theorem insert_wrap_returns (vec : List (Node T)) (p : Node T) (val : T) (key : Int)
    (hlen : vec.length = 4294967296) (h0 : vec[0]? = some p) (hk : key ≤ p.key) :
    ∃ v1, MinHeap.insert vec val key = .ok v1 () ∧ size v1 = 0 ∧ isEmpty v1 = false := by
  obtain ⟨v2, e, hl, _⟩ := heapDecreaseKey_spec (vec ++ [(⟨val, INT_MAX⟩ : Node T)]) 0 key p
    (by rw [List.getElem?_append_left (by omega)]; exact h0) hk
  have hl2 : v2.length = 4294967297 := by rw [hl]; simp [hlen]
  refine ⟨v2, ?_, size_wrapped v2 hl2, ?_⟩
  · unfold MinHeap.insert
    rw [size_wrapped _ (by simp [hlen])]
    exact e
  · unfold isEmpty; rw [hl2]; rfl

theorem decreaseLoop_length : ∀ (fuel : Nat) (v v2 : List (Node T)) (i : Nat) (u : Unit),
    decreaseLoop fuel v i = .ok v2 u → v2.length = v.length := by
  intro fuel
  induction fuel with
  | zero => intro v v2 i u h; rw [decreaseLoop] at h; cases h
  | succ fuel ih =>
    intro v v2 i u h
    rw [decreaseLoop] at h
    by_cases c : 1 < i
    · simp only [if_pos c] at h
      cases h1 : v[parent i]? with
      | none => simp [h1] at h
      | some np =>
        cases h2 : v[i]? with
        | none => simp [h1, h2] at h
        | some ni =>
          simp only [h1, h2] at h
          by_cases k : np.key > ni.key
          · simp only [if_pos k] at h
            cases h3 : swap v i (parent i) with
            | none => simp [h3] at h
            | some v1 =>
              simp only [h3] at h
              rw [ih v1 v2 _ u h, swap_length v v1 _ _ h3]
          · simp only [if_neg k] at h
            cases h; rfl
    · simp only [if_neg c] at h
      cases h; rfl

theorem insert_length (vec v1 : List (Node T)) (val : T) (key : Int)
    (h : MinHeap.insert vec val key = .ok v1 ()) : v1.length = vec.length + 1 := by
  unfold MinHeap.insert heapDecreaseKey at h
  cases h1 : (vec ++ [(⟨val, INT_MAX⟩ : Node T)])[size (vec ++ [(⟨val, INT_MAX⟩ : Node T)])]? with
  | none => simp [h1] at h
  | some ni =>
    simp only [h1] at h
    by_cases k : key > ni.key
    · simp [if_pos k] at h
    · simp only [if_neg k] at h
      rw [decreaseLoop_length _ _ _ _ _ h]
      simp

/-- Every reachable vector still has its slot 0. -/
theorem reachable_length {vec : List (Node T)} (h : Reachable vec) : 1 ≤ vec.length := by
  induction h with
  | init ph => simp [MinHeap.new]
  | afterInsert vec vec1 val key _ _ _ e ih =>
    rw [insert_length vec vec1 val key e]; omega
  | afterRemoveMin fuel vec vec1 x _ e ih =>
    obtain ⟨hl, hs⟩ := removeMin_length fuel vec vec1 x e
    have : vec.length ≠ 1 := by
      intro hc
      apply hs
      unfold size UINT_MOD
      rw [hc]; rfl
    omega

theorem reachable_of_capped {vec : List (Node T)} (h : ReachableCapped vec) : Reachable vec := by
  induction h with
  | init ph => exact Reachable.init ph
  | afterInsert vec vec1 val key _ _ h1 h2 e ih => exact Reachable.afterInsert vec vec1 val key ih h1 h2 e
  | afterRemoveMin fuel vec vec1 x _ e ih => exact Reachable.afterRemoveMin fuel vec vec1 x ih e

/-- Size accounting along a run, as long as the vector stays below `2^32 + 1` slots. -/
theorem run_accounting (fuel : Nat) : ∀ (ops : List (Op T)) (vec v2 : List (Node T))
    (events : List (Event T)),
    1 ≤ vec.length → vec.length + countInsertOps ops ≤ 4294967296 → keysInRange ops →
    run fuel ops vec = some (v2, events) →
    countInserted events = countInsertOps ops ∧
      v2.length + countRemoved events = vec.length + countInserted events ∧
      1 ≤ v2.length := by
  intro ops
  induction ops with
  | nil =>
    intro vec v2 events h1 _ _ e
    simp [run] at e
    obtain ⟨rfl, rfl⟩ := e
    exact ⟨rfl, rfl, h1⟩
  | cons op ops ih =>
    intro vec v2 events h1 hL hk e
    cases op with
    | insert val key =>
      simp only [countInsertOps, keysInRange] at hL hk
      obtain ⟨v1, e1, hl1, _⟩ := insert_spec vec val key h1 (by omega) hk.2.1
      rw [run] at e
      simp only [e1] at e
      cases hr : run fuel ops v1 with
      | none => simp [hr] at e
      | some r =>
        simp only [hr, Option.map_some', Option.some.injEq, Prod.mk.injEq] at e
        obtain ⟨rfl, rfl⟩ := e
        have := ih v1 r.1 r.2 (by omega) (by omega) hk.2.2 (by rw [hr])
        simp only [countInserted, countRemoved, countInsertOps]
        omega
    | removeMin =>
      simp only [countInsertOps, keysInRange] at hL hk
      rw [run] at e
      cases hm : removeMin fuel vec with
      | ok v1 x =>
        simp only [hm] at e
        obtain ⟨hl, hs⟩ := removeMin_length fuel vec v1 x hm
        have hsz := size_eq vec h1 (by omega)
        cases hr : run fuel ops v1 with
        | none => simp [hr] at e
        | some r =>
          simp only [hr, Option.map_some', Option.some.injEq, Prod.mk.injEq] at e
          obtain ⟨rfl, rfl⟩ := e
          have := ih v1 r.1 r.2 (by omega) (by omega) hk (by rw [hr])
          simp only [countInserted, countRemoved, countInsertOps]
          omega
      | thrown ex st =>
        simp only [hm] at e
        obtain ⟨_, _, rfl⟩ := removeMin_thrown fuel vec ex st hm
        cases hr : run fuel ops st with
        | none => simp [hr] at e
        | some r =>
          simp only [hr, Option.map_some', Option.some.injEq, Prod.mk.injEq] at e
          obtain ⟨rfl, rfl⟩ := e
          have := ih st r.1 r.2 h1 hL hk (by rw [hr])
          simp only [countInserted, countRemoved, countInsertOps]
          omega
      | undefinedBehaviour => simp [hm] at e
      | outOfFuel => simp [hm] at e

theorem trace_inserts (fuel : Nat) : ∀ (pairs : List (T × Int)) (vec v2 : List (Node T))
    (rest : List (Op T)), insertAll vec pairs = .ok v2 () →
    ∃ recs, recs.length = pairs.length ∧
      trace fuel (pairs.map (fun q => Op.insert q.1 q.2) ++ rest) vec =
        recs ++ trace fuel rest v2 := by
  intro pairs
  induction pairs with
  | nil =>
    intro vec v2 rest e
    simp [insertAll] at e
    subst e
    exact ⟨[], rfl, rfl⟩
  | cons p ps ih =>
    intro vec v2 rest e
    rw [insertAll] at e
    cases h1 : MinHeap.insert vec p.1 p.2 with
    | ok v1 u =>
      simp only [h1] at e
      obtain ⟨recs, hl, ht⟩ := ih v1 v2 rest e
      refine ⟨some (.inserted, size v1, v1.tail) :: recs, by simp [hl], ?_⟩
      simp only [List.map_cons, List.cons_append]
      rw [trace]
      simp only [h1]
      rw [ht]
    | thrown e1 st => simp [h1] at e
    | undefinedBehaviour => simp [h1] at e
    | outOfFuel => simp [h1] at e

end MinHeap

namespace IntMinHeap

theorem int_trace_inserts (fuel : Nat) : ∀ (xs : List Int) (vec v2 : List Int)
    (rest : List Op), insertAll vec xs = .ok v2 () →
    ∃ recs, recs.length = xs.length ∧
      trace fuel (xs.map Op.insert ++ rest) vec = recs ++ trace fuel rest v2 := by
  intro xs
  induction xs with
  | nil =>
    intro vec v2 rest e
    simp [insertAll] at e
    subst e
    exact ⟨[], rfl, rfl⟩
  | cons x xs ih =>
    intro vec v2 rest e
    rw [insertAll] at e
    cases h1 : insert vec x with
    | ok v1 u =>
      simp only [h1] at e
      obtain ⟨recs, hl, ht⟩ := ih v1 v2 rest e
      refine ⟨some (.inserted, size v1, v1.tail) :: recs, by simp [hl], ?_⟩
      simp only [List.map_cons, List.cons_append]
      rw [trace]
      simp only [h1]
      rw [ht]
    | thrown e1 st => simp [h1] at e
    | undefinedBehaviour => simp [h1] at e
    | outOfFuel => simp [h1] at e

theorem valuesInRange_inserts : ∀ (xs : List Int) (rest : List Op),
    (∀ x ∈ xs, INT_MIN ≤ x ∧ x ≤ INT_MAX) → valuesInRange rest →
    valuesInRange (xs.map Op.insert ++ rest) := by
  intro xs
  induction xs with
  | nil => intro rest _ h; exact h
  | cons x xs ih =>
    intro rest hx h
    simp only [List.map_cons, List.cons_append, valuesInRange]
    exact ⟨(hx x (by simp)).1, (hx x (by simp)).2, ih rest (fun y hy => hx y (by simp [hy])) h⟩

/-- Two runs whose last call is a `removeMin` that leaves different values in some slot
after slot 0 have different records. -/
theorem traces_differ (fuel : Nat) (p : Node Int) (xs : List Int)
    (heapG v3 : List (Node Int)) (xG : Int) (w w3 : List Int) (xI : Int) (j : Nat)
    (eG : MinHeap.insertAll (MinHeap.new p) (xs.map (fun x => (x, x))) = .ok heapG ())
    (rG : MinHeap.removeMin fuel heapG = .ok v3 xG)
    (eI : insertAll new xs = .ok w ()) (rI : removeMin fuel w = .ok w3 xI)
    (a : Node Int) (b : Int) (ha : v3[j + 1]? = some a) (hb : w3[j + 1]? = some b)
    (hab : a.key ≠ b) :
    (MinHeap.trace fuel ((xs.map Op.insert ++ [Op.removeMin]).map toGeneric)
        (MinHeap.new p)).map (readRecord Node.key) ≠
      trace fuel (xs.map Op.insert ++ [Op.removeMin]) new := by
  have hops : (xs.map Op.insert ++ [Op.removeMin]).map toGeneric =
      (xs.map (fun x => (x, x))).map (fun q => MinHeap.Op.insert q.1 q.2) ++
        [MinHeap.Op.removeMin] := by
    simp [toGeneric, Function.comp_def]
  obtain ⟨recsG, hlG, htG⟩ := MinHeap.trace_inserts fuel (xs.map (fun x => (x, x)))
    (MinHeap.new p) heapG [MinHeap.Op.removeMin] eG
  obtain ⟨recsI, hlI, htI⟩ := int_trace_inserts fuel xs new w [Op.removeMin] eI
  rw [hops, htG, htI]
  have tG : MinHeap.trace fuel [MinHeap.Op.removeMin] heapG =
      [some (.removed xG, MinHeap.size v3, v3.tail)] := by
    rw [MinHeap.trace]; simp only [rG]; rfl
  have tI : trace fuel [Op.removeMin] w = [some (.removed xI, size w3, w3.tail)] := by
    rw [trace]; simp only [rI]; rfl
  rw [tG, tI, List.map_append]
  intro h
  have h2 := (List.append_inj' h (by simp)).2
  simp only [List.map_cons, List.map_nil, readRecord, List.cons.injEq, Option.some.injEq,
    Prod.mk.injEq, and_true] at h2
  have h3 := h2.2.2
  have h4 : (v3.tail.map Node.key)[j]? = w3.tail[j]? := by rw [h3]
  rw [List.getElem?_map, List.getElem?_tail, List.getElem?_tail, ha, hb] at h4
  simp at h4
  exact hab h4

end IntMinHeap

namespace MinHeap

variable {T : Type}

/-- After `removeMin` on the heap of `spineKey` with a key above 1 in slot 0, slot
`2^31` holds a smaller key than its parent slot `2^30` and than slot 1. -/
theorem spine_order_broken (vec : List (Node T)) (p : Node T) (hlen : vec.length = 2147483650)
    (h0 : vec[0]? = some p) (hp : 1 < p.key)
    (hkeys : ∀ j, 1 ≤ j → j ≤ 2147483649 → keyAt vec j = spineKey j)
    (fuel : Nat) (hf : 34 ≤ fuel) :
    ∃ v3 x, removeMin fuel vec = .ok v3 x ∧ size v3 = 2147483648 ∧ isEmpty v3 = false ∧
      ∃ a b r, v3[parent 2147483648]? = some a ∧ v3[2147483648]? = some b ∧
        v3[1]? = some r ∧ b.key < a.key ∧ b.key < r.key := by
  obtain ⟨f, rfl⟩ : ∃ f, fuel = f + 34 := ⟨fuel - 34, by omega⟩
  obtain ⟨n1, v3, _, e, hl3, _, k1, kn, kh⟩ := spine_removeMin_high vec p hlen h0 hp hkeys f
  obtain ⟨a, ha⟩ := slot_of_lt v3 1073741824 (by omega)
  obtain ⟨b, hb⟩ := slot_of_lt v3 2147483648 (by omega)
  obtain ⟨r, hr⟩ := slot_of_lt v3 1 (by omega)
  rw [keyAt_of_some ha] at kh
  rw [keyAt_of_some hb] at kn
  rw [keyAt_of_some hr] at k1
  refine ⟨v3, n1.data, e, ?_, ?_, a, b, r, ha, hb, hr, by omega, by omega⟩
  · rw [size_eq v3 (by omega) (by omega), hl3]
  · unfold isEmpty; rw [hl3]; rfl

/-- After `removeMin` on the heap of `spineKey` with a negative key in slot 0, the
placeholder is among the elements and the elements are not those before minus the
one removed. -/
theorem spine_not_conserved (vec : List (Node T)) (p : Node T) (hlen : vec.length = 2147483650)
    (h0 : vec[0]? = some p) (hp : p.key < 0)
    (hkeys : ∀ j, 1 ≤ j → j ≤ 2147483649 → keyAt vec j = spineKey j)
    (fuel : Nat) (hf : 35 ≤ fuel) :
    ∃ n1 v3, vec[1]? = some n1 ∧ removeMin fuel vec = .ok v3 n1.data ∧
      p ∈ v3.tail ∧ p ∉ vec.tail ∧ ¬ vec.tail.Perm (n1 :: v3.tail) := by
  obtain ⟨f, rfl⟩ : ∃ f, fuel = f + 35 := ⟨fuel - 35, by omega⟩
  obtain ⟨n1, v3, hn1, e, hl3, hpn, _, _⟩ :=
    spine_removeMin_low vec p hlen h0 (by omega) hkeys f
  have hin : p ∈ v3.tail := by
    apply List.mem_iff_getElem?.mpr
    exact ⟨2147483647, by rw [List.getElem?_tail]; exact hpn⟩
  have hkey : ∀ m ∈ vec.tail, 0 ≤ m.key := by
    intro m hm
    obtain ⟨j, hj⟩ := List.mem_iff_getElem?.mp hm
    rw [List.getElem?_tail] at hj
    have hlt : j + 1 < vec.length := by
      by_contra hc
      rw [List.getElem?_eq_none (by omega)] at hj; simp at hj
    rw [← keyAt_of_some hj, hkeys (j + 1) (by omega) (by omega)]
    exact (spineKey_range _).1
  have hout : p ∉ vec.tail := by
    intro hc
    have := hkey p hc
    omega
  refine ⟨n1, v3, hn1, e, hin, hout, ?_⟩
  intro hperm
  have hmem : p ∈ n1 :: v3.tail := List.mem_cons_of_mem _ hin
  exact hout (hperm.mem_iff.mpr hmem)

end MinHeap

namespace IntMinHeap

theorem slot_of_lift {w : List Int} {k : Nat} {n : Node Int}
    (h : (liftVec w)[k]? = some n) : w[k]? = some n.key := by
  rw [liftVec_slot] at h
  cases hw : w[k]? with
  | none => simp [hw] at h
  | some x => simp [hw] at h; rw [← h]

/-- The run of `2^31 + 1` inserts of `spineKey` followed by one `removeMin`: the integer
heap (placeholder `INT_MAX`) ends with 1 in slot `2^31`, the generic heap with a
negative placeholder key ends with its placeholder there. -/
theorem spine_traces_differ (n : Nat) (hn : n = 2147483649) (p : Node Int) (hp : p.key < 0)
    (fuel : Nat) (hf : 35 ≤ fuel) :
    (MinHeap.trace fuel
        (((List.range n).map (fun j => Op.insert (MinHeap.spineKey (j + 1))) ++
          [Op.removeMin]).map toGeneric) (MinHeap.new p)).map (readRecord Node.key) ≠
      trace fuel ((List.range n).map (fun j => Op.insert (MinHeap.spineKey (j + 1))) ++
        [Op.removeMin]) new := by
  have hxs : (List.range n).map (fun j => Op.insert (MinHeap.spineKey (j + 1))) =
      ((List.range n).map (fun j => MinHeap.spineKey (j + 1))).map Op.insert := by
    simp [Function.comp_def]
  have hpairs : ((List.range n).map (fun j => MinHeap.spineKey (j + 1))).map (fun x => (x, x)) =
      (List.range n).map (fun j => (MinHeap.spineKey (j + 1), MinHeap.spineKey (j + 1))) := by
    simp [Function.comp_def]
  have hord : ∀ j, 2 ≤ j → j ≤ n → MinHeap.spineKey (j / 2) ≤ MinHeap.spineKey j :=
    fun j h2 hj => MinHeap.spineKey_parent j h2 (by omega)
  have hmax : ∀ j, MinHeap.spineKey j ≤ INT_MAX := fun j => (MinHeap.spineKey_int j).2
  -- the generic heap
  have eG := MinHeap.range_insertAll p MinHeap.spineKey n (by omega) hmax hord
  obtain ⟨n1, v3, _, rG, hl3, hpn, _, _⟩ := MinHeap.spine_removeMin_low _ p
    (by rw [MinHeap.range_heap_length]; omega) (MinHeap.cons_head p _) (by omega)
    (fun j h1 hj => MinHeap.range_heap_keys p MinHeap.spineKey n j h1 (by omega)) (fuel - 35)
  rw [show fuel - 35 + 35 = fuel by omega] at rG
  -- the integer heap
  have eL := MinHeap.range_insertAll (⟨INT_MAX, INT_MAX⟩ : Node Int) MinHeap.spineKey n
    (by omega) hmax hord
  have hsim := insertAll_sim ((List.range n).map (fun j => MinHeap.spineKey (j + 1))) new
    (by simp [new]) (by simp [new]; omega)
    (by
      intro x hx
      simp at hx
      obtain ⟨a, _, rfl⟩ := hx
      exact hmax _)
  have hnew : liftVec new = MinHeap.new (⟨INT_MAX, INT_MAX⟩ : Node Int) := rfl
  rw [hpairs, hnew, eL] at hsim
  obtain ⟨w, eI, hw⟩ := liftOutcome_eq_ok hsim.symm
  obtain ⟨m1, u3, _, rL, hlu, _, _, kn, _⟩ := MinHeap.spine_removeMin_high _
    (⟨INT_MAX, INT_MAX⟩ : Node Int)
    (by rw [MinHeap.range_heap_length]; omega) (MinHeap.cons_head _ _) (by decide)
    (fun j h1 hj => MinHeap.range_heap_keys _ MinHeap.spineKey n j h1 (by omega)) (fuel - 34)
  rw [show fuel - 34 + 34 = fuel by omega, ← hw, removeMin_sim] at rL
  obtain ⟨w3, rI, hw3⟩ := liftOutcome_eq_ok rL
  obtain ⟨b, hb⟩ := MinHeap.slot_of_lt u3 2147483648 (by omega)
  rw [MinHeap.keyAt_of_some hb] at kn
  rw [← hw3] at hb
  have hb2 := slot_of_lift hb
  rw [kn] at hb2
  rw [hxs]
  rw [hpairs.symm] at eG
  exact traces_differ fuel p _ _ v3 n1.data w w3 m1.data 2147483647 eG rG eI rI p 1 hpn hb2
    (by omega)

end IntMinHeap

section ListFacts

variable {α : Type}

theorem nodup_slot {l : List α} (h : l.Nodup) {i j : Nat} {a : α}
    (hi : l[i]? = some a) (hj : l[j]? = some a) : i = j := by
  obtain ⟨hi1, hi2⟩ := List.getElem?_eq_some_iff.mp hi
  obtain ⟨hj1, hj2⟩ := List.getElem?_eq_some_iff.mp hj
  exact (List.Nodup.getElem_inj_iff h).mp (hi2.trans hj2.symm)

end ListFacts

namespace HeapStore

variable {T : Type}

theorem deref_append (mem l : List (Option (Node T))) (a : Nat) (h : a < mem.length) :
    deref (mem ++ l) a = deref mem a := by
  unfold deref
  rw [List.getElem?_append_left h]

theorem deref_lt {mem : List (Option (Node T))} {a : Nat} {n : Node T}
    (h : deref mem a = some n) : a < mem.length := by
  by_contra hc
  unfold deref at h
  rw [List.getElem?_eq_none (by omega)] at h
  simp at h

theorem deref_release_ne (mem : List (Option (Node T))) (a b : Nat) (h : b ≠ a) :
    deref (release mem a) b = deref mem b := by
  unfold deref release
  rw [List.getElem?_set_ne (Ne.symm h)]

theorem deref_release_self (mem : List (Option (Node T))) (a : Nat) :
    deref (release mem a) a = none := by
  unfold deref release
  by_cases c : a < mem.length
  · rw [List.getElem?_set_self c]
  · rw [List.getElem?_eq_none (by simpa using c)]

theorem rep_length {mem : List (Option (Node T))} {vec : List Nat} {nodes : List (Node T)}
    (h : Rep mem vec nodes) : vec.length = nodes.length := by
  have := congrArg List.length h
  simpa using this

theorem rep_slot {mem : List (Option (Node T))} {vec : List Nat} {nodes : List (Node T)}
    (h : Rep mem vec nodes) (i : Nat) : nodeAt mem vec i = nodes[i]? := by
  have h2 := congrArg (fun l => l[i]?) h
  simp only [List.getElem?_map] at h2
  unfold nodeAt
  cases hv : vec[i]? with
  | none =>
    rw [hv] at h2
    cases hn : nodes[i]? with
    | none => rfl
    | some n => rw [hn] at h2; simp at h2
  | some a =>
    rw [hv] at h2
    cases hn : nodes[i]? with
    | none => rw [hn] at h2; simp at h2
    | some n => rw [hn] at h2; simpa using h2

theorem rep_get {mem : List (Option (Node T))} {vec : List Nat} {nodes : List (Node T)}
    (h : Rep mem vec nodes) {i a : Nat} (hv : vec[i]? = some a) :
    ∃ n, nodes[i]? = some n ∧ deref mem a = some n := by
  have := rep_slot h i
  unfold nodeAt at this
  rw [hv] at this
  cases hn : nodes[i]? with
  | none =>
    have hl := rep_length h
    have : i < vec.length := by
      by_contra hc
      rw [List.getElem?_eq_none (by omega)] at hv; simp at hv
    rw [List.getElem?_eq_none_iff] at hn
    omega
  | some n =>
    simp only [] at this
    exact ⟨n, rfl, by rw [this, hn]⟩

theorem rep_size {mem : List (Option (Node T))} {vec : List Nat} {nodes : List (Node T)}
    (h : Rep mem vec nodes) : MinHeap.size vec = MinHeap.size nodes := by
  unfold MinHeap.size
  rw [rep_length h]

theorem rep_set {mem : List (Option (Node T))} {vec : List Nat} {nodes : List (Node T)}
    (h : Rep mem vec nodes) (i a : Nat) (n : Node T) (ha : deref mem a = some n) :
    Rep mem (vec.set i a) (nodes.set i n) := by
  unfold Rep at h ⊢
  rw [List.map_set, List.map_set, h, ha]

theorem rep_release {mem : List (Option (Node T))} {vec : List Nat} {nodes : List (Node T)}
    (h : Rep mem vec nodes) (a : Nat) (ha : a ∉ vec) : Rep (release mem a) vec nodes := by
  unfold Rep at h ⊢
  rw [← h]
  apply List.map_congr_left
  intro b hb
  exact deref_release_ne mem a b (fun hc => ha (hc ▸ hb))

theorem rep_dropLast {mem : List (Option (Node T))} {vec : List Nat} {nodes : List (Node T)}
    (h : Rep mem vec nodes) : Rep mem vec.dropLast nodes.dropLast := by
  unfold Rep at h ⊢
  rw [List.map_dropLast, List.map_dropLast, h]

theorem swap_rep {mem : List (Option (Node T))} {vec : List Nat} {nodes : List (Node T)}
    (h : Rep mem vec nodes) (i j : Nat) :
    (∀ n1, MinHeap.swap nodes i j = some n1 →
      ∃ v1, swap vec i j = some v1 ∧ Rep mem v1 n1 ∧ v1.Perm vec ∧
        ∀ k, k ≠ i → k ≠ j → v1[k]? = vec[k]?) ∧
    (MinHeap.swap nodes i j = none → swap vec i j = none) := by
  have hl := rep_length h
  unfold MinHeap.swap swap
  cases hi : vec[i]? with
  | none =>
    have hni : nodes[i]? = none := by
      rw [List.getElem?_eq_none_iff] at hi ⊢; omega
    simp [hni]
  | some a =>
    obtain ⟨na, hna, hda⟩ := rep_get h hi
    cases hj : vec[j]? with
    | none =>
      have hnj : nodes[j]? = none := by
        rw [List.getElem?_eq_none_iff] at hj ⊢; omega
      simp [hna, hnj]
    | some b =>
      obtain ⟨nb, hnb, hdb⟩ := rep_get h hj
      simp only [hna, hnb]
      refine ⟨?_, by simp⟩
      intro n1 hn1
      cases hn1
      refine ⟨_, rfl, rep_set (rep_set h i b nb hdb) j a na hda,
        perm_set_set vec i j a b hi hj, ?_⟩
      intro k hki hkj
      rw [List.getElem?_set_ne (Ne.symm hkj), List.getElem?_set_ne (Ne.symm hki)]

theorem swap_size {vec v1 : List Nat} {i j : Nat} (h : swap vec i j = some v1) :
    v1.length = vec.length := by
  unfold swap at h
  cases hi : vec[i]? with
  | none => simp [hi] at h
  | some a =>
    cases hj : vec[j]? with
    | none => simp [hi, hj] at h
    | some b =>
      simp only [hi, hj] at h
      cases h
      simp

theorem smallestLeft_rep {mem : List (Option (Node T))} {vec : List Nat}
    {nodes : List (Node T)} (h : Rep mem vec nodes) (i : Nat) :
    smallestLeft mem vec i = MinHeap.smallestLeft nodes i := by
  unfold smallestLeft MinHeap.smallestLeft
  rw [rep_size h, rep_slot h, rep_slot h]

theorem smallestRight_rep {mem : List (Option (Node T))} {vec : List Nat}
    {nodes : List (Node T)} (h : Rep mem vec nodes) (i s : Nat) :
    smallestRight mem vec i s = MinHeap.smallestRight nodes i s := by
  unfold smallestRight MinHeap.smallestRight
  rw [rep_size h, rep_slot h, rep_slot h]

/-- `minHeapify` on the pointers does what `minHeapify` on the nodes does. -/
theorem minHeapify_rep (mem : List (Option (Node T))) : ∀ (fuel : Nat) (vec : List Nat)
    (nodes : List (Node T)) (i : Nat), Rep mem vec nodes →
    (∀ n2, MinHeap.minHeapify fuel nodes i = .ok n2 () →
      ∃ v2, minHeapify mem fuel vec i = .ok v2 () ∧ Rep mem v2 n2) ∧
    (MinHeap.minHeapify fuel nodes i = .outOfFuel →
      minHeapify mem fuel vec i = .outOfFuel) ∧
    (MinHeap.minHeapify fuel nodes i = .undefinedBehaviour →
      minHeapify mem fuel vec i = .undefinedBehaviour) := by
  intro fuel
  induction fuel with
  | zero =>
    intro vec nodes i _
    refine ⟨fun n2 h => ?_, fun _ => ?_, fun h => ?_⟩
    · rw [MinHeap.minHeapify] at h; cases h
    · rw [minHeapify]
    · rw [MinHeap.minHeapify] at h; cases h
  | succ fuel ih =>
    intro vec nodes i h
    rw [MinHeap.minHeapify, minHeapify, smallestLeft_rep h]
    cases h1 : MinHeap.smallestLeft nodes i with
    | none => exact ⟨fun n2 hh => by simp at hh, fun hh => by simp at hh, fun _ => rfl⟩
    | some s1 =>
      simp only []
      rw [smallestRight_rep h]
      cases h2 : MinHeap.smallestRight nodes i s1 with
      | none => exact ⟨fun n2 hh => by simp at hh, fun hh => by simp at hh, fun _ => rfl⟩
      | some sm =>
        simp only []
        by_cases c : sm ≠ i
        · simp only [if_pos c]
          obtain ⟨hs1, hs2⟩ := swap_rep h i sm
          cases h3 : MinHeap.swap nodes i sm with
          | none =>
            rw [hs2 h3]
            exact ⟨fun n2 hh => by simp at hh, fun hh => by simp at hh, fun _ => rfl⟩
          | some n1 =>
            obtain ⟨v1, e1, hr1, _⟩ := hs1 n1 h3
            rw [e1]
            exact ih v1 n1 sm hr1
        · simp only [if_neg c]
          refine ⟨fun n2 hh => ?_, fun hh => by simp at hh, fun hh => by simp at hh⟩
          simp at hh
          subst hh
          exact ⟨vec, rfl, h⟩

/-- `minHeapify` started below `size()` permutes the pointers and leaves every slot
from `size()` on as it is. -/
theorem minHeapify_frame (mem : List (Option (Node T))) : ∀ (fuel : Nat) (vec v2 : List Nat)
    (nodes : List (Node T)) (i : Nat), Rep mem vec nodes → i < MinHeap.size vec →
    minHeapify mem fuel vec i = .ok v2 () →
    v2.Perm vec ∧ ∀ k, MinHeap.size vec ≤ k → v2[k]? = vec[k]? := by
  intro fuel
  induction fuel with
  | zero => intro vec v2 nodes i _ _ h; rw [minHeapify] at h; cases h
  | succ fuel ih =>
    intro vec v2 nodes i h hi e
    rw [minHeapify, smallestLeft_rep h] at e
    cases h1 : MinHeap.smallestLeft nodes i with
    | none => simp [h1] at e
    | some s1 =>
      simp only [h1] at e
      rw [smallestRight_rep h] at e
      cases h2 : MinHeap.smallestRight nodes i s1 with
      | none => simp [h2] at e
      | some sm =>
        simp only [h2] at e
        by_cases c : sm ≠ i
        · simp only [if_pos c] at e
          have hsm : sm < MinHeap.size vec := by
            rw [rep_size h]
            rcases MinHeap.smallestRight_shape nodes i s1 sm h2 with rfl | ⟨rfl, hlt⟩
            · rcases MinHeap.smallestLeft_shape nodes i sm h1 with rfl | ⟨rfl, hlt⟩
              · exact absurd rfl c
              · exact hlt
            · exact hlt
          cases h3 : swap vec i sm with
          | none => simp [h3] at e
          | some v1 =>
            simp only [h3] at e
            have hlen := swap_size h3
            have hsz : MinHeap.size v1 = MinHeap.size vec := by
              unfold MinHeap.size; rw [hlen]
            obtain ⟨hs1, hs2⟩ := swap_rep h i sm
            cases h4 : MinHeap.swap nodes i sm with
            | none => rw [hs2 h4] at h3; cases h3
            | some n1 =>
              obtain ⟨v1', e1, hr1, hp1, hfix1⟩ := hs1 n1 h4
              rw [h3] at e1
              cases e1
              obtain ⟨hp2, hfix2⟩ := ih v1 v2 n1 sm hr1 (by rw [hsz]; exact hsm) e
              refine ⟨hp2.trans hp1, fun k hk => ?_⟩
              rw [hfix2 k (by rw [hsz]; exact hk), hfix1 k (by omega) (by omega)]
        · simp only [if_neg c] at e
          cases e
          exact ⟨List.Perm.refl _, fun _ _ => rfl⟩

end HeapStore

section ListFacts

variable {α : Type}

theorem set_slot_self {l : List α} {i : Nat} {a : α} (h : l[i]? = some a) : l.set i a = l := by
  have hi : i < l.length := by
    by_contra hc
    rw [List.getElem?_eq_none (by omega)] at h; simp at h
  apply List.ext_getElem?
  intro k
  by_cases c : k = i
  · subst c; rw [List.getElem?_set_self hi, h]
  · rw [List.getElem?_set_ne (Ne.symm c)]

end ListFacts

namespace MinHeap

variable {T : Type}

theorem minHeapify_leaf (fuel : Nat) (nodes : List (Node T)) (i : Nat)
    (hl : ¬ left i < size nodes) (hr : ¬ right i < size nodes) :
    minHeapify (fuel + 1) nodes i = .ok nodes () := by
  rw [minHeapify]
  unfold smallestLeft
  rw [if_neg hl]
  unfold smallestRight
  simp only [if_neg hr]
  simp

end MinHeap

namespace HeapStore

variable {T : Type}

theorem store_minHeapify_leaf (mem : List (Option (Node T))) (fuel : Nat) (vec : List Nat) (i : Nat)
    (hl : ¬ MinHeap.left i < MinHeap.size vec) (hr : ¬ MinHeap.right i < MinHeap.size vec) :
    minHeapify mem (fuel + 1) vec i = .ok vec () := by
  rw [minHeapify]
  unfold smallestLeft
  rw [if_neg hl]
  unfold smallestRight
  simp only [if_neg hr]
  simp

theorem rep_get_inv {mem : List (Option (Node T))} {vec : List Nat} {nodes : List (Node T)}
    (h : Rep mem vec nodes) {i : Nat} {n : Node T} (hn : nodes[i]? = some n) :
    ∃ a, vec[i]? = some a ∧ deref mem a = some n := by
  have hl := rep_length h
  have hi : i < vec.length := by
    by_contra hc
    rw [List.getElem?_eq_none (by omega)] at hn; simp at hn
  refine ⟨vec[i], by simp [hi], ?_⟩
  obtain ⟨m, hm, hd⟩ := rep_get h (show vec[i]? = some vec[i] by simp [hi])
  rw [hn] at hm
  cases hm
  exact hd

theorem rep_none {mem : List (Option (Node T))} {vec : List Nat} {nodes : List (Node T)}
    (h : Rep mem vec nodes) {i : Nat} (hn : nodes[i]? = none) : vec[i]? = none := by
  have hl := rep_length h
  rw [List.getElem?_eq_none_iff] at hn ⊢
  omega

theorem rep_none_inv {mem : List (Option (Node T))} {vec : List Nat} {nodes : List (Node T)}
    (h : Rep mem vec nodes) {i : Nat} (hn : vec[i]? = none) : nodes[i]? = none := by
  have hl := rep_length h
  rw [List.getElem?_eq_none_iff] at hn ⊢
  omega

/-- `removeMin` on the store does what `removeMin` on the nodes does; it deletes one node
of the heap and touches no node outside it. -/
theorem removeMin_rep (fuel : Nat) (mem : List (Option (Node T))) (vec : List Nat)
    (nodes : List (Node T)) (hrep : Rep mem vec nodes) (hnd : vec.Nodup)
    (hL : vec.length ≤ 4294967296) :
    (∀ nodes1 x, MinHeap.removeMin fuel nodes = .ok nodes1 x →
      ∃ mem1 vec1, removeMin fuel mem vec = .ok (mem1, vec1) x ∧ Rep mem1 vec1 nodes1 ∧
        vec1.Nodup ∧ (∀ a ∈ vec1, a ∈ vec) ∧ ∀ b, b ∉ vec → deref mem1 b = deref mem b) ∧
    (MinHeap.removeMin fuel nodes = .outOfFuel → removeMin fuel mem vec = .outOfFuel) ∧
    (MinHeap.removeMin fuel nodes = .undefinedBehaviour →
      removeMin fuel mem vec = .undefinedBehaviour) ∧
    (∀ e st, MinHeap.removeMin fuel nodes = .thrown e st →
      removeMin fuel mem vec = .thrown e (mem, vec)) := by
  have hlen := rep_length hrep
  unfold MinHeap.removeMin removeMin
  rw [rep_size hrep]
  by_cases c : MinHeap.size nodes = 0
  · simp only [if_pos c]
    refine ⟨fun _ _ hh => by simp at hh, fun hh => by simp at hh, fun hh => by simp at hh, ?_⟩
    intro e st hh
    simp only [Outcome.thrown.injEq] at hh
    rw [hh.1]
  · simp only [if_neg c]
    cases h1 : nodes[1]? with
    | none =>
      rw [rep_none hrep h1]
      exact ⟨fun _ _ hh => by simp at hh, fun hh => by simp at hh, fun _ => rfl,
        fun _ _ hh => by simp at hh⟩
    | some n1 =>
      obtain ⟨a1, ha1, hd1⟩ := rep_get_inv hrep h1
      cases h2 : nodes[MinHeap.size nodes]? with
      | none =>
        rw [ha1, rep_none hrep h2]
        exact ⟨fun _ _ hh => by simp at hh, fun hh => by simp at hh, fun _ => rfl,
          fun _ _ hh => by simp at hh⟩
      | some last =>
        obtain ⟨al, hal, hdl⟩ := rep_get_inv hrep h2
        simp only [ha1, hal, hd1]
        have hlen2 : 2 ≤ nodes.length := by
          by_contra hc
          rw [List.getElem?_eq_none (by omega)] at h1; simp at h1
        have hs := MinHeap.size_eq nodes (by omega) (by omega)
        have hmem1 : a1 ∈ vec := List.getElem?_mem ha1
        have hframe : ∀ b, b ∉ vec → deref (release mem a1) b = deref mem b :=
          fun b hb => deref_release_ne mem a1 b (fun hc => hb (hc ▸ hmem1))
        have hsub : ∀ a ∈ vec.set 1 al, a ∈ vec := by
          intro a ha
          rcases List.mem_or_eq_of_mem_set ha with h | h
          · exact h
          · rw [h]; exact List.getElem?_mem hal
        by_cases c1 : MinHeap.size nodes = 1
        · -- one element: slot 1 is its own last slot
          rw [c1] at h2 hal
          have e1 : vec.set 1 al = vec := by
            rw [ha1] at hal; cases hal
            exact set_slot_self ha1
          have e2 : nodes.set 1 last = nodes := by
            rw [h1] at h2; cases h2
            exact set_slot_self h1
          rw [e1, e2]
          have hsz : MinHeap.size vec = 1 := by rw [rep_size hrep, c1]
          have hl : ¬ MinHeap.left 1 < 1 := by unfold MinHeap.left UINT_MOD; omega
          have hr : ¬ MinHeap.right 1 < 1 := by unfold MinHeap.right UINT_MOD; omega
          cases fuel with
          | zero =>
            rw [MinHeap.minHeapify, minHeapify]
            exact ⟨fun _ _ hh => by simp at hh, fun _ => rfl, fun hh => by simp at hh,
              fun _ _ hh => by simp at hh⟩
          | succ fuel =>
            rw [MinHeap.minHeapify_leaf fuel nodes 1 (by rw [c1]; exact hl) (by rw [c1]; exact hr),
              store_minHeapify_leaf _ fuel vec 1 (by rw [hsz]; exact hl) (by rw [hsz]; exact hr)]
            simp only []
            rw [if_neg (by omega), if_neg (by omega)]
            refine ⟨fun nodes1 x hh => ?_, fun hh => by simp at hh, fun hh => by simp at hh,
              fun _ _ hh => by simp at hh⟩
            simp only [Outcome.ok.injEq] at hh
            obtain ⟨rfl, rfl⟩ := hh
            have hdl : vec.dropLast.Nodup := hnd.sublist (List.dropLast_sublist vec)
            have hnot : a1 ∉ vec.dropLast := by
              intro hc
              obtain ⟨k, hk⟩ := List.mem_iff_getElem?.mp hc
              rw [List.getElem?_dropLast] at hk
              split at hk
              · have := nodup_slot hnd hk ha1
                omega
              · simp at hk
            exact ⟨_, _, rfl, rep_release (rep_dropLast hrep) a1 hnot, hdl,
              fun a ha => List.dropLast_subset vec ha, hframe⟩
        · -- at least two elements: the last pointer is another one than `vec[1]`
          have hne : al ≠ a1 := by
            intro hc
            rw [hc] at hal
            have := nodup_slot hnd hal ha1
            omega
          have hnot : a1 ∉ vec.set 1 al := by
            intro hc
            obtain ⟨k, hk⟩ := List.mem_iff_getElem?.mp hc
            by_cases ck : k = 1
            · subst ck
              rw [List.getElem?_set_self (by omega)] at hk
              cases hk
              exact hne rfl
            · rw [List.getElem?_set_ne (Ne.symm ck)] at hk
              exact ck (nodup_slot hnd hk ha1)
          have hrep1 : Rep (release mem a1) (vec.set 1 al) (nodes.set 1 last) :=
            rep_release (rep_set hrep 1 al last hdl) a1 hnot
          obtain ⟨hok, hout, hub⟩ := minHeapify_rep (release mem a1) fuel (vec.set 1 al)
            (nodes.set 1 last) 1 hrep1
          cases h3 : MinHeap.minHeapify fuel (nodes.set 1 last) 1 with
          | ok n2 u =>
            obtain ⟨v2, e2, hr2⟩ := hok n2 h3
            rw [e2]
            simp only []
            have hl2 := rep_length hr2
            by_cases cl : n2.length = 0
            · rw [if_pos cl, if_pos (by omega)]
              exact ⟨fun _ _ hh => by simp at hh, fun hh => by simp at hh, fun _ => rfl,
                fun _ _ hh => by simp at hh⟩
            · rw [if_neg cl, if_neg (by omega)]
              refine ⟨fun nodes1 x hh => ?_, fun hh => by simp at hh, fun hh => by simp at hh,
                fun _ _ hh => by simp at hh⟩
              simp only [Outcome.ok.injEq] at hh
              obtain ⟨rfl, rfl⟩ := hh
              have hsz1 : MinHeap.size (vec.set 1 al) = vec.length - 1 := by
                unfold MinHeap.size UINT_MOD
                simp only [List.length_set]
                split <;> omega
              obtain ⟨hp2, hfix2⟩ := minHeapify_frame (release mem a1) fuel (vec.set 1 al) v2
                (nodes.set 1 last) 1 hrep1 (by rw [hsz1]; omega) e2
              have hlv2 : v2.length = vec.length := by
                rw [hp2.length_eq]; simp
              have hlast1 : (vec.set 1 al)[(vec.set 1 al).length - 1]? = some al := by
                simp only [List.length_set]
                rw [List.getElem?_set_ne (by omega), hlen, ← hs]
                exact hal
              have hlast2 : v2[v2.length - 1]? = some al := by
                rw [hlv2, hfix2 _ (by rw [hsz1])]
                simpa using hlast1
              have hpd := perm_dropLast_of_last hp2 hlast1 hlast2
              have hvl : vec[vec.length - 1]? = some al := by
                rw [hlen, ← hs]; exact hal
              have hsplit := eq_dropLast_append vec hvl
              have hnd2 : (vec.dropLast ++ [al]).Nodup := by rw [← hsplit]; exact hnd
              have hnd3 : (vec.set 1 al).dropLast.Nodup := by
                rw [dropLast_set]
                apply List.Nodup.set (List.Nodup.of_append_left hnd2)
                intro hc
                exact (List.nodup_append.mp hnd2).2.2 hc (by simp)
              refine ⟨_, _, rfl, rep_dropLast hr2, (hpd.nodup_iff).mpr hnd3, ?_, hframe⟩
              intro a ha
              exact hsub a (hp2.subset (List.dropLast_subset v2 ha))
          | thrown e st => exact absurd h3 (MinHeap.minHeapify_no_throw _ _ _ _ _)
          | undefinedBehaviour =>
            rw [hub h3]
            exact ⟨fun _ _ hh => by simp at hh, fun hh => by simp at hh, fun _ => rfl,
              fun _ _ hh => by simp at hh⟩
          | outOfFuel =>
            rw [hout h3]
            exact ⟨fun _ _ hh => by simp at hh, fun _ => rfl, fun hh => by simp at hh,
              fun _ _ hh => by simp at hh⟩

/-- A sequence of removals on the store does what it does on the nodes and touches no
node outside the heap. -/
theorem removeAll_rep (fuel : Nat) : ∀ (n : Nat) (mem : List (Option (Node T)))
    (vec : List Nat) (nodes : List (Node T)), Rep mem vec nodes → vec.Nodup →
    vec.length ≤ 4294967296 →
    (∀ nodesF out, MinHeap.removeAll fuel n nodes = .ok nodesF out →
      ∃ memF vecF, removeAll fuel n mem vec = .ok (memF, vecF) out ∧ Rep memF vecF nodesF ∧
        ∀ b, b ∉ vec → deref memF b = deref mem b) ∧
    (MinHeap.removeAll fuel n nodes = .outOfFuel → removeAll fuel n mem vec = .outOfFuel) := by
  intro n
  induction n with
  | zero =>
    intro mem vec nodes hrep _ _
    rw [MinHeap.removeAll, removeAll]
    refine ⟨fun nodesF out hh => ?_, fun hh => by simp at hh⟩
    simp only [Outcome.ok.injEq] at hh
    obtain ⟨rfl, rfl⟩ := hh
    exact ⟨mem, vec, rfl, hrep, fun _ _ => rfl⟩
  | succ n ih =>
    intro mem vec nodes hrep hnd hL
    obtain ⟨hok, hout, _, _⟩ := removeMin_rep fuel mem vec nodes hrep hnd hL
    rw [MinHeap.removeAll, removeAll]
    cases h1 : MinHeap.removeMin fuel nodes with
    | ok nodes1 x =>
      obtain ⟨mem1, vec1, e1, hr1, hnd1, hsub1, hfr1⟩ := hok nodes1 x h1
      rw [e1]
      simp only []
      have hl1 : vec1.length ≤ 4294967296 := by
        have := (MinHeap.removeMin_length fuel nodes nodes1 x h1).1
        have := rep_length hr1
        have := rep_length hrep
        omega
      obtain ⟨hok2, hout2⟩ := ih mem1 vec1 nodes1 hr1 hnd1 hl1
      cases h2 : MinHeap.removeAll fuel n nodes1 with
      | ok nodes2 ms =>
        obtain ⟨memF, vecF, e2, hr2, hfr2⟩ := hok2 nodes2 ms h2
        rw [e2]
        refine ⟨fun nodesF out hh => ?_, fun hh => by simp at hh⟩
        simp only [Outcome.ok.injEq] at hh
        obtain ⟨rfl, rfl⟩ := hh
        refine ⟨memF, vecF, rfl, hr2, fun b hb => ?_⟩
        rw [hfr2 b (fun hc => hb (hsub1 b hc)), hfr1 b hb]
      | thrown e st => exact ⟨fun _ _ hh => by simp at hh, fun hh => by simp at hh⟩
      | undefinedBehaviour => exact ⟨fun _ _ hh => by simp at hh, fun hh => by simp at hh⟩
      | outOfFuel =>
        rw [hout2 h2]
        exact ⟨fun _ _ hh => by simp at hh, fun _ => rfl⟩
    | thrown e st => exact ⟨fun _ _ hh => by simp at hh, fun hh => by simp at hh⟩
    | undefinedBehaviour => exact ⟨fun _ _ hh => by simp at hh, fun hh => by simp at hh⟩
    | outOfFuel =>
      rw [hout h1]
      exact ⟨fun _ _ hh => by simp at hh, fun _ => rfl⟩

/-- `copy` allocates one new node per slot, at the fresh addresses that follow the
store, each with the data and key of the node it copies. -/
theorem copy_spec : ∀ (heap : List Nat) (nodes : List (Node T)) (mem : List (Option (Node T)))
    (acc : List Nat), heap.map (deref mem) = nodes.map some →
    copy mem acc heap =
      some (mem ++ nodes.map some, acc ++ List.range' mem.length nodes.length) := by
  intro heap
  induction heap with
  | nil =>
    intro nodes mem acc h
    cases nodes with
    | nil => simp [copy]
    | cons n ns => simp at h
  | cons a rest ih =>
    intro nodes mem acc h
    cases nodes with
    | nil => simp at h
    | cons n ns =>
      simp only [List.map_cons, List.cons.injEq] at h
      obtain ⟨ha, hr⟩ := h
      rw [copy]
      simp only [ha]
      have hr2 : rest.map (deref (mem ++ [some n])) = ns.map some := by
        rw [← hr]
        apply List.map_congr_left
        intro b hb
        have : ∃ m, deref mem b = some m := by
          have hmem : deref mem b ∈ rest.map (deref mem) := List.mem_map_of_mem _ hb
          rw [hr] at hmem
          obtain ⟨m, _, hm⟩ := List.mem_map.mp hmem
          exact ⟨m, hm.symm⟩
        obtain ⟨m, hm⟩ := this
        exact deref_append mem _ b (deref_lt hm)
      have := ih ns (mem ++ [some n]) (acc ++ [mem.length]) hr2
      rw [this]
      simp [List.range'_succ]

theorem rep_copy (mem : List (Option (Node T))) (nodes : List (Node T)) :
    Rep (mem ++ nodes.map some) (List.range' mem.length nodes.length) nodes := by
  unfold Rep
  apply List.ext_getElem?
  intro k
  simp only [List.getElem?_map]
  by_cases c : k < nodes.length
  · have h1 : (List.range' mem.length nodes.length)[k]? = some (mem.length + k) := by
      rw [List.getElem?_range' _ _ c]; simp
    rw [h1]
    simp only [Option.map_some']
    unfold deref
    rw [List.getElem?_append_right (by omega)]
    simp [c]
  · rw [List.getElem?_eq_none (by simpa using c), List.getElem?_eq_none (by simpa using c)]
    rfl

theorem rep_append {mem : List (Option (Node T))} {vec : List Nat} {nodes : List (Node T)}
    (h : Rep mem vec nodes) (l : List (Option (Node T))) : Rep (mem ++ l) vec nodes := by
  unfold Rep at h ⊢
  rw [← h]
  apply List.map_congr_left
  intro b hb
  have hmem : deref mem b ∈ vec.map (deref mem) := List.mem_map_of_mem _ hb
  rw [h] at hmem
  obtain ⟨m, _, hm⟩ := List.mem_map.mp hmem
  exact deref_append mem l b (deref_lt hm.symm)

theorem rep_bound {mem : List (Option (Node T))} {vec : List Nat} {nodes : List (Node T)}
    (h : Rep mem vec nodes) : ∀ a ∈ vec, a < mem.length := by
  intro b hb
  have hmem : deref mem b ∈ vec.map (deref mem) := List.mem_map_of_mem _ hb
  rw [h] at hmem
  obtain ⟨m, _, hm⟩ := List.mem_map.mp hmem
  exact deref_lt hm.symm

theorem rep_congr {mem mem2 : List (Option (Node T))} {vec : List Nat} {nodes : List (Node T)}
    (h : Rep mem vec nodes) (hf : ∀ b ∈ vec, deref mem2 b = deref mem b) :
    Rep mem2 vec nodes := by
  unfold Rep at h ⊢
  rw [← h]
  exact List.map_congr_left hf

theorem decreaseLoop_rep (mem : List (Option (Node T))) : ∀ (fuel : Nat) (vec : List Nat)
    (nodes : List (Node T)) (i : Nat), Rep mem vec nodes →
    ∀ n2, MinHeap.decreaseLoop fuel nodes i = .ok n2 () →
      ∃ v2, decreaseLoop mem fuel vec i = .ok v2 () ∧ Rep mem v2 n2 ∧ v2.Perm vec := by
  intro fuel
  induction fuel with
  | zero => intro vec nodes i _ n2 h; rw [MinHeap.decreaseLoop] at h; cases h
  | succ fuel ih =>
    intro vec nodes i h n2 e
    rw [MinHeap.decreaseLoop] at e
    rw [decreaseLoop]
    by_cases c : 1 < i
    · simp only [if_pos c] at e ⊢
      rw [rep_slot h, rep_slot h]
      cases h1 : nodes[MinHeap.parent i]? with
      | none => simp [h1] at e
      | some np =>
        cases h2 : nodes[i]? with
        | none => simp [h1, h2] at e
        | some ni =>
          simp only [h1, h2] at e ⊢
          by_cases k : np.key > ni.key
          · simp only [if_pos k] at e ⊢
            obtain ⟨hs1, hs2⟩ := swap_rep h i (MinHeap.parent i)
            cases h3 : MinHeap.swap nodes i (MinHeap.parent i) with
            | none => simp [h3] at e
            | some n1 =>
              simp only [h3] at e
              obtain ⟨v1, e1, hr1, hp1, _⟩ := hs1 n1 h3
              rw [e1]
              simp only []
              obtain ⟨v2, e2, hr2, hp2⟩ := ih v1 n1 _ hr1 n2 e
              exact ⟨v2, e2, hr2, hp2.trans hp1⟩
          · simp only [if_neg k] at e ⊢
            cases e
            exact ⟨vec, rfl, h, List.Perm.refl _⟩
    · simp only [if_neg c] at e ⊢
      cases e
      exact ⟨vec, rfl, h, List.Perm.refl _⟩

theorem deref_set_self (mem : List (Option (Node T))) (a : Nat) (n : Node T)
    (h : a < mem.length) : deref (mem.set a (some n)) a = some n := by
  unfold deref
  rw [List.getElem?_set_self h]

theorem deref_set_ne (mem : List (Option (Node T))) (a b : Nat) (n : Node T) (h : b ≠ a) :
    deref (mem.set a (some n)) b = deref mem b := by
  unfold deref
  rw [List.getElem?_set_ne (Ne.symm h)]

/-- Writing into the node of slot `i` changes that slot only: no other slot points to
the same node. -/
theorem rep_update {mem : List (Option (Node T))} {vec : List Nat} {nodes : List (Node T)}
    (h : Rep mem vec nodes) (hnd : vec.Nodup) (i a : Nat) (n : Node T)
    (ha : vec[i]? = some a) :
    Rep (mem.set a (some n)) vec (nodes.set i n) := by
  have hl := rep_length h
  have hb := rep_bound h a (List.getElem?_mem ha)
  unfold Rep
  apply List.ext_getElem?
  intro k
  simp only [List.getElem?_map]
  by_cases c : k = i
  · subst c
    have hk : k < nodes.length := by
      by_contra hc
      rw [List.getElem?_eq_none (by omega)] at ha; simp at ha
    rw [ha, List.getElem?_set_self hk]
    simp [deref_set_self mem a n hb]
  · rw [List.getElem?_set_ne (Ne.symm c)]
    cases hv : vec[k]? with
    | none => rw [rep_none_inv h hv]; rfl
    | some b =>
      obtain ⟨m, hm, hd⟩ := rep_get h hv
      have hne : b ≠ a := by
        intro hc
        rw [hc] at hv
        exact c (nodup_slot hnd hv ha)
      simp [hm, deref_set_ne mem a b n hne, hd]

theorem heapDecreaseKey_rep {mem : List (Option (Node T))} {vec : List Nat}
    {nodes : List (Node T)} (h : Rep mem vec nodes) (hnd : vec.Nodup) (i : Nat) (key : Int)
    (n2 : List (Node T)) (e : MinHeap.heapDecreaseKey nodes i key = .ok n2 ()) :
    ∃ mem1 vec1, heapDecreaseKey mem vec i key = .ok (mem1, vec1) () ∧ Rep mem1 vec1 n2 ∧
      vec1.Nodup := by
  unfold MinHeap.heapDecreaseKey at e
  unfold heapDecreaseKey
  cases h1 : nodes[i]? with
  | none => simp [h1] at e
  | some ni =>
    simp only [h1] at e
    obtain ⟨a, ha, hd⟩ := rep_get_inv h h1
    simp only [ha, hd]
    by_cases k : key > ni.key
    · simp [if_pos k] at e
    · simp only [if_neg k] at e ⊢
      have hr := rep_update h hnd i a ⟨ni.data, key⟩ ha
      obtain ⟨v2, e2, hr2, hp2⟩ := decreaseLoop_rep _ (i + 1) vec _ i hr n2 e
      rw [e2]
      exact ⟨_, _, rfl, hr2, (hp2.nodup_iff).mpr hnd⟩

theorem insert_rep {mem : List (Option (Node T))} {vec : List Nat} {nodes : List (Node T)}
    (h : Rep mem vec nodes) (hnd : vec.Nodup) (val : T) (key : Int) (n2 : List (Node T))
    (e : MinHeap.insert nodes val key = .ok n2 ()) :
    ∃ mem1 vec1, insert mem vec val key = .ok (mem1, vec1) () ∧ Rep mem1 vec1 n2 ∧
      vec1.Nodup := by
  have hl := rep_length h
  have hb := rep_bound h
  have hr : Rep (mem ++ [some ⟨val, INT_MAX⟩]) (vec ++ [mem.length])
      (nodes ++ [⟨val, INT_MAX⟩]) := by
    have h1 := rep_append h [some (⟨val, INT_MAX⟩ : Node T)]
    unfold Rep at h1 ⊢
    rw [List.map_append, List.map_append, h1]
    simp [deref]
  have hnd2 : (vec ++ [mem.length]).Nodup := by
    rw [List.nodup_append]
    refine ⟨hnd, by simp, ?_⟩
    intro a ha hc
    simp at hc
    have := hb a ha
    omega
  unfold MinHeap.insert at e
  unfold insert
  have hs : MinHeap.size (vec ++ [mem.length]) =
      MinHeap.size (nodes ++ [(⟨val, INT_MAX⟩ : Node T)]) := by
    unfold MinHeap.size; simp [hl]
  rw [hs]
  exact heapDecreaseKey_rep hr hnd2 _ key n2 e

/-- A reachable heap on the store of at most `2^31` elements: its pointers are pairwise
different and refer to live nodes, which form a reachable heap. -/
theorem reachable_rep {mem : List (Option (Node T))} {vec : List Nat}
    (h : ReachableCapped mem vec) :
    ∃ nodes, MinHeap.ReachableCapped nodes ∧ Rep mem vec nodes ∧ vec.Nodup := by
  induction h with
  | init mem p =>
    refine ⟨MinHeap.new p, MinHeap.ReachableCapped.init p, ?_, by simp [construct]⟩
    unfold Rep construct
    simp [MinHeap.new, deref]
  | afterInsert mem mem1 vec vec1 val key _ hcap hk1 hk2 e ih =>
    obtain ⟨nodes, hr, hrep, hnd⟩ := ih
    have hl := rep_length hrep
    obtain ⟨h1, hL, _⟩ := MinHeap.reachable_inv hr
    obtain ⟨n2, e2, _⟩ := MinHeap.insert_spec nodes val key h1 (by omega) hk2
    obtain ⟨m', v', e3, hr3, hnd3⟩ := insert_rep hrep hnd val key n2 e2
    rw [e] at e3
    simp only [Outcome.ok.injEq, Prod.mk.injEq, and_true] at e3
    obtain ⟨rfl, rfl⟩ := e3
    exact ⟨n2, MinHeap.ReachableCapped.afterInsert nodes n2 val key hr (by omega) hk1 hk2 e2,
      hr3, hnd3⟩
  | afterRemoveMin fuel mem mem1 vec vec1 x _ e ih =>
    obtain ⟨nodes, hr, hrep, hnd⟩ := ih
    have hl := rep_length hrep
    obtain ⟨h1, hL, _⟩ := MinHeap.reachable_inv hr
    obtain ⟨hok, hout, hub, hth⟩ := removeMin_rep fuel mem vec nodes hrep hnd (by omega)
    cases hv : MinHeap.removeMin fuel nodes with
    | ok nodes1 y =>
      obtain ⟨m', v', e3, hr3, hnd3, _⟩ := hok nodes1 y hv
      rw [e] at e3
      simp only [Outcome.ok.injEq, Prod.mk.injEq] at e3
      obtain ⟨⟨rfl, rfl⟩, rfl⟩ := e3
      exact ⟨nodes1, MinHeap.ReachableCapped.afterRemoveMin fuel nodes nodes1 x hr hv, hr3, hnd3⟩
    | thrown ex st => rw [hth ex st hv] at e; cases e
    | undefinedBehaviour => rw [hub hv] at e; cases e
    | outOfFuel => rw [hout hv] at e; cases e

theorem insertAll_reachable : ∀ (pairs : List (T × Int)) (nodes : List (Node T))
    (mem : List (Option (Node T))) (vec : List Nat), ReachableCapped mem vec →
    Rep mem vec nodes → vec.Nodup → MinHeap.ReachableCapped nodes →
    nodes.length + pairs.length ≤ 2147483649 →
    (∀ p ∈ pairs, INT_MIN ≤ p.2 ∧ p.2 ≤ INT_MAX) →
    ∃ memF vecF, insertAll mem vec pairs = .ok (memF, vecF) () ∧
      ReachableCapped memF vecF := by
  intro pairs
  induction pairs with
  | nil => intro nodes mem vec hr _ _ _ _ _; exact ⟨mem, vec, rfl, hr⟩
  | cons p rest ih =>
    intro nodes mem vec hr hrep hnd hrn hL hk
    simp only [List.length_cons] at hL
    have hl := rep_length hrep
    obtain ⟨h1, _, _⟩ := MinHeap.reachable_inv hrn
    have hkp := hk p (List.mem_cons_self _ _)
    obtain ⟨n2, e2, hl2, _⟩ := MinHeap.insert_spec nodes p.1 p.2 h1 (by omega) hkp.2
    obtain ⟨m1, v1, e3, hr3, hnd3⟩ := insert_rep hrep hnd p.1 p.2 n2 e2
    have hr1 : ReachableCapped m1 v1 :=
      ReachableCapped.afterInsert mem m1 vec v1 p.1 p.2 hr (by omega) hkp.1 hkp.2 e3
    have hrn1 : MinHeap.ReachableCapped n2 :=
      MinHeap.ReachableCapped.afterInsert nodes n2 p.1 p.2 hrn (by omega) hkp.1 hkp.2 e2
    obtain ⟨mF, vF, eF, hrF⟩ := ih n2 m1 v1 hr1 hr3 hnd3 hrn1 (by omega)
      (fun q hq => hk q (List.mem_cons_of_mem _ hq))
    refine ⟨mF, vF, ?_, hrF⟩
    rw [insertAll, e3]
    exact eF

/-- Whatever `insert` calls build on the nodes, they build on the store. -/
theorem reachable_exists_of_insertAll : ∀ (pairs : List (T × Int))
    (nodes nodesF : List (Node T)) (mem : List (Option (Node T))) (vec : List Nat),
    Reachable mem vec → Rep mem vec nodes → vec.Nodup →
    (∀ p ∈ pairs, INT_MIN ≤ p.2 ∧ p.2 ≤ INT_MAX) →
    MinHeap.insertAll nodes pairs = .ok nodesF () →
    ∃ memF vecF, Reachable memF vecF ∧ Rep memF vecF nodesF ∧ vecF.Nodup := by
  intro pairs
  induction pairs with
  | nil =>
    intro nodes nodesF mem vec hr hrep hnd _ e
    rw [MinHeap.insertAll] at e
    cases e
    exact ⟨mem, vec, hr, hrep, hnd⟩
  | cons p rest ih =>
    intro nodes nodesF mem vec hr hrep hnd hk e
    rw [MinHeap.insertAll] at e
    have hkp := hk p (List.mem_cons_self _ _)
    cases h1 : MinHeap.insert nodes p.1 p.2 with
    | ok n2 u =>
      rw [h1] at e
      simp only [] at e
      obtain ⟨m1, v1, e3, hr3, hnd3⟩ := insert_rep hrep hnd p.1 p.2 n2 h1
      exact ih n2 nodesF m1 v1
        (Reachable.afterInsert mem m1 vec v1 p.1 p.2 hr hkp.1 hkp.2 e3) hr3 hnd3
        (fun q hq => hk q (List.mem_cons_of_mem _ hq)) e
    | thrown ex st => rw [h1] at e; cases e
    | undefinedBehaviour => rw [h1] at e; cases e
    | outOfFuel => rw [h1] at e; cases e

theorem fresh_not_mem {mem : List (Option (Node T))} {vec : List Nat} {nodes : List (Node T)}
    (h : Rep mem vec nodes) (n : Nat) : ∀ a ∈ List.range' mem.length n, a ∉ vec := by
  intro a ha hc
  have h1 := rep_bound h a hc
  rw [List.mem_range'_1] at ha
  omega

/-- The copy of a heap-ordered heap of at most `2^31 + 1` slots whose pointers are pairwise
different and live: new nodes, the same node values in every slot, and removals from
either heap that leave the other as it was. -/
theorem copy_independent (fuel : Nat) (mem : List (Option (Node T))) (vec : List Nat)
    (nodes : List (Node T)) (hrep : Rep mem vec nodes) (hnd : vec.Nodup)
    (h1 : 1 ≤ nodes.length) (hL : nodes.length ≤ 2147483649)
    (hord : MinHeap.HeapOrd nodes nodes.length) (hfuel : MinHeap.size vec ≤ fuel) :
    ∃ mem1 vec1 out, copyConstruct mem vec = some (mem1, vec1) ∧
      MinHeap.size vec1 = MinHeap.size vec ∧
      (∀ a ∈ vec1, a ∉ vec) ∧
      (∀ i, i < vec.length → ∃ n, nodeAt mem vec i = some n ∧ nodeAt mem1 vec i = some n ∧
        nodeAt mem1 vec1 i = some n) ∧
      out.length = MinHeap.size vec ∧
      (∃ memA vecA, removeAll fuel (MinHeap.size vec) mem1 vec = .ok (memA, vecA) out ∧
        MinHeap.size vecA = 0 ∧
        ∃ memB vecB, removeAll fuel (MinHeap.size vec1) memA vec1 = .ok (memB, vecB) out ∧
          MinHeap.size vecB = 0) ∧
      (∃ memA vecA, removeAll fuel (MinHeap.size vec1) mem1 vec1 = .ok (memA, vecA) out ∧
        MinHeap.size vecA = 0 ∧
        ∃ memB vecB, removeAll fuel (MinHeap.size vec) memA vec = .ok (memB, vecB) out ∧
          MinHeap.size vecB = 0) := by
  have hl := rep_length hrep
  have hsn := MinHeap.size_eq nodes h1 (by omega)
  have hsv : MinHeap.size vec = nodes.length - 1 := by rw [rep_size hrep]; exact hsn
  have hc := copy_spec vec nodes mem [] hrep
  rw [List.nil_append] at hc
  have hrep1 : Rep (mem ++ nodes.map some) vec nodes := rep_append hrep _
  have hrep2 : Rep (mem ++ nodes.map some) (List.range' mem.length nodes.length) nodes :=
    rep_copy mem nodes
  have hsv2 : MinHeap.size (List.range' mem.length nodes.length) = MinHeap.size vec := by
    rw [rep_size hrep2, rep_size hrep]
  have hnd2 : (List.range' mem.length nodes.length).Nodup := List.nodup_range' _ _
  have hfresh := fresh_not_mem hrep nodes.length
  have hfresh2 : ∀ a ∈ vec, a ∉ List.range' mem.length nodes.length :=
    fun a ha hc => hfresh a hc ha
  obtain ⟨ns, e, hp, _⟩ := MinHeap.removeAll_spec fuel (nodes.length - 1) nodes (by omega) hL
    (by omega) hord
  have hsz : ∀ {m : List (Option (Node T))} {v : List Nat}, Rep m v (nodes.take 1) →
      MinHeap.size v = 0 := by
    intro m v h
    have hv := rep_length h
    rw [List.length_take] at hv
    have hv1 : v.length = 1 := by omega
    unfold MinHeap.size
    rw [hv1]
    rfl
  refine ⟨_, _, ns.map Node.data, hc, hsv2, hfresh, ?_, ?_, ?_, ?_⟩
  · intro i hi
    obtain ⟨n, hn⟩ := MinHeap.slot_of_lt nodes i (by omega)
    exact ⟨n, by rw [rep_slot hrep, hn], by rw [rep_slot hrep1, hn],
      by rw [rep_slot hrep2, hn]⟩
  · rw [List.length_map, hp.length_eq, List.length_tail, hsv]
  · rw [hsv2, hsv]
    obtain ⟨hokA, _⟩ := removeAll_rep fuel (nodes.length - 1) _ vec nodes hrep1 hnd (by omega)
    obtain ⟨memA, vecA, eA, hrA, hfA⟩ := hokA _ _ e
    have hrep2A : Rep memA (List.range' mem.length nodes.length) nodes :=
      rep_congr hrep2 (fun b hb => hfA b (hfresh b hb))
    obtain ⟨hokB, _⟩ := removeAll_rep fuel (nodes.length - 1) memA _ nodes hrep2A hnd2
      (by rw [rep_length hrep2]; omega)
    obtain ⟨memB, vecB, eB, hrB, _⟩ := hokB _ _ e
    exact ⟨memA, vecA, eA, hsz hrA, memB, vecB, eB, hsz hrB⟩
  · rw [hsv2, hsv]
    obtain ⟨hokA, _⟩ := removeAll_rep fuel (nodes.length - 1) _ _ nodes hrep2 hnd2
      (by rw [rep_length hrep2]; omega)
    obtain ⟨memA, vecA, eA, hrA, hfA⟩ := hokA _ _ e
    have hrep1A : Rep memA vec nodes :=
      rep_congr hrep1 (fun b hb => hfA b (hfresh2 b hb))
    obtain ⟨hokB, _⟩ := removeAll_rep fuel (nodes.length - 1) memA vec nodes hrep1A hnd
      (by omega)
    obtain ⟨memB, vecB, eB, hrB, _⟩ := hokB _ _ e
    exact ⟨memA, vecA, eA, hsz hrA, memB, vecB, eB, hsz hrB⟩

/-- The copy of a heap whose first removal never returns: the first removal from the
copy never returns either. -/
theorem copy_diverges (mem : List (Option (Node T))) (vec : List Nat)
    (nodes : List (Node T)) (hrep : Rep mem vec nodes) (hL : nodes.length ≤ 4294967296)
    (hdiv : ∀ fuel, MinHeap.removeMin fuel nodes = .outOfFuel) :
    ∃ mem1 vec1, copyConstruct mem vec = some (mem1, vec1) ∧
      MinHeap.size vec1 = MinHeap.size vec ∧
      ∀ fuel, removeMin fuel mem1 vec1 = .outOfFuel := by
  have hc := copy_spec vec nodes mem [] hrep
  rw [List.nil_append] at hc
  have hrep2 : Rep (mem ++ nodes.map some) (List.range' mem.length nodes.length) nodes :=
    rep_copy mem nodes
  refine ⟨_, _, hc, by rw [rep_size hrep2, rep_size hrep], ?_⟩
  intro fuel
  obtain ⟨_, hout, _⟩ := removeMin_rep fuel _ _ nodes hrep2 (List.nodup_range' _ _)
    (by rw [rep_length hrep2]; exact hL)
  exact hout (hdiv fuel)

end HeapStore

namespace MinHeap

variable {T : Type}

theorem removeMin_ok_data (fuel : Nat) (v v1 : List (Node T)) (x : T)
    (h : removeMin fuel v = .ok v1 x) : ∃ n1, v[1]? = some n1 ∧ x = n1.data := by
  unfold removeMin at h
  by_cases c : size v = 0
  · simp [c] at h
  · simp only [if_neg c] at h
    cases h1 : v[1]? with
    | none => simp [h1] at h
    | some n1 =>
      cases h2 : v[size v]? with
      | none => simp [h1, h2] at h
      | some last =>
        simp only [h1, h2] at h
        cases hm : minHeapify fuel (v.set 1 last) 1 with
        | ok v2 u =>
          simp only [hm] at h
          by_cases l : v2.length = 0
          · simp [l] at h
          · simp only [if_neg l] at h
            cases h
            exact ⟨n1, rfl, rfl⟩
        | thrown e st => simp [hm] at h
        | undefinedBehaviour => simp [hm] at h
        | outOfFuel => simp [hm] at h

theorem flat_length (p x y : Node T) (n : Nat) :
    (p :: (List.replicate n x ++ [y])).length = n + 2 := by
  simp

theorem flat_size (p x y : Node T) (n : Nat) (hn : n + 2 ≤ 4294967296) :
    size (p :: (List.replicate n x ++ [y])) = n + 1 := by
  rw [size_eq _ (by rw [flat_length]; omega) (by rw [flat_length]; omega), flat_length]
  omega

theorem size_lt {α : Type} (vec : List α) : size vec < 4294967296 := by
  unfold size UINT_MOD
  split <;> omega

theorem slot_ne_of_keyAt_ne {vec v1 : List (Node T)} {a b : Nat}
    (h : keyAt v1 a ≠ keyAt vec b) : v1[a]? ≠ vec[b]? :=
  fun hc => h (keyAt_congr hc)

theorem not_inSubtree_of_lt {i k : Nat} (h : k < i) : ¬ InSubtree i k := by
  intro hc
  have := hc.le
  omega

theorem wrapArray_length : wrapArray.length = 2147483649 :=
  range_heap_length ⟨0, 0⟩ wrapKey 2147483648

theorem wrapArray_keys (j : Nat) :
    keyAt wrapArray j = if j = 0 then 0 else if j ≤ 2147483648 then wrapKey j else 0 :=
  keyAt_range ⟨0, 0⟩ wrapKey 2147483648 j

theorem wrapArray_size : size wrapArray = 2147483648 := by
  rw [size_eq wrapArray (by rw [wrapArray_length]; omega) (by rw [wrapArray_length]; omega),
    wrapArray_length]

/-- The slots of `wrapArray` below `size()` are heap-ordered, the placeholder
included. -/
theorem wrapArray_ordered :
    ∀ j, 1 ≤ j → j < size wrapArray → keyAt wrapArray (j / 2) ≤ keyAt wrapArray j := by
  intro j h1 hj
  rw [wrapArray_size] at hj
  rw [wrapArray_keys, wrapArray_keys]
  unfold wrapKey
  split_ifs <;> omega

/-- What `minHeapify(2^31)` does on `wrapArray`. -/
theorem wrapArray_minHeapify :
    ∃ v2, minHeapify 3 wrapArray 2147483648 = .ok v2 () ∧ v2[1]? ≠ wrapArray[1]? ∧
      v2[0]? ≠ wrapArray[0]? := by
  have k0 : keyAt wrapArray 0 = 0 := by rw [wrapArray_keys]; rfl
  have k1 : keyAt wrapArray 1 = 1 := by rw [wrapArray_keys]; rfl
  have k2 : keyAt wrapArray 2 = 9 := by rw [wrapArray_keys]; rfl
  have k3 : keyAt wrapArray 3 = 9 := by rw [wrapArray_keys]; rfl
  have kn : keyAt wrapArray 2147483648 = 5 := by rw [wrapArray_keys]; rfl
  obtain ⟨v2, e, _, h1, h0⟩ := wrap_minHeapify wrapArray wrapArray_length kn k0 k1 k2 k3
  refine ⟨v2, e 0, ?_, ?_⟩
  · apply slot_ne_of_keyAt_ne
    rw [keyAt_congr h1, kn, k1]
    decide
  · apply slot_ne_of_keyAt_ne
    rw [keyAt_congr h0, k1, k0]
    decide

theorem flatHeap_size : size flatHeap = 2147483649 :=
  flat_size highPlaceholder ⟨"a", 0⟩ ⟨"b", 5⟩ 2147483648 (by omega)

theorem flatHeap_length : flatHeap.length = 2147483650 :=
  flat_length highPlaceholder ⟨"a", 0⟩ ⟨"b", 5⟩ 2147483648

theorem flatHeap_spec_removeMin : ∃ arr2 r, specRemoveMin 32 flatHeap = .ok arr2 r :=
  flat_spec_removeMin_returns highPlaceholder ⟨"a", 0⟩ ⟨"b", 5⟩ (by decide) 2147483648 rfl

theorem flatHeap_reads_zero : 0 ∈ removeMinAccesses 32 flatHeap :=
  flat_removeMin_reads_zero highPlaceholder ⟨"a", 0⟩ ⟨"b", 5⟩ (by decide) (by decide)
    2147483648 rfl

theorem fullPairs_int : ∀ p ∈ fullPairs, INT_MIN ≤ p.2 ∧ p.2 ≤ INT_MAX := by
  intro p hp
  unfold fullPairs at hp
  rw [List.mem_append, List.mem_replicate, List.mem_singleton] at hp
  rcases hp with ⟨_, rfl⟩ | rfl <;> decide

theorem fullPairs_insertAll :
    insertAll (MinHeap.new testPlaceholder) fullPairs = .ok fullHeap () :=
  flat_insertAll testPlaceholder "a" "b" 0 5 4294967294 (by omega) (by omega) (by decide)

theorem fullHeap_reachable : Reachable fullHeap :=
  reachable_of_insertAll fullPairs (MinHeap.new testPlaceholder) fullHeap
    (Reachable.init _) fullPairs_int fullPairs_insertAll

theorem fullHeap_length : fullHeap.length = 4294967296 :=
  flat_length testPlaceholder ⟨"a", 0⟩ ⟨"b", 5⟩ 4294967294

theorem fullHeap_size : size fullHeap = 4294967295 :=
  flat_size testPlaceholder ⟨"a", 0⟩ ⟨"b", 5⟩ 4294967294 (by omega)

theorem fullHeap_head : fullHeap[0]? = some testPlaceholder := cons_head _ _

end MinHeap

namespace IntMinHeap

theorem flatInts_int : ∀ x ∈ flatInts, INT_MIN ≤ x ∧ x ≤ INT_MAX := by
  intro x hx
  unfold flatInts at hx
  rw [List.mem_append, List.mem_replicate, List.mem_singleton] at hx
  rcases hx with ⟨_, rfl⟩ | rfl <;> decide

theorem flatInts_length : flatInts.length = 2147483649 := by
  unfold flatInts
  rw [List.length_append, List.length_replicate]
  rfl

theorem spineOps_int (n : Nat) : valuesInRange (spineOps n) := by
  have hxs : (List.range n).map (fun j => Op.insert (MinHeap.spineKey (j + 1))) =
      ((List.range n).map (fun j => MinHeap.spineKey (j + 1))).map Op.insert := by
    simp [Function.comp_def]
  unfold spineOps
  rw [hxs]
  apply valuesInRange_inserts
  · intro x hx
    simp at hx
    obtain ⟨a, _, rfl⟩ := hx
    exact MinHeap.spineKey_int _
  · trivial

theorem spineOps_differ (n : Nat) (hn : n = 2147483649) (p : Node Int) (hp : p.key < 0)
    (fuel : Nat) (hf : 35 ≤ fuel) :
    (MinHeap.trace fuel ((spineOps n).map toGeneric) (MinHeap.new p)).map
        (readRecord Node.key) ≠ trace fuel (spineOps n) new :=
  spine_traces_differ n hn p hp fuel hf

theorem spineOps_part (n : Nat) (hn : n = 2147483649) (p : Node Int) (hp : p.key < 0)
    (fuel : Nat) (hf : 35 ≤ fuel) :
    valuesInRange (spineOps n) ∧
      (MinHeap.trace fuel ((spineOps n).map toGeneric) (MinHeap.new p)).map
        (readRecord Node.key) ≠ trace fuel (spineOps n) new :=
  ⟨spineOps_int n, spineOps_differ n hn p hp fuel hf⟩

end IntMinHeap

namespace HeapStore

theorem testStore_insertAll :
    insertAll (construct [] MinHeap.testPlaceholder).1 (construct [] MinHeap.testPlaceholder).2
      MinHeap.testPairs = .ok (testStore, testVec) () := by
  decide

theorem testStore_reachable : ReachableCapped testStore testVec := by
  obtain ⟨memF, vecF, e, hr⟩ := insertAll_reachable MinHeap.testPairs
    (MinHeap.new MinHeap.testPlaceholder) (construct [] MinHeap.testPlaceholder).1
    (construct [] MinHeap.testPlaceholder).2 (ReachableCapped.init [] MinHeap.testPlaceholder)
    (by unfold Rep; decide) (by decide) (MinHeap.ReachableCapped.init _) (by decide) (by decide)
  rw [testStore_insertAll] at e
  simp only [Outcome.ok.injEq, Prod.mk.injEq, and_true] at e
  obtain ⟨rfl, rfl⟩ := e
  exact hr

theorem testStore_rep : Rep testStore testVec MinHeap.testHeap := by
  unfold Rep; decide

end HeapStore

namespace MinHeap

variable {T : Type}

theorem removeMin_size (fuel : Nat) (v v1 : List (Node T)) (x : T)
    (h : removeMin fuel v = .ok v1 x) : size v1 + 1 = size v := by
  obtain ⟨hl, hs⟩ := removeMin_length fuel v v1 x h
  unfold size UINT_MOD at hs ⊢
  split_ifs at hs ⊢ <;> omega

theorem insert_size (vec v1 : List (Node T)) (val : T) (key : Int) (h1 : 1 ≤ vec.length)
    (hL : vec.length < 4294967296) (e : MinHeap.insert vec val key = .ok v1 ()) :
    size v1 = size vec + 1 := by
  have hl := insert_length vec v1 val key e
  rw [size_eq vec h1 (by omega), size_eq v1 (by omega) (by omega)]
  omega

/-- Size accounting of a run on a new heap with fewer than `2^32` inserts. -/
theorem run_new_accounting (fuel : Nat) (placeholder : Node T) (ops : List (Op T))
    (hkeys : keysInRange ops) (hcap : countInsertOps ops < 4294967296)
    (vec : List (Node T)) (events : List (Event T))
    (e : run fuel ops (MinHeap.new placeholder) = some (vec, events)) :
    countInserted events = countInsertOps ops ∧
      size vec + countRemoved events = countInserted events ∧
      (isEmpty vec = true ↔ countInserted events - countRemoved events = 0) := by
  have h0 : (MinHeap.new placeholder).length = 1 := rfl
  obtain ⟨hc, hl, h1⟩ := run_accounting fuel ops (MinHeap.new placeholder) vec events
    (by rw [h0]) (by rw [h0]; omega) hkeys e
  rw [h0] at hl
  have hs := size_eq vec h1 (by omega)
  refine ⟨hc, by omega, ?_⟩
  simp only [isEmpty, beq_iff_eq]
  omega

theorem flatPairs_count : flatPairs.length = 2147483649 := flatPairs_length

end MinHeap

namespace HeapStore

variable {T : Type}

theorem rep_construct (mem : List (Option (Node T))) (placeholder : Node T) :
    Rep (construct mem placeholder).1 (construct mem placeholder).2
      (MinHeap.new placeholder) := by
  unfold Rep construct
  simp [MinHeap.new, deref]

theorem nodup_construct (mem : List (Option (Node T))) (placeholder : Node T) :
    (construct mem placeholder).2.Nodup := by
  simp [construct]

end HeapStore

namespace MinHeap

variable {T : Type}

/-- On slot 0 or 1 the loop of `heapDecreaseKey` does not run: the call only writes the
key. -/
theorem heapDecreaseKey_root (vec : List (Node T)) (i : Nat) (key : Int) (ni : Node T)
    (hi : i ≤ 1) (hni : vec[i]? = some ni) (hk : key ≤ ni.key) :
    heapDecreaseKey vec i key = .ok (vec.set i ⟨ni.data, key⟩) () := by
  unfold heapDecreaseKey
  rw [hni]
  simp only []
  rw [if_neg (by omega), decreaseLoop, if_neg (by omega)]

theorem size_wrapped_one {α : Type} (v : List α) (h : v.length = 4294967298) : size v = 1 := by
  unfold size UINT_MOD
  rw [h]
  rfl

/-- Two more inserts into a vector of `2^32` slots both return: for the first `size()`
is 0 and the key goes into the placeholder, for the second `size()` is 1 and the key
goes into slot 1. The vector then has `2^32 + 2` slots. -/
theorem insert_twice_wrapped (vec : List (Node T)) (p : Node T)
    (hlen : vec.length = 4294967296) (h0 : vec[0]? = some p) (val1 val2 : T) (k1 k2 : Int)
    (hk1 : k1 ≤ p.key) (hk2 : k2 ≤ keyAt vec 1) :
    ∃ v2, insertAll vec [(val1, k1), (val2, k2)] = .ok v2 () ∧ v2.length = 4294967298 := by
  have e1 : insert vec val1 k1 =
      .ok ((vec ++ [(⟨val1, INT_MAX⟩ : Node T)]).set 0 ⟨p.data, k1⟩) () := by
    unfold insert
    rw [size_wrapped _ (by simp [hlen])]
    exact heapDecreaseKey_root _ 0 k1 p (by omega)
      (by rw [List.getElem?_append_left (by omega)]; exact h0) hk1
  obtain ⟨n, hn⟩ := slot_of_lt vec 1 (by omega)
  have hl1 : ((vec ++ [(⟨val1, INT_MAX⟩ : Node T)]).set 0 ⟨p.data, k1⟩).length = 4294967297 := by
    simp [hlen]
  have hn1 : (((vec ++ [(⟨val1, INT_MAX⟩ : Node T)]).set 0 ⟨p.data, k1⟩) ++
      [(⟨val2, INT_MAX⟩ : Node T)])[1]? = some n := by
    rw [List.getElem?_append_left (by omega), List.getElem?_set_ne (by omega),
      List.getElem?_append_left (by omega)]
    exact hn
  have e2 : insert ((vec ++ [(⟨val1, INT_MAX⟩ : Node T)]).set 0 ⟨p.data, k1⟩) val2 k2 =
      .ok ((((vec ++ [(⟨val1, INT_MAX⟩ : Node T)]).set 0 ⟨p.data, k1⟩) ++
        [(⟨val2, INT_MAX⟩ : Node T)]).set 1 ⟨n.data, k2⟩) () := by
    unfold insert
    rw [size_wrapped_one _ (by rw [List.length_append, hl1]; rfl)]
    exact heapDecreaseKey_root _ 1 k2 n (le_refl _) hn1 (by rw [← keyAt_of_some hn]; exact hk2)
  refine ⟨(((vec ++ [(⟨val1, INT_MAX⟩ : Node T)]).set 0 ⟨p.data, k1⟩) ++
    [(⟨val2, INT_MAX⟩ : Node T)]).set 1 ⟨n.data, k2⟩, ?_, ?_⟩
  · rw [insertAll, e1]
    simp only []
    rw [insertAll, e2]
    simp only []
    rw [insertAll]
  · rw [List.length_set, List.length_append, hl1]
    rfl

end MinHeap

namespace HeapStore

variable {T : Type}

/-- The copy reads every node of the source: a pointer to a deleted node stops it. -/
theorem copy_none_of_dead : ∀ (heap : List Nat) (mem : List (Option (Node T)))
    (acc : List Nat) (a : Nat), a ∈ heap → mem[a]? = some none → copy mem acc heap = none := by
  intro heap
  induction heap with
  | nil => intro mem acc a h; cases h
  | cons b rest ih =>
    intro mem acc a ha hdead
    rw [copy]
    cases hb : deref mem b with
    | none => rfl
    | some n =>
      simp only []
      have hlt : a < mem.length := by
        by_contra hc
        rw [List.getElem?_eq_none (by omega)] at hdead
        cases hdead
      apply ih _ _ a
      · rcases List.mem_cons.mp ha with rfl | h
        · unfold deref at hb
          rw [hdead] at hb
          cases hb
        · exact h
      · rw [List.getElem?_append_left hlt]
        exact hdead

/-- With `2^32 + 2` slots `size()` is 1: `removeMin()` deletes the node of slot 1, puts
`vec[size()]`, the same pointer, back into slot 1, and returns. The vector it leaves has
a pointer to the deleted node, and the copy constructor reads that node. -/
theorem removeMin_wrapped_dangles (mem : List (Option (Node T))) (vec : List Nat)
    (nodes : List (Node T)) (hrep : Rep mem vec nodes) (hlen : nodes.length = 4294967298)
    (fuel : Nat) :
    ∃ mem1 vec1 x, removeMin (fuel + 1) mem vec = .ok (mem1, vec1) x ∧
      vec1.length = 4294967297 ∧ copyConstruct mem1 vec1 = none := by
  have hl : vec.length = 4294967298 := by rw [rep_length hrep]; exact hlen
  have hs : MinHeap.size vec = 1 := MinHeap.size_wrapped_one vec hl
  obtain ⟨a1, ha1⟩ : ∃ a, vec[1]? = some a :=
    ⟨vec[1], List.getElem?_eq_getElem (by omega)⟩
  obtain ⟨n1, _, hd⟩ := rep_get hrep ha1
  have hls : (vec.set 1 a1).length = 4294967298 := by rw [List.length_set]; exact hl
  have hss : MinHeap.size (vec.set 1 a1) = 1 := MinHeap.size_wrapped_one _ hls
  have hm : minHeapify (release mem a1) (fuel + 1) (vec.set 1 a1) 1 = .ok (vec.set 1 a1) () :=
    store_minHeapify_leaf _ _ _ 1 (by rw [hss]; decide) (by rw [hss]; decide)
  have e : removeMin (fuel + 1) mem vec =
      .ok (release mem a1, (vec.set 1 a1).dropLast) n1.data := by
    unfold removeMin
    rw [if_neg (by rw [hs]; decide), hs, ha1]
    simp only []
    rw [hd]
    simp only []
    rw [hm]
    simp only []
    rw [if_neg (by rw [hls]; decide)]
  have hget : ((vec.set 1 a1).dropLast)[1]? = some a1 := by
    rw [List.dropLast_eq_take, List.getElem?_take, if_pos (by rw [hls]; decide),
      List.getElem?_set_self (by omega)]
  refine ⟨_, _, _, e, by rw [List.length_dropLast, hls], ?_⟩
  unfold copyConstruct
  apply copy_none_of_dead _ _ _ a1 (List.getElem?_mem hget)
  unfold release
  rw [List.getElem?_set_self (deref_lt hd)]

/-- A reachable heap the copy constructor cannot copy: the inserts of `fullPairs` fill
`2^32` slots, two more inserts return with `size()` 0 and 1, and the `removeMin()` that
follows leaves a pointer to a deleted node in slot 1. -/
theorem copy_reads_deleted :
    ∃ (mem : List (Option (Node String))) (vec : List Nat), Reachable mem vec ∧
      vec.length = 4294967297 ∧ copyConstruct mem vec = none := by
  obtain ⟨memF, vecF, hr, hrep, hnd⟩ := reachable_exists_of_insertAll MinHeap.fullPairs
    (MinHeap.new MinHeap.testPlaceholder) MinHeap.fullHeap _ _
    (Reachable.init [] MinHeap.testPlaceholder)
    (rep_construct [] MinHeap.testPlaceholder) (nodup_construct [] MinHeap.testPlaceholder)
    MinHeap.fullPairs_int MinHeap.fullPairs_insertAll
  have hk : (0 : Int) ≤ MinHeap.keyAt MinHeap.fullHeap 1 := by
    unfold MinHeap.fullHeap
    rw [MinHeap.keyAt_flat, if_neg (by omega), if_pos (by omega)]
  obtain ⟨v2, e, hl2⟩ := MinHeap.insert_twice_wrapped MinHeap.fullHeap MinHeap.testPlaceholder
    MinHeap.fullHeap_length MinHeap.fullHeap_head "c" "d" (-1) 0 (by decide) hk
  obtain ⟨mem2, vec2, hr2, hrep2, _⟩ := reachable_exists_of_insertAll [("c", -1), ("d", 0)]
    MinHeap.fullHeap v2 memF vecF hr hrep hnd
    (by
      intro p hp
      rcases List.mem_cons.mp hp with rfl | hp
      · decide
      · rcases List.mem_cons.mp hp with rfl | hp
        · decide
        · cases hp)
    e
  obtain ⟨mem3, vec3, x, e3, hl3, hc⟩ := removeMin_wrapped_dangles mem2 vec2 v2 hrep2 hl2 0
  exact ⟨mem3, vec3, Reachable.afterRemoveMin 1 mem2 mem3 vec2 vec3 x hr2 e3, hl3, hc⟩

end HeapStore

/-! ## The claims -/

open MinHeap

/-- C1 (heap-sort with `IntMinHeap`), amended to lists of at most `2^31` ints: for
every such list `xs`, a new heap, `insert(v)` for each `v` of `xs` in order and then
`xs.length` calls of `removeMin()` (with at least `xs.length` units of fuel for
`minHeapify`) run without any failure, leave the heap empty and return exactly the
ascending sort of `xs`, the list the reference `List.insertionSort` produces, which is
sorted and a permutation of `xs`. -/
theorem intMinHeap_heapSort_sorts (fuel : Nat) (xs : List Int)
    (hint : ∀ x ∈ xs, INT_MIN ≤ x ∧ x ≤ INT_MAX) (hlen : xs.length ≤ 2147483648)
    (hfuel : xs.length ≤ fuel) :
    IntMinHeap.heapSort fuel xs =
        .ok IntMinHeap.new (xs.insertionSort (fun a b => a ≤ b)) ∧
      (xs.insertionSort (fun a b => a ≤ b)).Sorted (fun a b => a ≤ b) ∧
      (xs.insertionSort (fun a b => a ≤ b)).Perm xs :=
  ⟨IntMinHeap.heapSort_spec fuel xs (fun x hx => (hint x hx).2) hlen hfuel,
    List.sorted_insertionSort _ xs, List.perm_insertionSort _ xs⟩

theorem intMinHeap_heapSort_sorts_witness :
    IntMinHeap.heapSort 6 [3, 1, 5, 2, 4, -5] = .ok IntMinHeap.new [-5, 1, 2, 3, 4, 5] :=
  (intMinHeap_heapSort_sorts 6 [3, 1, 5, 2, 4, -5] (by decide) (by decide) (by decide)).1

/-- C1 as stated fails on the `2^31 + 1` ints of `flatInts` (`2^31` zeros, then 5):
all are `int`s, and the heap-sort of them never returns, whatever the fuel. The first
`removeMin()` carries the 5 down to slot `2^31`, where `left` wraps to 0 and `right`
to 1, and `minHeapify` goes on from slot 1 again. -/
theorem intMinHeap_heapSort_diverges :
    (∀ x ∈ IntMinHeap.flatInts, INT_MIN ≤ x ∧ x ≤ INT_MAX) ∧
      IntMinHeap.flatInts.length = 2147483649 ∧
      ∀ fuel : Nat, IntMinHeap.heapSort fuel IntMinHeap.flatInts = .outOfFuel :=
  ⟨IntMinHeap.flatInts_int, IntMinHeap.flatInts_length,
    fun fuel => IntMinHeap.int_flat_heapSort_diverges 2147483648 rfl fuel⟩

/-- C2 (generic `MinHeap<T>` as a priority queue), amended to at most `2^31` pairs:
for every list of at most `2^31` (payload, key) pairs with `int` keys, inserting
them all into a new heap and calling `removeMin()` as many times returns the payloads
of a permutation of the inserted pairs whose keys are in non-decreasing order, and
leaves the heap empty. -/
theorem minHeap_removals_sorted_by_key {T : Type} (fuel : Nat) (placeholder : Node T)
    (pairs : List (T × Int)) (hint : ∀ p ∈ pairs, INT_MIN ≤ p.2 ∧ p.2 ≤ INT_MAX)
    (hlen : pairs.length ≤ 2147483648) (hfuel : pairs.length ≤ fuel) :
    ∃ sorted : List (T × Int), sorted.Perm pairs ∧
      sorted.Sorted (fun a b => a.2 ≤ b.2) ∧
      insertThenRemoveAll fuel placeholder pairs =
        .ok (MinHeap.new placeholder) (sorted.map Prod.fst) :=
  insertThenRemoveAll_spec fuel placeholder pairs (fun p hp => (hint p hp).2) hlen hfuel

theorem minHeap_removals_sorted_by_key_witness :
    (∃ sorted : List (String × Int), sorted.Perm testPairs ∧
      sorted.Sorted (fun a b => a.2 ≤ b.2) ∧
      insertThenRemoveAll 6 testPlaceholder testPairs =
        .ok (MinHeap.new testPlaceholder) (sorted.map Prod.fst)) ∧
    insertThenRemoveAll 6 testPlaceholder testPairs =
      .ok (MinHeap.new testPlaceholder)
        ["RUSH!", "job a", "job b", "job c", "job d", "job e"] :=
  ⟨minHeap_removals_sorted_by_key 6 testPlaceholder testPairs (by decide) (by decide)
    (by decide), by decide⟩

/-- C2 as stated fails on the `2^31 + 1` pairs of `flatPairs` (`2^31` pairs with key 0,
then one with key 5), all with `int` keys, inserted into a new heap whose placeholder
key is 1000: the removals never return a sequence, because the first `removeMin()`
does not return, whatever the fuel. -/
theorem minHeap_removals_diverge :
    (∀ p ∈ flatPairs, INT_MIN ≤ p.2 ∧ p.2 ≤ INT_MAX) ∧ flatPairs.length = 2147483649 ∧
      ∀ fuel : Nat, insertThenRemoveAll fuel highPlaceholder flatPairs = .outOfFuel :=
  ⟨flatPairs_int, flatPairs_count,
    fun fuel => insertThenRemoveAll_diverges fuel highPlaceholder flatPairs flatHeap
      2147483648 flatPairs_insertAll flatPairs_length (flatHeap_removeMin fuel)⟩

/-- C3 (heap-order invariant), amended to heaps that never held more than `2^31`
elements: in every heap reachable from the constructor by `insert` calls with `int`
keys and successful `removeMin` calls without ever holding more than `2^31` elements
(`ReachableCapped`), every index `i` with `2 ≤ i ≤ size()` has a slot and a parent
slot, and the key in slot `i` is at least the key in slot `parent(i)`. -/
theorem minHeap_heap_order {T : Type} (vec : List (Node T)) (hreach : ReachableCapped vec)
    (i : Nat) (h2 : 2 ≤ i) (hi : i ≤ size vec) :
    ∃ a b, vec[parent i]? = some a ∧ vec[i]? = some b ∧ a.key ≤ b.key := by
  obtain ⟨h1, hL, hord⟩ := reachable_inv hreach
  have hs := size_eq vec h1 (by omega)
  obtain ⟨a, ha⟩ := slot_of_lt vec (i / 2) (by omega)
  obtain ⟨b, hb⟩ := slot_of_lt vec i (by omega)
  refine ⟨a, b, ha, hb, ?_⟩
  have := hord i h2 (by omega)
  rw [keyAt_of_some ha, keyAt_of_some hb] at this
  exact this

theorem minHeap_heap_order_witness :
    ∃ a b, testHeap[parent 5]? = some a ∧ testHeap[5]? = some b ∧ a.key ≤ b.key :=
  minHeap_heap_order testHeap testHeap_reachable 5 (by decide) (by decide)

/-- C3 as stated fails on the heap `spineHeap abovePlaceholder`, built by `2^31 + 1`
inserts with `int` keys into a new heap whose placeholder key is 1000: one
`removeMin()` returns (34 nested calls of `minHeapify` suffice) and leaves a reachable
heap with `size() = 2^31` in which slot `2^31` holds a key smaller than the key of
its parent slot `2^30`. -/
theorem minHeap_heap_order_broken :
    Reachable (spineHeap abovePlaceholder) ∧
      ∃ vec1 x, removeMin 34 (spineHeap abovePlaceholder) = .ok vec1 x ∧ Reachable vec1 ∧
        size vec1 = 2147483648 ∧
        ∃ a b, vec1[parent 2147483648]? = some a ∧ vec1[2147483648]? = some b ∧
          b.key < a.key := by
  obtain ⟨v3, x, e, hs, _, a, b, _, ha, hb, _, hab, _⟩ :=
    spine_order_broken (spineHeap abovePlaceholder) abovePlaceholder
      (spineHeap_length _) (spineHeap_head _) (by decide) (spineHeap_keys _) 34 (le_refl _)
  exact ⟨spineHeap_reachable _, v3, x, e,
    Reachable.afterRemoveMin 34 _ v3 x (spineHeap_reachable _) e, hs, a, b, ha, hb, hab⟩

/-- C4 (minimum correctness), amended to heaps that never held more than `2^31`
elements: on every non-empty heap reachable without ever holding more than `2^31`
elements (`ReachableCapped`, `int` keys), `removeMin()` with at least `size()` units of
fuel returns the payload of the node in slot 1, and the key of that node is at most
the key of every node in slots `1..size()`. -/
theorem minHeap_removeMin_returns_minimum {T : Type} (fuel : Nat) (vec : List (Node T))
    (hreach : ReachableCapped vec) (hne : isEmpty vec = false) (hfuel : size vec ≤ fuel) :
    ∃ n1 vec1, vec[1]? = some n1 ∧ removeMin fuel vec = .ok vec1 n1.data ∧
      ∀ j m, 1 ≤ j → j ≤ size vec → vec[j]? = some m → n1.key ≤ m.key := by
  obtain ⟨h1, hL, hord⟩ := reachable_inv hreach
  have hs := size_eq vec h1 (by omega)
  have h2 : 2 ≤ vec.length := by
    simp [isEmpty] at hne; omega
  obtain ⟨n1, v3, hn1, e3, _, _, _, _, hmin⟩ :=
    removeMin_spec fuel vec h2 hL (by omega) hord
  refine ⟨n1, v3, hn1, e3, ?_⟩
  intro j m hj1 hjs hm
  have := hmin j hj1 (by omega)
  rw [keyAt_of_some hm] at this
  exact this

theorem minHeap_removeMin_returns_minimum_witness :
    ∃ n1 vec1, testHeap[1]? = some n1 ∧ removeMin 6 testHeap = .ok vec1 n1.data ∧
      ∀ j m, 1 ≤ j → j ≤ size testHeap → testHeap[j]? = some m → n1.key ≤ m.key :=
  minHeap_removeMin_returns_minimum 6 testHeap testHeap_reachable (by decide) (by decide)

/-- C4 as stated fails on the heap that one `removeMin()` leaves of
`spineHeap abovePlaceholder`: it is reachable and not empty, slot `2^31`, which is
within `size()`, holds a key smaller than the key of slot 1, and every `removeMin()`
that returns on it returns the payload of slot 1. -/
theorem minHeap_root_not_minimum :
    ∃ vec1 x, removeMin 34 (spineHeap abovePlaceholder) = .ok vec1 x ∧ Reachable vec1 ∧
      isEmpty vec1 = false ∧ 2147483648 ≤ size vec1 ∧
      ∃ r b, vec1[1]? = some r ∧ vec1[2147483648]? = some b ∧ b.key < r.key ∧
        ∀ fuel vec2 y, removeMin fuel vec1 = .ok vec2 y → y = r.data := by
  obtain ⟨v3, x, e, hs, hne, a, b, r, _, hb, hr, _, hbr⟩ :=
    spine_order_broken (spineHeap abovePlaceholder) abovePlaceholder
      (spineHeap_length _) (spineHeap_head _) (by decide) (spineHeap_keys _) 34 (le_refl _)
  refine ⟨v3, x, e, Reachable.afterRemoveMin 34 _ v3 x (spineHeap_reachable _) e, hne,
    by rw [hs], r, b, hr, hb, hbr, ?_⟩
  intro fuel vec2 y h
  obtain ⟨n1, hn1, hy⟩ := removeMin_ok_data fuel v3 vec2 y h
  rw [hr] at hn1
  cases hn1
  exact hy

/-- C5 (empty-structure error), amended in its last part to at most `2^31` inserts:
on every vector of either variant `removeMin()` throws the `emptyHeap` error exactly
when `size() == 0`, and whenever it throws, the error is `emptyHeap` and the vector is
the one before the call; on a vector of at most `2^31 + 1` slots with `size() ≠ 0` it
returns normally (fuel at least `size()`); after `n <= 2^31` inserts with `int` keys
and `n` removals `isEmpty()` is true and one more `removeMin()` throws. -/
theorem removeMin_throws_iff_empty {T : Type} (fuel : Nat)
    (vec : List (Node T)) (ivec : List Int)
    (placeholder : Node T) (pairs : List (T × Int))
    (hint : ∀ p ∈ pairs, INT_MIN ≤ p.2 ∧ p.2 ≤ INT_MAX)
    (hlen : pairs.length ≤ 2147483648) (hpfuel : pairs.length ≤ fuel)
    (xs : List Int) (hxint : ∀ x ∈ xs, INT_MIN ≤ x ∧ x ≤ INT_MAX)
    (hxlen : xs.length ≤ 2147483648) (hxfuel : xs.length ≤ fuel) :
    ((removeMin fuel vec = .thrown .emptyHeap vec ↔ size vec = 0) ∧
      (1 ≤ vec.length → vec.length ≤ 2147483649 → size vec ≤ fuel → size vec ≠ 0 →
        ∃ vec1 x, removeMin fuel vec = .ok vec1 x) ∧
      (∀ e st, removeMin fuel vec = .thrown e st → e = .emptyHeap ∧ st = vec)) ∧
    ((IntMinHeap.removeMin fuel ivec = .thrown .emptyHeap ivec ↔ IntMinHeap.size ivec = 0) ∧
      (1 ≤ ivec.length → ivec.length ≤ 2147483649 → IntMinHeap.size ivec ≤ fuel →
        IntMinHeap.size ivec ≠ 0 → ∃ vec1 x, IntMinHeap.removeMin fuel ivec = .ok vec1 x) ∧
      (∀ e st, IntMinHeap.removeMin fuel ivec = .thrown e st → e = .emptyHeap ∧ st = ivec)) ∧
    (∃ vec2 out, insertThenRemoveAll fuel placeholder pairs = .ok vec2 out ∧
      out.length = pairs.length ∧ isEmpty vec2 = true ∧
      removeMin fuel vec2 = .thrown .emptyHeap vec2) ∧
    (∃ ivec2 out, IntMinHeap.heapSort fuel xs = .ok ivec2 out ∧
      out.length = xs.length ∧ IntMinHeap.isEmpty ivec2 = true ∧
      IntMinHeap.removeMin fuel ivec2 = .thrown .emptyHeap ivec2) := by
  refine ⟨⟨⟨fun h => (removeMin_thrown fuel vec _ _ h).1, removeMin_empty fuel vec⟩, ?_,
    fun e st h => ⟨(removeMin_thrown fuel vec e st h).2.1,
      (removeMin_thrown fuel vec e st h).2.2⟩⟩,
    ⟨⟨fun h => (IntMinHeap.int_removeMin_thrown fuel ivec _ _ h).1,
      IntMinHeap.int_removeMin_empty fuel ivec⟩, ?_,
    fun e st h => ⟨(IntMinHeap.int_removeMin_thrown fuel ivec e st h).2.1,
      (IntMinHeap.int_removeMin_thrown fuel ivec e st h).2.2⟩⟩, ?_, ?_⟩
  · intro h1 hL hf hne
    have hs := size_eq vec h1 (by omega)
    obtain ⟨n1, v3, _, e3⟩ := removeMin_returns fuel vec (by omega) hL hf
    exact ⟨v3, n1.data, e3⟩
  · intro h1 hL hf hne
    have hs := size_eq (IntMinHeap.liftVec ivec) (by rw [IntMinHeap.liftVec_length]; exact h1)
      (by rw [IntMinHeap.liftVec_length]; omega)
    rw [IntMinHeap.liftVec_size, IntMinHeap.liftVec_length] at hs
    obtain ⟨n1, v3, _, e3⟩ := removeMin_returns fuel (IntMinHeap.liftVec ivec)
      (by rw [IntMinHeap.liftVec_length]; omega) (by rw [IntMinHeap.liftVec_length]; exact hL)
      (by rw [IntMinHeap.liftVec_size]; exact hf)
    rw [IntMinHeap.removeMin_sim] at e3
    obtain ⟨w, ew, _⟩ := IntMinHeap.liftOutcome_eq_ok e3
    exact ⟨w, n1.data, ew⟩
  · obtain ⟨sorted, hp, _, e⟩ := insertThenRemoveAll_spec fuel placeholder pairs
      (fun p hp => (hint p hp).2) hlen hpfuel
    refine ⟨MinHeap.new placeholder, sorted.map Prod.fst, e, ?_, rfl, ?_⟩
    · rw [List.length_map]; exact hp.length_eq
    · exact removeMin_empty fuel _ rfl
  · have e := IntMinHeap.heapSort_spec fuel xs (fun x hx => (hxint x hx).2) hxlen hxfuel
    refine ⟨[INT_MAX], _, e, ?_, rfl, ?_⟩
    · exact (List.perm_insertionSort _ xs).length_eq
    · exact IntMinHeap.int_removeMin_empty fuel _ rfl

theorem removeMin_throws_iff_empty_witness :
    (removeMin 6 testHeap = .thrown .emptyHeap testHeap ↔ size testHeap = 0) ∧
    (∃ vec1 x, removeMin 6 testHeap = .ok vec1 x) ∧
    (IntMinHeap.removeMin 6 IntMinHeap.new = .thrown .emptyHeap IntMinHeap.new ↔
      IntMinHeap.size IntMinHeap.new = 0) ∧
    ∃ vec2 out, insertThenRemoveAll 6 testPlaceholder testPairs = .ok vec2 out ∧
      out.length = testPairs.length ∧ isEmpty vec2 = true ∧
      removeMin 6 vec2 = .thrown .emptyHeap vec2 :=
  have h := removeMin_throws_iff_empty 6 testHeap IntMinHeap.new testPlaceholder testPairs
    (by decide) (by decide) (by decide) [3, 1, 5, 2, 4, -5] (by decide) (by decide)
    (by decide)
  ⟨h.1.1, h.1.2.1 (by decide) (by decide) (by decide) (by decide), h.2.1.1, h.2.2.1⟩

/-- C5 as stated fails in its last part for `n = 2^31 + 1`: after the inserts of
`flatPairs` (all `int` keys) into a new heap whose placeholder key is 1000 the heap
`flatHeap` is reachable with `size() ≠ 0`, its first `removeMin()` neither throws nor
returns, whatever the fuel, and so the `n` removals never leave an empty heap. -/
theorem removeMin_never_empties :
    (∀ p ∈ flatPairs, INT_MIN ≤ p.2 ∧ p.2 ≤ INT_MAX) ∧
      insertAll (MinHeap.new highPlaceholder) flatPairs = .ok flatHeap () ∧
      Reachable flatHeap ∧ size flatHeap = 2147483649 ∧
      (∀ fuel : Nat, removeMin fuel flatHeap = .outOfFuel) ∧
      ∀ fuel : Nat, ¬ ∃ vec2 out,
        insertThenRemoveAll fuel highPlaceholder flatPairs = .ok vec2 out := by
  refine ⟨flatPairs_int, flatPairs_insertAll, flatHeap_reachable, flatHeap_size,
    flatHeap_removeMin, ?_⟩
  rintro fuel ⟨vec2, out, h⟩
  rw [insertThenRemoveAll_diverges fuel highPlaceholder flatPairs flatHeap 2147483648
    flatPairs_insertAll flatPairs_length (flatHeap_removeMin fuel)] at h
  cases h

/-- C6 (size accounting), amended to fewer than `2^32` inserts: a new heap has
`size() == 0` and is empty; when a sequence of `insert` and `removeMin` calls on a new
heap, with `int` keys and fewer than `2^32` inserts, has run to its end, every insert
has returned, `size()` plus the number of removals that returned equals the number of
inserts, and `isEmpty()` holds exactly when that difference is 0; with at most
`2^31` inserts and fuel for them the sequence does run to its end; each insert on a
reachable heap of fewer than `2^32` slots raises `size()` by 1 and each removal that
returns lowers it by 1. -/
theorem minHeap_size_accounting {T : Type} (fuel : Nat) (placeholder : Node T)
    (ops : List (Op T)) (hkeys : keysInRange ops)
    (hcap : countInsertOps ops < 4294967296) :
    size (MinHeap.new placeholder) = 0 ∧ isEmpty (MinHeap.new placeholder) = true ∧
    (∀ vec events, run fuel ops (MinHeap.new placeholder) = some (vec, events) →
      countInserted events = countInsertOps ops ∧
      size vec + countRemoved events = countInserted events ∧
      (isEmpty vec = true ↔ countInserted events - countRemoved events = 0)) ∧
    (countInsertOps ops ≤ 2147483648 → countInsertOps ops ≤ fuel →
      ∃ vec events, run fuel ops (MinHeap.new placeholder) = some (vec, events)) ∧
    (∀ (vec vec1 : List (Node T)) (val : T) (key : Int), Reachable vec →
      vec.length < 4294967296 → MinHeap.insert vec val key = .ok vec1 () →
      size vec1 = size vec + 1) ∧
    (∀ (f : Nat) (vec vec1 : List (Node T)) (x : T), Reachable vec →
      removeMin f vec = .ok vec1 x → size vec1 + 1 = size vec) := by
  refine ⟨rfl, rfl, ?_, ?_, ?_, ?_⟩
  · intro vec events e
    exact run_new_accounting fuel placeholder ops hkeys hcap vec events e
  · intro hc hf
    obtain ⟨v2, ev, e, _⟩ := run_spec fuel ops (MinHeap.new placeholder)
      (ReachableCapped.init placeholder) hkeys (by simp [MinHeap.new]; omega)
      (by simp [MinHeap.new]; omega)
    exact ⟨v2, ev, e⟩
  · intro vec vec1 val key hr hlen e
    exact insert_size vec vec1 val key (reachable_length hr) hlen e
  · intro f vec vec1 x _ e
    exact removeMin_size f vec vec1 x e

theorem minHeap_size_accounting_witness :
    ∃ vec events, run 3 [Op.insert "a" 3, Op.removeMin, Op.removeMin, Op.insert "b" 1,
        Op.insert "c" 2, Op.removeMin] (MinHeap.new testPlaceholder) = some (vec, events) ∧
      countInserted events = 3 ∧
      size vec + countRemoved events = countInserted events ∧
      (isEmpty vec = true ↔ countInserted events - countRemoved events = 0) :=
  have h := minHeap_size_accounting 3 testPlaceholder [Op.insert "a" 3, Op.removeMin,
    Op.removeMin, Op.insert "b" 1, Op.insert "c" 2, Op.removeMin]
    ⟨by decide, by decide, by decide, by decide, by decide, by decide, trivial⟩
    (by decide)
  have hrun := h.2.2.2.1 (by decide) (by decide)
  hrun.elim fun vec hv => hv.elim fun events e => ⟨vec, events, e, h.2.2.1 vec events e⟩

/-- C6 as stated fails on `fullHeap`, the reachable heap of `2^32` slots that the
inserts of `fullPairs` build: `size()` is `2^32 - 1`, and `insert("c", -1)` returns
and leaves `size() == 0`, not `2^32`, on a vector that `isEmpty()` does not call
empty. -/
theorem minHeap_size_wraps :
    (∀ p ∈ fullPairs, INT_MIN ≤ p.2 ∧ p.2 ≤ INT_MAX) ∧
      insertAll (MinHeap.new testPlaceholder) fullPairs = .ok fullHeap () ∧
      Reachable fullHeap ∧ size fullHeap = 4294967295 ∧
      ∃ vec1, MinHeap.insert fullHeap "c" (-1) = .ok vec1 () ∧ size vec1 = 0 ∧
        isEmpty vec1 = false :=
  ⟨fullPairs_int, fullPairs_insertAll, fullHeap_reachable, fullHeap_size,
    insert_wrap_returns fullHeap testPlaceholder "c" (-1) fullHeap_length fullHeap_head
      (by decide)⟩

/-- C7 (insert never triggers the invalid-key-decrease error), amended to heaps of
fewer than `2^32` slots: on every reachable heap whose vector has fewer than `2^32`
slots and for every `int` key, `INT_MIN` and `INT_MAX` included, the slot
`heapDecreaseKey` reads is the one just pushed with key `INT_MAX`, `insert(val, key)`
returns normally, and it throws nothing. -/
theorem minHeap_insert_never_throws {T : Type} (vec : List (Node T)) (hreach : Reachable vec)
    (hlen : vec.length < 4294967296) (val : T) (key : Int)
    (hint : INT_MIN ≤ key ∧ key ≤ INT_MAX) :
    (vec ++ [(⟨val, INT_MAX⟩ : Node T)])[size (vec ++ [(⟨val, INT_MAX⟩ : Node T)])]? =
        some ⟨val, INT_MAX⟩ ∧
      (∃ vec1, MinHeap.insert vec val key = .ok vec1 ()) ∧
      ∀ e st, MinHeap.insert vec val key ≠ .thrown e st := by
  have h1 := reachable_length hreach
  have hne : size (vec ++ [(⟨val, INT_MAX⟩ : Node T)]) = vec.length := by
    unfold size UINT_MOD; simp; omega
  obtain ⟨v1, e1, _⟩ := insert_spec vec val key h1 hlen hint.2
  refine ⟨by rw [hne]; simp, ⟨v1, e1⟩, ?_⟩
  intro e st h
  rw [e1] at h
  cases h

theorem minHeap_insert_never_throws_witness :
    (∃ vec1, MinHeap.insert testHeap "max" INT_MAX = .ok vec1 ()) ∧
      ∃ vec1, MinHeap.insert testHeap "min" INT_MIN = .ok vec1 () :=
  ⟨(minHeap_insert_never_throws testHeap (reachable_of_capped testHeap_reachable)
      (by decide) "max" INT_MAX (by decide)).2.1,
    (minHeap_insert_never_throws testHeap (reachable_of_capped testHeap_reachable)
      (by decide) "min" INT_MIN (by decide)).2.1⟩

/-- C7 as stated fails on `fullHeap`, the reachable heap of `2^32` slots that the
inserts of `fullPairs` build behind a placeholder with key 0: after the push `size()`
wraps to 0, `insert("c", 7)` calls `heapDecreaseKey(0, 7)`, which compares 7 with the
key of the placeholder and throws `keyGreater`. -/
theorem minHeap_insert_throws :
    (∀ p ∈ fullPairs, INT_MIN ≤ p.2 ∧ p.2 ≤ INT_MAX) ∧
      insertAll (MinHeap.new testPlaceholder) fullPairs = .ok fullHeap () ∧
      Reachable fullHeap ∧ (INT_MIN ≤ (7 : Int) ∧ (7 : Int) ≤ INT_MAX) ∧
      MinHeap.insert fullHeap "c" 7 = .thrown .keyGreater (fullHeap ++ [⟨"c", INT_MAX⟩]) :=
  ⟨fullPairs_int, fullPairs_insertAll, fullHeap_reachable, by decide,
    insert_wrap_throws fullHeap testPlaceholder "c" 7 fullHeap_length fullHeap_head
      (by decide)⟩

/-- C8 (rejection of an invalid decrease): for every vector of either variant and
every index `i` of a slot, `heapDecreaseKey(i, newKey)` throws `keyGreater` with the
vector untouched exactly when `newKey` is greater than the key in slot `i`; it returns
normally otherwise, and whatever it throws is `keyGreater` with the vector
untouched. -/
theorem heapDecreaseKey_rejects_greater_key {T : Type} (vec : List (Node T)) (i : Nat)
    (n : Node T) (hslot : vec[i]? = some n) (ivec : List Int) (j : Nat) (k : Int)
    (hislot : ivec[j]? = some k) (newKey : Int) :
    ((heapDecreaseKey vec i newKey = .thrown .keyGreater vec ↔ newKey > n.key) ∧
      (newKey ≤ n.key → ∃ vec1, heapDecreaseKey vec i newKey = .ok vec1 ()) ∧
      (∀ e st, heapDecreaseKey vec i newKey = .thrown e st → e = .keyGreater ∧ st = vec)) ∧
    ((IntMinHeap.heapDecreaseKey ivec j newKey = .thrown .keyGreater ivec ↔ newKey > k) ∧
      (newKey ≤ k → ∃ vec1, IntMinHeap.heapDecreaseKey ivec j newKey = .ok vec1 ()) ∧
      (∀ e st, IntMinHeap.heapDecreaseKey ivec j newKey = .thrown e st →
        e = .keyGreater ∧ st = ivec)) := by
  refine ⟨⟨⟨fun h => (heapDecreaseKey_thrown vec i newKey n hslot _ _ h).2.2,
    heapDecreaseKey_greater vec i newKey n hslot⟩, ?_, ?_⟩,
    ⟨⟨fun h => (IntMinHeap.int_heapDecreaseKey_thrown ivec j newKey k hislot _ _ h).2.2,
    IntMinHeap.int_heapDecreaseKey_greater ivec j newKey k hislot⟩,
    IntMinHeap.heapDecreaseKey_ok ivec j newKey k hislot, ?_⟩⟩
  · intro hle
    obtain ⟨v2, e2, _⟩ := heapDecreaseKey_spec vec i newKey n hslot hle
    exact ⟨v2, e2⟩
  · intro e st h
    have := heapDecreaseKey_thrown vec i newKey n hslot e st h
    exact ⟨this.1, this.2.1⟩
  · intro e st h
    have := IntMinHeap.int_heapDecreaseKey_thrown ivec j newKey k hislot e st h
    exact ⟨this.1, this.2.1⟩

theorem heapDecreaseKey_rejects_greater_key_witness :
    heapDecreaseKey testHeap 3 2 = .thrown .keyGreater testHeap ∧
      IntMinHeap.heapDecreaseKey [INT_MAX, 1, 4, 3] 2 5 =
        .thrown .keyGreater [INT_MAX, 1, 4, 3] :=
  have h := heapDecreaseKey_rejects_greater_key testHeap 3 ⟨"job a", 1⟩ (by decide)
    [INT_MAX, 1, 4, 3] 2 4 (by decide)
  ⟨(h 2).1.1.mpr (by decide), (h 5).2.1.mpr (by decide)⟩

/-- C9 (copy construction), on the free store and amended to heaps that never held more
than `2^31` elements: for every heap `vec` on the store `mem` reachable without ever
holding more than `2^31` elements, the copy constructor returns a heap `vec1` of
the same `size()` whose pointers are all different from those of `vec` and whose slots
hold, slot by slot, nodes equal to those of `vec`, which are untouched; both heaps
give the same sequence `out` of `size()` payloads when drained (fuel at least
`size()`); and after the original is drained, its nodes deleted, the copy still has
its size and gives `out`, and the other way round. -/
theorem minHeap_copy_constructor {T : Type} (fuel : Nat) (mem : List (Option (Node T)))
    (vec : List Nat) (hreach : HeapStore.ReachableCapped mem vec) (hfuel : size vec ≤ fuel) :
    ∃ mem1 vec1 out, HeapStore.copyConstruct mem vec = some (mem1, vec1) ∧
      size vec1 = size vec ∧
      (∀ a ∈ vec1, a ∉ vec) ∧
      (∀ i, i < vec.length → ∃ n, HeapStore.nodeAt mem vec i = some n ∧
        HeapStore.nodeAt mem1 vec i = some n ∧ HeapStore.nodeAt mem1 vec1 i = some n) ∧
      out.length = size vec ∧
      (∃ memA vecA, HeapStore.removeAll fuel (size vec) mem1 vec = .ok (memA, vecA) out ∧
        size vecA = 0 ∧
        ∃ memB vecB, HeapStore.removeAll fuel (size vec1) memA vec1 = .ok (memB, vecB) out ∧
          size vecB = 0) ∧
      (∃ memA vecA, HeapStore.removeAll fuel (size vec1) mem1 vec1 = .ok (memA, vecA) out ∧
        size vecA = 0 ∧
        ∃ memB vecB, HeapStore.removeAll fuel (size vec) memA vec = .ok (memB, vecB) out ∧
          size vecB = 0) := by
  obtain ⟨nodes, hr, hrep, hnd⟩ := HeapStore.reachable_rep hreach
  obtain ⟨h1, hL, hord⟩ := reachable_inv hr
  exact HeapStore.copy_independent fuel mem vec nodes hrep hnd h1 hL hord hfuel

theorem minHeap_copy_constructor_witness :
    ∃ mem1 vec1 out, HeapStore.copyConstruct HeapStore.testStore HeapStore.testVec =
        some (mem1, vec1) ∧
      size vec1 = size HeapStore.testVec ∧
      (∀ a ∈ vec1, a ∉ HeapStore.testVec) ∧
      (∀ i, i < HeapStore.testVec.length → ∃ n,
        HeapStore.nodeAt HeapStore.testStore HeapStore.testVec i = some n ∧
        HeapStore.nodeAt mem1 HeapStore.testVec i = some n ∧
        HeapStore.nodeAt mem1 vec1 i = some n) ∧
      out.length = size HeapStore.testVec ∧
      (∃ memA vecA, HeapStore.removeAll 6 (size HeapStore.testVec) mem1 HeapStore.testVec =
          .ok (memA, vecA) out ∧ size vecA = 0 ∧
        ∃ memB vecB, HeapStore.removeAll 6 (size vec1) memA vec1 = .ok (memB, vecB) out ∧
          size vecB = 0) ∧
      (∃ memA vecA, HeapStore.removeAll 6 (size vec1) mem1 vec1 = .ok (memA, vecA) out ∧
        size vecA = 0 ∧
        ∃ memB vecB, HeapStore.removeAll 6 (size HeapStore.testVec) memA HeapStore.testVec =
            .ok (memB, vecB) out ∧ size vecB = 0) :=
  minHeap_copy_constructor 6 HeapStore.testStore HeapStore.testVec
    HeapStore.testStore_reachable (by decide)

/-- C9 as stated fails on reachable heaps that held more than `2^31` elements. First,
the inserts of `flatPairs` into a new heap whose placeholder key is 1000 build, on the
store, a reachable heap of `2^31 + 1` elements whose nodes are those of `flatHeap`; its
copy has the same `size()`, and the first `removeMin()` on the copy never returns,
whatever the fuel, so the copy has no extraction sequence. Second, there is a reachable
heap of `2^32 + 1` slots that the copy constructor cannot copy at all, because slot 1
points to a node `removeMin()` deleted and `copy` reads every node of its source. -/
theorem minHeap_copy_diverges :
    (∃ mem vec, HeapStore.Reachable mem vec ∧ HeapStore.Rep mem vec flatHeap ∧
      ∃ mem1 vec1, HeapStore.copyConstruct mem vec = some (mem1, vec1) ∧
        size vec1 = size vec ∧
        ∀ fuel : Nat, HeapStore.removeMin fuel mem1 vec1 = .outOfFuel) ∧
    ∃ (mem : List (Option (Node String))) (vec : List Nat), HeapStore.Reachable mem vec ∧
      vec.length = 4294967297 ∧ HeapStore.copyConstruct mem vec = none := by
  obtain ⟨memF, vecF, hr, hrep, _⟩ := HeapStore.reachable_exists_of_insertAll flatPairs
    (MinHeap.new highPlaceholder) flatHeap _ _ (HeapStore.Reachable.init [] highPlaceholder)
    (HeapStore.rep_construct [] highPlaceholder) (HeapStore.nodup_construct [] highPlaceholder)
    flatPairs_int flatPairs_insertAll
  exact ⟨⟨memF, vecF, hr, hrep, HeapStore.copy_diverges memF vecF flatHeap hrep
    (by rw [flatHeap_length]; omega) flatHeap_removeMin⟩, HeapStore.copy_reads_deleted⟩

/-- C10, as the code runs: `dst = src` pushes a copy of every slot of `src`, the
placeholder included, behind the slots `dst` already had, whose pointers stay in the
vector after their nodes are deleted. Assigning the six-element test heap to a new
heap gives a vector of eight slots, so `size()` is 7 and not 6, and slot 1 holds the
copy of the placeholder of `src`. -/
theorem minHeap_assign_keeps_old_slots {T : Type} (dst src : List (Node T)) :
    (assign (toPtrs dst) src).length = dst.length + src.length ∧
    assign (toPtrs (MinHeap.new testPlaceholder)) testHeap =
      Ptr.dangling :: toPtrs testHeap ∧
    size (assign (toPtrs (MinHeap.new testPlaceholder)) testHeap) = 7 ∧
    size testHeap = 6 := by
  refine ⟨?_, by decide, by decide, by decide⟩
  rw [assign_length]; simp [toPtrs]

/-- C11, as the code runs: `MinHeap<T>::clear()` deletes the nodes and leaves every
pointer in the vector, so `size()` and `isEmpty()` are what they were before the call
(the six-element test heap still reports size 6 and is not empty), and
`IntMinHeap::clear()` empties the vector, placeholder included, so `size()` wraps to
`2^32 - 1` and `isEmpty()` is false. -/
theorem clear_keeps_size {T : Type} (vec : List (Node T)) (ivec : List Int) :
    size (clear (toPtrs vec)) = size vec ∧
    isEmpty (clear (toPtrs vec)) = isEmpty vec ∧
    size (clear (toPtrs testHeap)) = 6 ∧
    isEmpty (clear (toPtrs testHeap)) = false ∧
    IntMinHeap.size (IntMinHeap.clear ivec) = 4294967295 ∧
    IntMinHeap.isEmpty (IntMinHeap.clear ivec) = false := by
  have hlen : (clear (toPtrs vec)).length = vec.length := by
    rw [clear_length]; simp [toPtrs]
  refine ⟨?_, ?_, by decide, by decide, rfl, rfl⟩
  · unfold size; rw [hlen]
  · unfold isEmpty; rw [hlen]

/-- C12 (removeMin as coded equals removeMin as specified), amended to heaps of at most
`2^31` elements: on every non-empty heap of at most `2^31 + 1` slots and for every
amount of fuel, the code's `removeMin` (copy slot `n` into slot 1, `minHeapify(1)`
with tests `child < size()` on the unshrunk vector, then `pop_back`) and the spec's
(`specRemoveMin`: move, shrink, `siftDown(1)` with tests `child <= n - 1`) have the
same outcome, payload and final array; with fuel at least `size()` that outcome is a
normal return of the payload of slot 1. -/
theorem removeMin_refines_spec {T : Type} (fuel : Nat) (vec : List (Node T))
    (hne : 2 ≤ vec.length) (hcap : vec.length ≤ 2147483649) :
    removeMin fuel vec = specRemoveMin fuel vec ∧
      (size vec ≤ fuel →
        ∃ n1 vec1, vec[1]? = some n1 ∧ specRemoveMin fuel vec = .ok vec1 n1.data) := by
  have h := specRemoveMin_refines fuel vec hne hcap
  refine ⟨h, fun hf => ?_⟩
  rw [← h]
  exact removeMin_returns fuel vec hne hcap hf

theorem removeMin_refines_spec_witness :
    removeMin 6 testHeap = specRemoveMin 6 testHeap ∧
      specRemoveMin 6 testHeap =
        .ok [⟨"", 0⟩, ⟨"job a", 1⟩, ⟨"job b", 2⟩, ⟨"job e", 5⟩, ⟨"job c", 3⟩, ⟨"job d", 4⟩]
          "RUSH!" :=
  ⟨(removeMin_refines_spec 6 testHeap (by decide) (by decide)).1, by decide⟩

/-- C12 as stated fails on `flatHeap`, a heap of `2^31 + 1` elements (`2^31` with key
0, then one with key 5, placeholder key 1000): the code's `removeMin` never returns,
whatever the fuel, and the spec's returns with 32 units of fuel. -/
theorem removeMin_departs_from_spec :
    flatHeap.length = 2147483650 ∧ (∀ fuel : Nat, removeMin fuel flatHeap = .outOfFuel) ∧
      ∃ vec1 x, specRemoveMin 32 flatHeap = .ok vec1 x :=
  ⟨flatHeap_length, flatHeap_removeMin, flatHeap_spec_removeMin⟩

/-- C13 (sift-down repair), amended to vectors of at most `2^31` slots: on such a
vector and a slot `i >= 1` whose two child subtrees, on the slots below `size()`, are
heap-ordered, `minHeapify(i)` (fuel at least `size()`) returns, the subtree rooted at
`i` is then heap-ordered on the slots below `size()`, the vector is a permutation of
the one before, and no slot outside the subtree rooted at `i` has changed. -/
theorem minHeapify_repairs_subtree {T : Type} (fuel : Nat) (vec : List (Node T)) (i : Nat)
    (hcap : vec.length ≤ 2147483648) (h1 : 1 ≤ i) (hi : i < vec.length)
    (hfuel : size vec ≤ fuel)
    (hleft : SubtreeOrd vec (2 * i) (size vec))
    (hright : SubtreeOrd vec (2 * i + 1) (size vec)) :
    ∃ v2, minHeapify fuel vec i = .ok v2 () ∧ SubtreeOrd v2 i (size vec) ∧ v2.Perm vec ∧
      ∀ k, ¬ InSubtree i k → v2[k]? = vec[k]? := by
  have hs := size_eq vec (by omega) (by omega)
  obtain ⟨v2, e, _, hp, hord, hfix, _⟩ :=
    minHeapify_subtree fuel vec i hcap h1 hi (by omega) hleft hright
  exact ⟨v2, e, hord, hp, hfix⟩

theorem minHeapify_repairs_subtree_witness :
    ∃ v2, minHeapify 7 [⟨"", 0⟩, ⟨"a", 9⟩, ⟨"b", 1⟩, ⟨"c", 2⟩, ⟨"d", 3⟩, ⟨"e", 4⟩, ⟨"f", 5⟩,
          ⟨"a", 9⟩] 1 = .ok v2 () ∧
      SubtreeOrd v2 1 7 ∧
      v2.Perm [⟨"", 0⟩, ⟨"a", 9⟩, ⟨"b", 1⟩, ⟨"c", 2⟩, ⟨"d", 3⟩, ⟨"e", 4⟩, ⟨"f", 5⟩, ⟨"a", 9⟩] ∧
      ∀ k, ¬ InSubtree 1 k →
        v2[k]? = ([⟨"", 0⟩, ⟨"a", 9⟩, ⟨"b", 1⟩, ⟨"c", 2⟩, ⟨"d", 3⟩, ⟨"e", 4⟩, ⟨"f", 5⟩,
          ⟨"a", 9⟩] : List (Node String))[k]? :=
  minHeapify_repairs_subtree 7 [⟨"", 0⟩, ⟨"a", 9⟩, ⟨"b", 1⟩, ⟨"c", 2⟩, ⟨"d", 3⟩, ⟨"e", 4⟩,
      ⟨"f", 5⟩, ⟨"a", 9⟩] 1 (by decide) (by decide) (by decide) (by decide)
    (by
      intro j hj hne hjm
      have h2 := hj.le
      have h7 : j < 7 := hjm
      have hp := (hj.parent_of_ne hne).le
      interval_cases j <;> first | decide | omega)
    (by
      intro j hj hne hjm
      have h2 := hj.le
      have h7 : j < 7 := hjm
      have hp := (hj.parent_of_ne hne).le
      interval_cases j <;> first | decide | omega)

/-- C13 as stated fails on `wrapArray`, an array of `2^31 + 1` slots, at its last slot
`i = 2^31`: no slot below `size()` lies in a child subtree of `i`, so both are
heap-ordered (the slots below `size()` are even heap-ordered as a whole, the
placeholder included), yet `minHeapify(2^31)` takes `left` as 0 and `right` as 1,
swaps slot `2^31` with slot 0, then slot 0 with slot 1, and returns with slots 0 and
1, which are outside the subtree rooted at `2^31`, changed. -/
theorem minHeapify_changes_outside_subtree :
    wrapArray.length = 2147483649 ∧
      SubtreeOrd wrapArray (2 * 2147483648) (size wrapArray) ∧
      SubtreeOrd wrapArray (2 * 2147483648 + 1) (size wrapArray) ∧
      (∀ j, 1 ≤ j → j < size wrapArray → keyAt wrapArray (j / 2) ≤ keyAt wrapArray j) ∧
      ¬ InSubtree 2147483648 1 ∧ ¬ InSubtree 2147483648 0 ∧
      ∃ v2, minHeapify 3 wrapArray 2147483648 = .ok v2 () ∧ v2[1]? ≠ wrapArray[1]? ∧
        v2[0]? ≠ wrapArray[0]? :=
  ⟨wrapArray_length,
    subtreeOrd_of_le wrapArray _ _ (by have := size_lt wrapArray; omega),
    subtreeOrd_of_le wrapArray _ _ (by have := size_lt wrapArray; omega),
    wrapArray_ordered, not_inSubtree_of_lt (by decide), not_inSubtree_of_lt (by decide),
    wrapArray_minHeapify⟩

/-- C15 (decrease-key at a live index): on a heap-ordered vector, for a slot `i >= 1`
holding `ni` and `newKey <= ni.key`, `heapDecreaseKey(i, newKey)` returns; the length
is unchanged, heap order holds, the vector is a permutation of the old one with the
key of slot `i` replaced; the node ends in a slot `p` on the path from `i` to the
root, with `p = 1` or the key of `parent(p)` at most `newKey`, while every slot passed
on the way held a key greater than `newKey` and has moved one step down; all other
slots are unchanged. -/
theorem heapDecreaseKey_at_live_index {T : Type} (vec : List (Node T)) (i : Nat)
    (ni : Node T) (newKey : Int) (hheap : HeapOrd vec vec.length) (h1 : 1 ≤ i)
    (hslot : vec[i]? = some ni) (hkey : newKey ≤ ni.key) :
    ∃ v2 p, heapDecreaseKey vec i newKey = .ok v2 () ∧ v2.length = vec.length ∧
      HeapOrd v2 v2.length ∧ v2.Perm (vec.set i ⟨ni.data, newKey⟩) ∧
      1 ≤ p ∧ InSubtree p i ∧ v2[p]? = some ⟨ni.data, newKey⟩ ∧
      (p = 1 ∨ keyAt vec (p / 2) ≤ newKey) ∧
      (∀ a, InSubtree p a → InSubtree a i → a ≠ p →
        v2[a]? = vec[a / 2]? ∧ keyAt vec (a / 2) > newKey) ∧
      (∀ k, ¬ (InSubtree p k ∧ InSubtree k i) → v2[k]? = vec[k]?) :=
  heapDecreaseKey_path vec i ni newKey h1 hslot hkey hheap

theorem heapDecreaseKey_at_live_index_witness :
    (∃ v2 p, heapDecreaseKey testHeap 5 0 = .ok v2 () ∧ v2.length = testHeap.length ∧
      HeapOrd v2 v2.length ∧ v2.Perm (testHeap.set 5 ⟨"job d", 0⟩) ∧
      1 ≤ p ∧ InSubtree p 5 ∧ v2[p]? = some ⟨"job d", 0⟩ ∧
      (p = 1 ∨ keyAt testHeap (p / 2) ≤ 0) ∧
      (∀ a, InSubtree p a → InSubtree a 5 → a ≠ p →
        v2[a]? = testHeap[a / 2]? ∧ keyAt testHeap (a / 2) > 0) ∧
      (∀ k, ¬ (InSubtree p k ∧ InSubtree k 5) → v2[k]? = testHeap[k]?)) ∧
    heapDecreaseKey testHeap 5 0 =
      .ok [⟨"", 0⟩, ⟨"RUSH!", -5⟩, ⟨"job d", 0⟩, ⟨"job a", 1⟩, ⟨"job c", 3⟩, ⟨"job b", 2⟩,
        ⟨"job e", 5⟩] () :=
  ⟨heapDecreaseKey_at_live_index testHeap 5 ⟨"job d", 4⟩ 0
    (reachable_inv testHeap_reachable).2.2 (by decide) (by decide) (by decide), by decide⟩

/-- C16 (element conservation), amended to heaps that never held more than `2^31`
elements: on a heap reachable without ever holding more than `2^31` elements
(`ReachableCapped`, `int` keys), `insert(val, key)` returns a vector whose elements
are those before plus the one pair `(val, key)`, and a `removeMin()` that finds the
heap non-empty returns the payload of the node of slot 1 and leaves the elements
before minus that one node. -/
theorem minHeap_element_conservation {T : Type} (fuel : Nat) (vec : List (Node T))
    (hreach : ReachableCapped vec) (hfuel : size vec ≤ fuel) (val : T) (key : Int)
    (hint : INT_MIN ≤ key ∧ key ≤ INT_MAX) :
    (∃ vec1, MinHeap.insert vec val key = .ok vec1 () ∧
      vec1.tail.Perm (vec.tail ++ [⟨val, key⟩])) ∧
    (isEmpty vec = false → ∃ n1 vec1, vec[1]? = some n1 ∧
      removeMin fuel vec = .ok vec1 n1.data ∧ vec.tail.Perm (n1 :: vec1.tail)) := by
  obtain ⟨h1, hL, hord⟩ := reachable_inv hreach
  refine ⟨insert_tail_perm vec val key h1 (by omega) hint.2, ?_⟩
  intro hne
  have hs := size_eq vec h1 (by omega)
  have h2 : 2 ≤ vec.length := by
    simp [isEmpty] at hne; omega
  obtain ⟨n1, v3, hn1, e3, _, _, hp, _⟩ := removeMin_spec fuel vec h2 hL (by omega) hord
  exact ⟨n1, v3, hn1, e3, hp.symm⟩

theorem minHeap_element_conservation_witness :
    (∃ vec1, MinHeap.insert testHeap "job f" 0 = .ok vec1 () ∧
      vec1.tail.Perm (testHeap.tail ++ [⟨"job f", 0⟩])) ∧
    ∃ n1 vec1, testHeap[1]? = some n1 ∧
      removeMin 6 testHeap = .ok vec1 n1.data ∧ testHeap.tail.Perm (n1 :: vec1.tail) :=
  have h := minHeap_element_conservation 6 testHeap testHeap_reachable (by decide)
    "job f" 0 (by decide)
  ⟨h.1, h.2 (by decide)⟩

/-- C16 as stated fails on the heap `spineHeap belowPlaceholder`, built by `2^31 + 1`
inserts with `int` keys into a new heap whose placeholder key is -1: one `removeMin()`
returns the payload of slot 1 (35 nested calls of `minHeapify` suffice) and leaves the
placeholder among the elements, which it was not before, so the elements after the
call are not those before minus the removed one. -/
theorem minHeap_placeholder_enters_heap :
    Reachable (spineHeap belowPlaceholder) ∧
      ∃ n1 vec1, (spineHeap belowPlaceholder)[1]? = some n1 ∧
        removeMin 35 (spineHeap belowPlaceholder) = .ok vec1 n1.data ∧
        belowPlaceholder ∈ vec1.tail ∧ belowPlaceholder ∉ (spineHeap belowPlaceholder).tail ∧
        ¬ (spineHeap belowPlaceholder).tail.Perm (n1 :: vec1.tail) :=
  ⟨spineHeap_reachable _,
    spine_not_conserved (spineHeap belowPlaceholder) belowPlaceholder (spineHeap_length _)
      (spineHeap_head _) (by decide) (spineHeap_keys _) 35 (le_refl _)⟩

/-- C17 (heap-sort is not stable): inserting `(a,1)`, `(b,1)`, `(c,1)` in this order
into a new heap and removing three times returns `a`, `c`, `b`: `b` was inserted
before `c` with the same key and comes out after it. -/
theorem minHeap_heapSort_not_stable :
    insertThenRemoveAll 3 testPlaceholder [("a", 1), ("b", 1), ("c", 1)] =
      .ok (MinHeap.new testPlaceholder) ["a", "c", "b"] ∧
    List.indexOf "b" ["a", "b", "c"] < List.indexOf "c" ["a", "b", "c"] ∧
    List.indexOf "c" ["a", "c", "b"] < List.indexOf "b" ["a", "c", "b"] := by
  decide

/-- C18 (the two heaps agree), amended to at most `2^31` inserts: for every sequence
of `insert(v)` and `removeMin()` calls with `int` values and at most `2^31`
inserts, the run on a new `IntMinHeap` and the run of the corresponding calls
(`insert(v, v)`, `removeMin()`) on a new `MinHeap<int>`, whatever its placeholder,
record after every call the same outcome, the same `size()` and the same slots after
the placeholder, read through the key and read through the data of the generic nodes;
with fuel at least the number of inserts no call ends in undefined behaviour or out of
fuel. -/
theorem intMinHeap_agrees_with_minHeap (fuel : Nat) (placeholder : Node Int)
    (ops : List IntMinHeap.Op) (hint : IntMinHeap.valuesInRange ops)
    (hcap : IntMinHeap.countInserts ops ≤ 2147483648)
    (hfuel : IntMinHeap.countInserts ops ≤ fuel) :
    (MinHeap.trace fuel (ops.map IntMinHeap.toGeneric) (MinHeap.new placeholder)).map
        (IntMinHeap.readRecord Node.key) = IntMinHeap.trace fuel ops IntMinHeap.new ∧
    (MinHeap.trace fuel (ops.map IntMinHeap.toGeneric) (MinHeap.new placeholder)).map
        (IntMinHeap.readRecord Node.data) = IntMinHeap.trace fuel ops IntMinHeap.new ∧
    none ∉ IntMinHeap.trace fuel ops IntMinHeap.new ∧
    (IntMinHeap.trace fuel ops IntMinHeap.new).length = ops.length := by
  have h0 : MinHeap.new placeholder =
      setHead placeholder (IntMinHeap.liftVec IntMinHeap.new) := rfl
  have hlen : IntMinHeap.new.length = 1 := rfl
  rw [h0]
  refine ⟨IntMinHeap.trace_agree fuel placeholder Node.key (fun _ => rfl) ops IntMinHeap.new
      (by rw [hlen]) (by rw [hlen]; omega) hint,
    IntMinHeap.trace_agree fuel placeholder Node.data (fun _ => rfl) ops IntMinHeap.new
      (by rw [hlen]) (by rw [hlen]; omega) hint, ?_⟩
  exact IntMinHeap.trace_complete fuel ops IntMinHeap.new IntMinHeap.ReachableCapped.init
    (by rw [hlen]; omega) (by rw [hlen]; omega) hint

theorem intMinHeap_agrees_with_minHeap_witness :
    (MinHeap.trace 3 ([IntMinHeap.Op.insert 3, IntMinHeap.Op.insert 1, IntMinHeap.Op.removeMin,
        IntMinHeap.Op.removeMin, IntMinHeap.Op.removeMin, IntMinHeap.Op.insert 2].map
          IntMinHeap.toGeneric) (MinHeap.new ⟨7, -4⟩)).map (IntMinHeap.readRecord Node.key) =
      IntMinHeap.trace 3 [IntMinHeap.Op.insert 3, IntMinHeap.Op.insert 1,
        IntMinHeap.Op.removeMin, IntMinHeap.Op.removeMin, IntMinHeap.Op.removeMin,
        IntMinHeap.Op.insert 2] IntMinHeap.new ∧
    IntMinHeap.trace 3 [IntMinHeap.Op.insert 3, IntMinHeap.Op.insert 1,
        IntMinHeap.Op.removeMin, IntMinHeap.Op.removeMin, IntMinHeap.Op.removeMin,
        IntMinHeap.Op.insert 2] IntMinHeap.new =
      [some (.inserted, 1, [3]), some (.inserted, 2, [1, 3]), some (.removed 1, 1, [3]),
        some (.removed 3, 0, []), some (.threw .emptyHeap, 0, []),
        some (.inserted, 1, [2])] :=
  ⟨(intMinHeap_agrees_with_minHeap 3 ⟨7, -4⟩ [IntMinHeap.Op.insert 3, IntMinHeap.Op.insert 1,
      IntMinHeap.Op.removeMin, IntMinHeap.Op.removeMin, IntMinHeap.Op.removeMin,
      IntMinHeap.Op.insert 2]
      ⟨by decide, by decide, by decide, by decide, by decide, by decide, trivial⟩
      (by decide) (by decide)).1, rfl⟩

/-- C18 as stated fails on the calls `spineOps (2^31 + 1)`, which are `2^31 + 1`
inserts of `int`s and one `removeMin()`: run with 35 units of fuel on a new
`IntMinHeap` and on a new `MinHeap<int>` whose placeholder key is -1, the two records
differ; after the `removeMin()` the integer heap holds 1 in slot `2^31` and the
generic heap holds its placeholder there. -/
theorem intMinHeap_departs_from_minHeap :
    IntMinHeap.valuesInRange (IntMinHeap.spineOps 2147483649) ∧
      (MinHeap.trace 35 ((IntMinHeap.spineOps 2147483649).map IntMinHeap.toGeneric)
        (MinHeap.new belowPlaceholder)).map (IntMinHeap.readRecord Node.key) ≠
      IntMinHeap.trace 35 (IntMinHeap.spineOps 2147483649) IntMinHeap.new :=
  IntMinHeap.spineOps_part 2147483649 rfl belowPlaceholder (by decide) 35 (le_refl _)

/-- C19 (index safety), amended to heaps that never held more than `2^31` elements: on
a heap reachable without ever holding more than `2^31` elements (`ReachableCapped`,
`int` keys) the vector has `size() + 1` slots; every index `insert` uses is at least 1
and below the length after the push, every index `removeMin` uses is at least 1 and
below the length, neither call runs into undefined behaviour; `minHeapify` started on
a slot `1 <= i < 2^31` and `heapDecreaseKey` started on a slot `i >= 1` never use
index 0, and the loop of `heapDecreaseKey` at `i = 1` uses no index at all. -/
theorem minHeap_index_safety {T : Type} (fuel : Nat) (vec : List (Node T))
    (hreach : ReachableCapped vec) (hfuel : size vec ≤ fuel) (val : T) (key : Int)
    (hint : INT_MIN ≤ key ∧ key ≤ INT_MAX) :
    vec.length = size vec + 1 ∧
    (∀ k ∈ insertAccesses vec val key, 1 ≤ k ∧ k < (vec ++ [(⟨val, INT_MAX⟩ : Node T)]).length) ∧
    (∃ vec1, MinHeap.insert vec val key = .ok vec1 ()) ∧
    (∀ k ∈ removeMinAccesses fuel vec, 1 ≤ k ∧ k < vec.length) ∧
    removeMin fuel vec ≠ .undefinedBehaviour ∧
    (∀ (f i : Nat), 1 ≤ i → i < 2147483648 → i < vec.length →
      0 ∉ minHeapifyAccesses f vec i) ∧
    (∀ (i : Nat) (newKey : Int), 1 ≤ i → i < vec.length →
      0 ∉ heapDecreaseKeyAccesses vec i newKey) ∧
    (∀ f : Nat, decreaseLoopAccesses f vec 1 = []) := by
  obtain ⟨h1, hL, hord⟩ := reachable_inv hreach
  have hs := size_eq vec h1 (by omega)
  obtain ⟨v1, e1, _⟩ := insert_spec vec val key h1 (by omega) hint.2
  refine ⟨by omega, ?_, ⟨v1, e1⟩, removeMinAccesses_bound fuel vec h1 hL, ?_, ?_, ?_, ?_⟩
  · intro k hk
    have := insertAccesses_bound vec val key h1 (by omega) k hk
    simpa using this
  · by_cases c : vec.length = 1
    · rw [removeMin_empty fuel vec (by omega)]; simp
    · obtain ⟨n1, v3, _, e3, _⟩ := removeMin_spec fuel vec (by omega) hL (by omega) hord
      rw [e3]; simp
  · intro f i hi1 hi2 hi hc
    have := minHeapifyAccesses_bound f vec i hL hi2 hi1 hi 0 hc
    omega
  · intro i newKey hi1 hi hc
    unfold heapDecreaseKeyAccesses at hc
    obtain ⟨ni, hni⟩ := slot_of_lt vec i hi
    simp only [hni, List.mem_cons] at hc
    rcases hc with hc | hc
    · omega
    · split at hc
      · simp at hc
      · simp only [List.mem_cons] at hc
        rcases hc with hc | hc
        · omega
        · have := decreaseLoopAccesses_bound (i + 1) _ i hi1 (by simpa using hi) 0 hc
          omega
  · intro f
    cases f with
    | zero => rfl
    | succ f => rw [decreaseLoopAccesses]; simp

theorem minHeap_index_safety_witness :
    insertAccesses testHeap "job f" (-9) = [7, 7, 3, 7, 7, 3, 7, 3, 1, 3, 3, 1, 3, 1] ∧
      removeMinAccesses 6 testHeap = [1, 1, 6, 1, 2, 1, 3, 2, 1, 3, 1, 3] ∧
      (∀ k ∈ insertAccesses testHeap "job f" (-9),
        1 ≤ k ∧ k < (testHeap ++ [(⟨"job f", INT_MAX⟩ : Node String)]).length) ∧
      ∀ k ∈ removeMinAccesses 6 testHeap, 1 ≤ k ∧ k < testHeap.length :=
  have h := minHeap_index_safety 6 testHeap testHeap_reachable (by decide) "job f" (-9)
    (by decide)
  ⟨by decide, by decide, h.2.1, h.2.2.2.1⟩

/-- C19 as stated fails on `flatHeap`, the reachable heap of `2^31 + 2` slots that the
inserts of `flatPairs` build: `removeMin()` reaches `minHeapify(2^31)`, whose `left`
is 0, and the test `vec[le]->key < vec[i]->key` reads the key of the placeholder in
slot 0. -/
theorem minHeap_reads_placeholder_key :
    (∀ p ∈ flatPairs, INT_MIN ≤ p.2 ∧ p.2 ≤ INT_MAX) ∧
      insertAll (MinHeap.new highPlaceholder) flatPairs = .ok flatHeap () ∧
      Reachable flatHeap ∧ 0 ∈ removeMinAccesses 32 flatHeap :=
  ⟨flatPairs_int, flatPairs_insertAll, flatHeap_reachable, flatHeap_reads_zero⟩

/-- C20 (termination of sift-down), for both heaps: on a vector of at most `2^31`
slots and a start index `i >= 1`, if `i` doubled `d + 1` times is not below `size()`
then `d + 1` nested calls of `minHeapify(i)` suffice, so with that much fuel or more
the call does not run out; it returns normally when `i` is a slot; and every nested
call is made on `2i` or `2i + 1`, which is greater than `i` and below `size()`. -/
theorem minHeapify_terminates {T : Type} (d fuel : Nat) (hfuel : d + 1 ≤ fuel)
    (vec : List (Node T)) (i : Nat) (hcap : vec.length ≤ 2147483648) (h1 : 1 ≤ i)
    (hd : size vec ≤ 2 ^ (d + 1) * i)
    (ivec : List Int) (j : Nat) (hicap : ivec.length ≤ 2147483648) (hj1 : 1 ≤ j)
    (hjd : IntMinHeap.size ivec ≤ 2 ^ (d + 1) * j) :
    (minHeapify fuel vec i ≠ .outOfFuel ∧
      (i < vec.length → ∃ v2, minHeapify (d + 1) vec i = .ok v2 ()) ∧
      (∀ s1 sm, smallestLeft vec i = some s1 → smallestRight vec i s1 = some sm → sm ≠ i →
        (sm = 2 * i ∨ sm = 2 * i + 1) ∧ i < sm ∧ sm < size vec)) ∧
    (IntMinHeap.minHeapify fuel ivec j ≠ .outOfFuel ∧
      (j < ivec.length → ∃ v2, IntMinHeap.minHeapify (d + 1) ivec j = .ok v2 ())) := by
  refine ⟨⟨minHeapify_terminates_aux d fuel vec i hcap h1 hd hfuel, ?_,
    fun s1 sm e1 e2 hne => smallest_is_child vec i hcap s1 sm e1 e2 hne⟩, ?_, ?_⟩
  · intro hi
    obtain ⟨v2, e, _⟩ := minHeapify_total d vec i hcap h1 hi hd
    exact ⟨v2, e⟩
  · apply IntMinHeap.int_minHeapify_not_outOfFuel
    exact minHeapify_terminates_aux d fuel (IntMinHeap.liftVec ivec) j
      (by rwa [IntMinHeap.liftVec_length]) hj1 (by rw [IntMinHeap.liftVec_size]; exact hjd) hfuel
  · intro hj
    exact IntMinHeap.int_minHeapify_total d ivec j hicap hj1 hj hjd

theorem minHeapify_terminates_witness :
    minHeapify 3 testHeap 1 ≠ .outOfFuel ∧
      IntMinHeap.minHeapify 3 [INT_MAX, 9, 4, 3, 7, 5, 8] 1 ≠ .outOfFuel :=
  have h := minHeapify_terminates 2 3 (by decide) testHeap 1 (by decide) (by decide)
    (by decide) [INT_MAX, 9, 4, 3, 7, 5, 8] 1 (by decide) (by decide) (by decide)
  ⟨h.1.1, h.2.1⟩
